import Mathlib

/-!
# Verification of the dature configuration-merging core

This file gives a shallow embedding, in Lean 4, of the deep-merge engine,
conflict detector, field-group validator and source-location scanners of the
dature repository (`src/dature/deep_merge.py`, `src/dature/merge.py`,
`src/dature/field_group.py`, `src/dature/source_locators/`), and proves
properties of the embedded definitions.

Conventions of the embedding:

* Python JSON-like values (`JSONValue`) become the inductive type `JSON`;
  Python `dict`s become insertion-ordered association lists (Python dicts
  are ordered and never hold duplicate keys; well-formedness of keys is the
  explicit predicate `wfJSON` where a proof needs it).
* Python floats are modelled as rationals (the merge layer only copies and
  compares them; NaN/overflow behaviour is not exercised by these claims).
* Python `==` on JSON-like data (which equates `True`, `1` and `1.0`, and
  compares dicts by key set) is the Boolean function `pyEq`.
* Fallible Python code (raising `TypeError` etc.) returns `Except`.
* Python text is modelled as `List Char`; lines of a file as
  `List (List Char)` (the result of `str.splitlines`).
-/

set_option autoImplicit false

namespace Dature

/-- The JSON-like value tree (`JSONValue` in `src/dature/types.py`):
`Map<string,Tree> | List<Tree> | Scalar (string | int | float | bool | null)`.
Dicts are insertion-ordered association lists. -/
inductive JSON where
  | null : JSON
  | bool (b : Bool) : JSON
  | int (n : Int) : JSON
  | float (q : Rat) : JSON
  | str (s : String) : JSON
  | list (xs : List JSON) : JSON
  | dict (kvs : List (String × JSON)) : JSON
  deriving Repr

/-- Python `d[key]` lookup on an ordered dict modelled as an association
list: the first binding of the key wins (dicts built by the code never hold
duplicate keys). -/
def lookupAssoc : List (String × JSON) → String → Option JSON
  | [], _ => none
  | (k, v) :: rest, key => if k = key then some v else lookupAssoc rest key

/-- Python `d[key] = value` on an ordered dict: replaces the first binding
in place (keeping its position) or appends a new binding at the end. -/
def assocSet : List (String × JSON) → String → JSON → List (String × JSON)
  | [], key, v => [(key, v)]
  | (k, w) :: rest, key, v =>
    if k = key then (k, v) :: rest else (k, w) :: assocSet rest key v

/-- Python `type(x).__name__` for the JSON-like values. -/
def typeName : JSON → String
  | .null => "NoneType"
  | .bool _ => "bool"
  | .int _ => "int"
  | .float _ => "float"
  | .str _ => "str"
  | .list _ => "list"
  | .dict _ => "dict"

/-- The numeric view Python uses for cross-type `==` and `<`:
`bool` is an `int` subtype (`True == 1`), and `int`/`float` compare by
value. Returns `none` for non-numeric values. -/
def toRat? : JSON → Option Rat
  | .bool b => some (if b then 1 else 0)
  | .int n => some (n : Rat)
  | .float q => some q
  | _ => none

mutual

/-- Python `==` on JSON-like values: numbers (incl. `bool`) compare by
numeric value, strings by content, lists pointwise, dicts by equal size and
key-wise equal values; any other cross-type comparison is `False`. -/
def pyEq : JSON → JSON → Bool
  | a, b =>
    match toRat? a, toRat? b with
    | some x, some y => x = y
    | _, _ =>
      match a, b with
      | .null, .null => true
      | .str s, .str t => s = t
      | .list xs, .list ys => pyEqList xs ys
      | .dict da, .dict db => da.length = db.length && pyEqDictSub da db
      | _, _ => false
termination_by a => sizeOf a

/-- Pointwise Python `==` on lists (already known to have equal length at
the call site inside `pyEq`; here inequal lengths yield `false`). -/
def pyEqList : List JSON → List JSON → Bool
  | [], [] => true
  | x :: xs, y :: ys => pyEq x y && pyEqList xs ys
  | _, _ => false
termination_by xs => sizeOf xs

/-- One half of Python dict `==`: every binding of the first dict has a
`pyEq`-equal value in the second (with equal sizes this is dict equality). -/
def pyEqDictSub : List (String × JSON) → List (String × JSON) → Bool
  | [], _ => true
  | (k, v) :: rest, b =>
    (match lookupAssoc b k with
     | some w => pyEq v w
     | none => false) && pyEqDictSub rest b
termination_by kvs => sizeOf kvs

end

/-- Keys of a dict level are pairwise distinct (true of every Python dict). -/
def nodupKeys : List (String × JSON) → Bool
  | [] => true
  | (k, _) :: rest => !(rest.any fun kv => kv.1 = k) && nodupKeys rest

mutual

/-- Well-formedness of a tree as produced by Python deserializers: every
dict level has pairwise-distinct keys. -/
def wfJSON : JSON → Bool
  | .null | .bool _ | .int _ | .float _ | .str _ => true
  | .list xs => wfList xs
  | .dict kvs => nodupKeys kvs && wfDict kvs
termination_by t => sizeOf t

def wfList : List JSON → Bool
  | [] => true
  | v :: rest => wfJSON v && wfList rest
termination_by xs => sizeOf xs

def wfDict : List (String × JSON) → Bool
  | [] => true
  | (_, v) :: rest => wfJSON v && wfDict rest
termination_by kvs => sizeOf kvs

end

/-- The global merge strategies (`MergeStrategy` in `src/dature/metadata.py`). -/
inductive MergeStrategy where
  | LAST_WINS
  | FIRST_WINS
  | RAISE_ON_CONFLICT
  deriving Repr, DecidableEq

/-- Per-field merge strategies (`FieldMergeStrategy` in `src/dature/metadata.py`). -/
inductive FieldMergeStrategy where
  | FIRST_WINS
  | LAST_WINS
  | APPEND
  | APPEND_UNIQUE
  | PREPEND
  | PREPEND_UNIQUE
  | MAX
  | MIN
  deriving Repr, DecidableEq

/-- The strategy names used in the `TypeError` messages of
`_ensure_both_lists` / `apply_field_merge`. -/
def strategyName : FieldMergeStrategy → String
  | .FIRST_WINS => "FIRST_WINS"
  | .LAST_WINS => "LAST_WINS"
  | .APPEND => "APPEND"
  | .APPEND_UNIQUE => "APPEND_UNIQUE"
  | .PREPEND => "PREPEND"
  | .PREPEND_UNIQUE => "PREPEND_UNIQUE"
  | .MAX => "MAX"
  | .MIN => "MIN"

/-- Errors raised by the merge subsystem: `TypeError` from field-merge
strategies, the aggregate `MergeConflictError` (its per-conflict location
resolution, an I/O concern, is not modelled; the error carries the conflict
records themselves), and `ValueError` from `deep_merge`. -/
inductive MergeError where
  | typeError (msg : String)
  | conflictError (records : List (List String × List (Nat × JSON)))
  | valueError (msg : String)
  deriving Repr

/-- `_deduplicate_list` (src/dature/deep_merge.py:9): keep the first
occurrence of each element under Python `==`. -/
def deduplicateList : List JSON → List JSON :=
  go []
where
  /-- The accumulating loop: `seen` holds the kept elements in order. -/
  go (seen : List JSON) : List JSON → List JSON
    | [] => seen.reverse
    | item :: rest =>
      if seen.any fun s => pyEq s item then go seen rest
      else go (item :: seen) rest

/-- `_ensure_both_lists` (src/dature/deep_merge.py:22): both values must be
lists, else `TypeError` naming the strategy and both observed types. -/
def ensureBothLists (base override : JSON) (strategyNm : String) :
    Except MergeError (List JSON × List JSON) :=
  match base, override with
  | .list b, .list o => .ok (b, o)
  | _, _ =>
    .error (.typeError (strategyNm ++ " strategy requires both values to be lists, got "
      ++ typeName base ++ " and " ++ typeName override))

/-- `_apply_list_merge` (src/dature/deep_merge.py:35). -/
def applyListMerge (base override : JSON) (strategy : FieldMergeStrategy) :
    Except MergeError (List JSON) :=
  match strategy with
  | .APPEND => do
    let (b, o) ← ensureBothLists base override "APPEND"
    pure (b ++ o)
  | .APPEND_UNIQUE => do
    let (b, o) ← ensureBothLists base override "APPEND_UNIQUE"
    pure (deduplicateList (b ++ o))
  | .PREPEND => do
    let (b, o) ← ensureBothLists base override "PREPEND"
    pure (o ++ b)
  | _ => do
    let (b, o) ← ensureBothLists base override "PREPEND_UNIQUE"
    pure (deduplicateList (o ++ b))

/-- Python `isinstance(x, (int, float, str))`; note `bool` is a subtype of
`int` in Python, so booleans pass this check. -/
def isComparable : JSON → Bool
  | .bool _ | .int _ | .float _ | .str _ => true
  | _ => false

/-- Python `a < b` restricted to the values reaching `max`/`min` in
`apply_field_merge`: numbers (incl. bool) compare numerically, strings
lexicographically; a number/string mix raises `TypeError` (the runtime
message of CPython names both types; modelled without quote characters). -/
def pyLt (a b : JSON) : Except MergeError Bool :=
  match toRat? a, toRat? b with
  | some x, some y => .ok (x < y)
  | _, _ =>
    match a, b with
    | .str s, .str t => .ok (s < t)
    | _, _ =>
      .error (.typeError ("< not supported between instances of "
        ++ typeName a ++ " and " ++ typeName b))

/-- Python `max(base, override)`: returns `base` unless `override > base`
(i.e. `base < override`). -/
def pyMax (base override : JSON) : Except MergeError JSON := do
  let lt ← pyLt base override
  pure (if lt then override else base)

/-- Python `min(base, override)`: returns `base` unless `override < base`. -/
def pyMin (base override : JSON) : Except MergeError JSON := do
  let lt ← pyLt override base
  pure (if lt then override else base)

/-- `apply_field_merge` (src/dature/deep_merge.py:60): dispatch a per-field
strategy to a pair of leaf values. -/
def applyFieldMerge (base override : JSON) (strategy : FieldMergeStrategy) :
    Except MergeError JSON :=
  match strategy with
  | .FIRST_WINS => .ok base
  | .LAST_WINS => .ok override
  | .APPEND | .APPEND_UNIQUE | .PREPEND | .PREPEND_UNIQUE => do
    let r ← applyListMerge base override strategy
    pure (.list r)
  | .MAX =>
    if isComparable base && isComparable override then pyMax base override
    else
      .error (.typeError ("MAX strategy requires comparable values, got "
        ++ typeName base ++ " and " ++ typeName override))
  | .MIN =>
    if isComparable base && isComparable override then pyMin base override
    else
      .error (.typeError ("MIN strategy requires comparable values, got "
        ++ typeName base ++ " and " ++ typeName override))

/-- The per-path strategy map (`field_merge_map`), keyed by dotted path;
`none` models Python `None`. -/
def FieldMergeMap := List (String × FieldMergeStrategy)

/-- Lookup of a dotted path in the optional field-merge map
(`field_merge_map is not None and _path in field_merge_map`). -/
def lookupStrategy (fmap : Option FieldMergeMap) (path : String) :
    Option FieldMergeStrategy :=
  match fmap with
  | none => none
  | some m => go m
where
  go : List (String × FieldMergeStrategy) → Option FieldMergeStrategy
    | [] => none
    | (k, s) :: rest => if k = path then some s else go rest

/-- The child dotted path: `f"{_path}.{key}" if _path else key`. -/
def childPath (path key : String) : String :=
  if path = "" then key else path ++ "." ++ key

mutual

/-- `deep_merge_last_wins` (src/dature/deep_merge.py:92): an explicit
field-strategy entry at the current dotted path is applied directly (no
recursion below it); two dicts merge key-by-key extending the path; in any
other case the new (`override`) value wins. -/
def deepMergeLastWins (fmap : Option FieldMergeMap) :
    JSON → JSON → String → Except MergeError JSON
  | base, override, path =>
    match lookupStrategy fmap path with
    | some s => applyFieldMerge base override s
    | none =>
      match base, override with
      | .dict bkvs, .dict okvs => do
        let r ← deepMergeLastWinsGo fmap path bkvs okvs
        pure (.dict r)
      | _, override => pure override
termination_by _ override _ => sizeOf override

/-- The `for key, value in override.items()` loop of `deep_merge_last_wins`:
`result` starts as `dict(base)` and is updated key by key. -/
def deepMergeLastWinsGo (fmap : Option FieldMergeMap) (path : String)
    (result : List (String × JSON)) :
    List (String × JSON) → Except MergeError (List (String × JSON))
  | [] => pure result
  | (key, value) :: rest =>
    match lookupAssoc result key with
    | some bv => do
      let m ← deepMergeLastWins fmap bv value (childPath path key)
      deepMergeLastWinsGo fmap path (assocSet result key m) rest
    | none => deepMergeLastWinsGo fmap path (result ++ [(key, value)]) rest
termination_by okvs => sizeOf okvs

end

mutual

/-- `deep_merge_first_wins` (src/dature/deep_merge.py:119): identical to
`deep_merge_last_wins` except that with no explicit rule and not both
dicts, the accumulated (`base`) value wins. -/
def deepMergeFirstWins (fmap : Option FieldMergeMap) :
    JSON → JSON → String → Except MergeError JSON
  | base, override, path =>
    match lookupStrategy fmap path with
    | some s => applyFieldMerge base override s
    | none =>
      match base, override with
      | .dict bkvs, .dict okvs => do
        let r ← deepMergeFirstWinsGo fmap path bkvs okvs
        pure (.dict r)
      | base, _ => pure base
termination_by _ override _ => sizeOf override

/-- The `for key, value in override.items()` loop of `deep_merge_first_wins`. -/
def deepMergeFirstWinsGo (fmap : Option FieldMergeMap) (path : String)
    (result : List (String × JSON)) :
    List (String × JSON) → Except MergeError (List (String × JSON))
  | [] => pure result
  | (key, value) :: rest =>
    match lookupAssoc result key with
    | some bv => do
      let m ← deepMergeFirstWins fmap bv value (childPath path key)
      deepMergeFirstWinsGo fmap path (assocSet result key m) rest
    | none => deepMergeFirstWinsGo fmap path (result ++ [(key, value)]) rest
termination_by okvs => sizeOf okvs

end

/-- `deep_merge` (src/dature/deep_merge.py:220): dispatch on the global
strategy; `RAISE_ON_CONFLICT` is not a leaf strategy and raises `ValueError`. -/
def deepMerge (base override : JSON) (strategy : MergeStrategy)
    (fmap : Option FieldMergeMap) : Except MergeError JSON :=
  match strategy with
  | .LAST_WINS => deepMergeLastWins fmap base override ""
  | .FIRST_WINS => deepMergeFirstWins fmap base override ""
  | .RAISE_ON_CONFLICT => .error (.valueError "Use merge_sources for RAISE_ON_CONFLICT strategy")

/-- Structural image of the `deepMergeLastWinsGo` loop, abstracted over the
merge applied to the values of colliding keys. A verification aid: together
with `mergeLWFuel` it lets concrete merges be evaluated by reduction, which
the well-founded recursion of `deepMergeLastWins` does not allow. -/
def goLWWith (mrg : JSON → JSON → String → Except MergeError JSON)
    (path : String) :
    List (String × JSON) → List (String × JSON) →
      Except MergeError (List (String × JSON))
  | result, [] => .ok result
  | result, (key, value) :: rest =>
    match lookupAssoc result key with
    | some bv =>
      match mrg bv value (childPath path key) with
      | .ok m => goLWWith mrg path (assocSet result key m) rest
      | .error e => .error e
    | none => goLWWith mrg path (result ++ [(key, value)]) rest

/-- The non-recursive node step of `deepMergeLastWins`, factored out so that
`mergeLWFuel` gets plain unfolding equations. -/
def mergeLWStep
    (go : List (String × JSON) → List (String × JSON) →
      Except MergeError (List (String × JSON))) :
    JSON → JSON → Except MergeError JSON
  | .dict bkvs, .dict okvs =>
    match go bkvs okvs with
    | .ok r => .ok (.dict r)
    | .error e => .error e
  | _, o => .ok o

/-- Fuel-bounded structural mirror of `deepMergeLastWins`: agrees with it
whenever the fuel exceeds the size of the override tree
(`mergeLWFuel_spec`), and being structurally recursive it evaluates on
concrete inputs by reduction. -/
def mergeLWFuel : Nat → Option FieldMergeMap → JSON → JSON → String →
    Except MergeError JSON
  | 0, _, _, _, _ => .error (.valueError "fuel")
  | n + 1, fmap, base, override, path =>
    match lookupStrategy fmap path with
    | some s => applyFieldMerge base override s
    | none => mergeLWStep (goLWWith (mergeLWFuel n fmap) path) base override

/-- A conflict record of `_collect_conflicts`: the path (list of segments)
and the `(sourceIndex, value)` pairs of the contributing sources. -/
abbrev Conflict := List String × List (Nat × JSON)

/-- The `key_sources[key]` entry of `_collect_conflicts`
(src/dature/deep_merge.py:153): the `(i, value)` pairs contributed at `key`
by the dict-valued entries of `dicts`, indices counting every entry. -/
def sourcesForAux (key : String) (i : Nat) : List JSON → List (Nat × JSON)
  | [] => []
  | d :: rest =>
    match d with
    | .dict kvs =>
      match lookupAssoc kvs key with
      | some v => (i, v) :: sourcesForAux key (i + 1) rest
      | none => sourcesForAux key (i + 1) rest
    | _ => sourcesForAux key (i + 1) rest

/-- The contributors at `key` across `dicts`, with original indices. -/
def sourcesFor (dicts : List JSON) (key : String) : List (Nat × JSON) :=
  sourcesForAux key 0 dicts

/-- Extend a key-order accumulator with the keys of one dict, in order,
skipping keys already seen (Python dict insertion order of `key_sources`). -/
def addKeys (acc : List String) : List (String × JSON) → List String
  | [] => acc
  | (k, _) :: rest =>
    if acc.contains k then addKeys acc rest else addKeys (acc ++ [k]) rest

/-- First-seen iteration order of the keys of `key_sources` in
`_collect_conflicts`. -/
def keyOrderAux (acc : List String) : List JSON → List String
  | [] => acc
  | .dict kvs :: rest => keyOrderAux (addKeys acc kvs) rest
  | _ :: rest => keyOrderAux acc rest

/-- The keys contributed by any dict among `dicts`, in first-seen order. -/
def keyOrder (dicts : List JSON) : List String :=
  keyOrderAux [] dicts

/-- Python `isinstance(v, dict)`. -/
def isDictB : JSON → Bool
  | .dict _ => true
  | _ => false

/-- Python `".".join(parts)`. -/
def joinDots : List String → String
  | [] => ""
  | [p] => p
  | p :: rest => p ++ "." ++ joinDots rest

mutual

/-- `_collect_conflicts` (src/dature/deep_merge.py:146): walk the parallel
trees, grouping contributors per key; record a conflict when ≥ 2 sources
contribute, the dotted path has no field-merge entry, not every contributed
value is a dict (else recurse), and the values are not all Python-equal. -/
def collectConflicts (dicts : List JSON) (path : List String)
    (fmap : Option FieldMergeMap) : List Conflict :=
  conflictsForKeys dicts path fmap (keyOrder dicts)
termination_by (sizeOf dicts, (keyOrder dicts).length + 1)

/-- The `for key, sources in key_sources.items()` loop of
`_collect_conflicts`; conflicts of earlier keys precede later ones. -/
def conflictsForKeys (dicts : List JSON) (path : List String)
    (fmap : Option FieldMergeMap) : List String → List Conflict
  | [] => []
  | key :: ks =>
    let srcs := sourcesFor dicts key
    let rest := conflictsForKeys dicts path fmap ks
    if h2 : srcs.length < 2 then rest
    else
      if (lookupStrategy fmap (joinDots (path ++ [key]))).isSome then rest
      else
        let values := srcs.map Prod.snd
        if (values.filter isDictB).length = srcs.length then
          collectConflicts values (path ++ [key]) fmap ++ rest
        else
          match values with
          | [] => rest
          | v0 :: vtail =>
            if vtail.all fun v => pyEq v v0 then rest
            else (path ++ [key], srcs) :: rest
termination_by keys => (sizeOf dicts, keys.length)
decreasing_by
· apply Prod.Lex.right
  simp
· apply Prod.Lex.left
  have hlookup : ∀ (kvs : List (String × JSON)) (k : String) (v : JSON),
      lookupAssoc kvs k = some v → sizeOf v < sizeOf kvs := by
    intro kvs
    induction kvs with
    | nil => intro k v h; simp [lookupAssoc] at h
    | cons hd tl ih =>
      intro k v h
      obtain ⟨k1, w⟩ := hd
      by_cases hk : k1 = k
      · rw [lookupAssoc, if_pos hk] at h
        cases h
        simp
        omega
      · rw [lookupAssoc, if_neg hk] at h
        have := ih k v h
        simp
        omega
  have hsz : ∀ (l : List JSON) (k : String) (i : Nat),
      sizeOf ((sourcesForAux k i l).map Prod.snd) ≤ sizeOf l ∧
        (sourcesForAux k i l ≠ [] →
          sizeOf ((sourcesForAux k i l).map Prod.snd) < sizeOf l) := by
    intro l k
    induction l with
    | nil =>
      intro i
      refine ⟨by simp [sourcesForAux], fun h => absurd rfl h⟩
    | cons d rest ih =>
      intro i
      cases d with
      | dict kvs =>
        cases hl : lookupAssoc kvs k with
        | some v =>
          have hv := hlookup kvs k v hl
          have ht := (ih (i + 1)).1
          constructor
          · simp [sourcesForAux, hl]
            omega
          · intro _
            simp [sourcesForAux, hl]
            omega
        | none =>
          have ht := (ih (i + 1)).1
          constructor
          · simp only [sourcesForAux, hl]
            simp
            omega
          · intro _
            simp only [sourcesForAux, hl]
            simp
            omega
      | null =>
        have ht := (ih (i + 1)).1
        exact ⟨by simp [sourcesForAux]; omega, fun _ => by simp [sourcesForAux]; omega⟩
      | bool b =>
        have ht := (ih (i + 1)).1
        exact ⟨by simp [sourcesForAux]; omega, fun _ => by simp [sourcesForAux]; omega⟩
      | int n =>
        have ht := (ih (i + 1)).1
        exact ⟨by simp [sourcesForAux]; omega, fun _ => by simp [sourcesForAux]; omega⟩
      | float q =>
        have ht := (ih (i + 1)).1
        exact ⟨by simp [sourcesForAux]; omega, fun _ => by simp [sourcesForAux]; omega⟩
      | str s =>
        have ht := (ih (i + 1)).1
        exact ⟨by simp [sourcesForAux]; omega, fun _ => by simp [sourcesForAux]; omega⟩
      | list xs =>
        have ht := (ih (i + 1)).1
        exact ⟨by simp [sourcesForAux]; omega, fun _ => by simp [sourcesForAux]; omega⟩
  have hne : sourcesFor dicts key ≠ [] := by
    intro hemp
    apply h2
    show (sourcesFor dicts key).length < 2
    rw [hemp]
    decide
  have := (hsz dicts key 0).2 hne
  simpa [sourcesFor] using this

end

/-- `raise_on_conflict` (src/dature/deep_merge.py:190): collect every
conflict, return normally when there are none, else raise one aggregate
`MergeConflictError` carrying all records together. (The per-record source
location resolution — file I/O — is outside this model; the aggregate
carries the records themselves.) -/
def raiseOnConflict (dicts : List JSON) (fmap : Option FieldMergeMap) :
    Except MergeError Unit :=
  let conflicts := collectConflicts dicts [] fmap
  if conflicts.isEmpty then .ok () else .error (.conflictError conflicts)

/-- The merge fold of `_merge_raw_dicts` (src/dature/merge.py:113):
`merged = {}`, then fold every source in order; under `RAISE_ON_CONFLICT`
the fold itself uses `deep_merge_last_wins`. -/
def mergeRawDicts (rawDicts : List JSON) (strategy : MergeStrategy)
    (fmap : Option FieldMergeMap) : Except MergeError JSON :=
  go (.dict []) rawDicts
where
  /-- The `for step_idx, raw in enumerate(raw_dicts)` loop. -/
  go (merged : JSON) : List JSON → Except MergeError JSON
    | [] => pure merged
    | raw :: rest => do
      let m ←
        if strategy = .RAISE_ON_CONFLICT then deepMergeLastWins fmap merged raw ""
        else deepMerge merged raw strategy fmap
      go m rest

/-- The merge phase of `_load_and_merge` (src/dature/merge.py:275):
under `RAISE_ON_CONFLICT`, `raise_on_conflict` runs before any merging;
then the sources are folded by `_merge_raw_dicts`. -/
def loadAndMerge (rawDicts : List JSON) (strategy : MergeStrategy)
    (fmap : Option FieldMergeMap) : Except MergeError JSON := do
  if strategy = .RAISE_ON_CONFLICT then
    raiseOnConflict rawDicts fmap
  mergeRawDicts rawDicts strategy fmap

/-- Python `str.split(sep)` for a one-character separator: always yields at
least one (possibly empty) part. -/
def splitOnChar (c : Char) : List Char → List (List Char)
  | [] => [[]]
  | x :: rest =>
    match splitOnChar c rest with
    | [] => [[]]
    | g :: gs => if x = c then [] :: g :: gs else (x :: g) :: gs

/-- `dot_path.split(".")` as a list of strings. -/
def splitDots (s : String) : List String :=
  (splitOnChar '.' s.data).map fun cs => ⟨cs⟩

/-- `_get_nested_value` (src/dature/field_group.py:17): follow a dotted
path through nested dicts; `none` models the `_SENTINEL` result. -/
def getNestedValue (data : JSON) (dotPath : String) : Option JSON :=
  match data with
  | .dict _ => walk data (splitDots dotPath)
  | _ => none
where
  /-- The `for part in parts` loop. -/
  walk : JSON → List String → Option JSON
    | cur, [] => some cur
    | cur, part :: rest =>
      match cur with
      | .dict kvs =>
        match lookupAssoc kvs part with
        | some v => walk v rest
        | none => none
      | _ => none

/-- `FieldGroupViolationError` (src/dature/errors.py): one group violation. -/
structure FieldGroupViolation where
  groupFields : List String
  changedFields : List String
  unchangedFields : List String
  changedSources : List String
  unchangedSources : List String
  sourceIndex : Nat
  deriving Repr

/-- `FieldGroupContext` (src/dature/field_group.py:10). -/
structure FieldGroupContext where
  sourceReprs : List String
  fieldOrigins : List (String × Nat)
  dataclassName : String
  deriving Repr

/-- `ctx.field_origins.get(path)`. -/
def lookupOrigin : List (String × Nat) → String → Option Nat
  | [], _ => none
  | (k, i) :: rest, path => if k = path then some i else lookupOrigin rest path

/-- The changed/unchanged partition built by the `for path in group.paths`
loop of `validate_field_groups`. -/
structure GroupClassification where
  changed : List String
  changedSources : List String
  unchanged : List String
  unchangedSources : List String
  deriving Repr

/-- The `for path in group.paths` loop of `validate_field_groups`
(src/dature/field_group.py:46): a path absent from the new source, or one
whose source value `pyEq`-equals the running merged value, is unchanged;
any other supplied value is changed. (List indexing into `source_reprs` is
modelled with a default; every call keeps indices in range.) -/
def classifyGroup (base source : JSON) (ctx : FieldGroupContext)
    (sourceIndex : Nat) : List String → GroupClassification
  | [] => ⟨[], [], [], []⟩
  | path :: rest =>
    let r := classifyGroup base source ctx sourceIndex rest
    match getNestedValue source path with
    | none =>
      let srcRepr :=
        match lookupOrigin ctx.fieldOrigins path with
        | some i => ctx.sourceReprs.getD i ""
        | none => "none"
      ⟨r.changed, r.changedSources, path :: r.unchanged, srcRepr :: r.unchangedSources⟩
    | some sv =>
      let eqBase :=
        match getNestedValue base path with
        | some bv => pyEq sv bv
        | none => false
      if eqBase then
        let srcRepr :=
          match lookupOrigin ctx.fieldOrigins path with
          | some i => ctx.sourceReprs.getD i ""
          | none => ctx.sourceReprs.getD sourceIndex ""
        ⟨r.changed, r.changedSources, path :: r.unchanged, srcRepr :: r.unchangedSources⟩
      else
        ⟨path :: r.changed, ctx.sourceReprs.getD sourceIndex "" :: r.changedSources,
          r.unchanged, r.unchangedSources⟩

/-- The `for group in field_group_paths` loop of `validate_field_groups`:
record a violation exactly when both partitions are non-empty. -/
def violationsOf (base source : JSON) (groups : List (List String))
    (sourceIndex : Nat) (ctx : FieldGroupContext) : List FieldGroupViolation :=
  match groups with
  | [] => []
  | g :: gs =>
    let c := classifyGroup base source ctx sourceIndex g
    let rest := violationsOf base source gs sourceIndex ctx
    if !c.changed.isEmpty && !c.unchanged.isEmpty then
      { groupFields := g
        changedFields := c.changed
        unchangedFields := c.unchanged
        changedSources := c.changedSources
        unchangedSources := c.unchangedSources
        sourceIndex := sourceIndex } :: rest
    else rest

/-- `validate_field_groups` (src/dature/field_group.py:29): classify every
group of one source, then raise a `FieldGroupError` carrying all of this
call's violations together when there are any. -/
def validateFieldGroups (base source : JSON) (fieldGroupPaths : List (List String))
    (sourceIndex : Nat) (ctx : FieldGroupContext) :
    Except (String × List FieldGroupViolation) Unit :=
  let violations := violationsOf base source fieldGroupPaths sourceIndex ctx
  if violations.isEmpty then .ok () else .error (ctx.dataclassName, violations)

/-- Update the `fieldOrigin` map after folding one source: every group leaf
supplied by the source now originates from it (spec §4.6: the last source
that set each leaf). -/
def updateOrigins (origins : List (String × Nat)) (groups : List (List String))
    (src : JSON) (i : Nat) : List (String × Nat) :=
  groups.flatten.foldl
    (fun o p => if (getNestedValue src p).isSome then setOrigin o p i else o)
    origins
where
  /-- `origins[path] = i`. -/
  setOrigin : List (String × Nat) → String → Nat → List (String × Nat)
    | [], p, j => [(p, j)]
    | (k, w) :: rest, p, j =>
      if k = p then (k, j) :: rest else (k, w) :: setOrigin rest p j

/-- Modelled from the spec: the caller that applies field-group validation
across the ordered source sequence is missing from the provided sources
(only `field_group.py` itself is present; the module that imports
`validate_field_groups` is absent from the snapshot). Per spec §4.6 the
driver threads a running merged-so-far tree and the `fieldOrigin` map,
validates every source against every group via the classification of
`validate_field_groups`, runs to completion, and only then raises every
violation of the whole sequence together. The running tree is folded with
the LAST_WINS deep merge without field rules, which cannot fail (the
`.error` branch below is unreachable). -/
def fieldGroupSeqAux (groups : List (List String)) (reprs : List String)
    (name : String) :
    List JSON → Nat → JSON → List (String × Nat) → List FieldGroupViolation
  | [], _, _, _ => []
  | src :: rest, i, merged, origins =>
    let vs := violationsOf merged src groups i ⟨reprs, origins, name⟩
    let merged2 :=
      match deepMergeLastWins none merged src "" with
      | .ok m => m
      | .error _ => merged
    vs ++ fieldGroupSeqAux groups reprs name rest (i + 1) merged2
      (updateOrigins origins groups src i)

/-- Modelled from the spec (§4.6, see `fieldGroupSeqAux`): validate the
whole source sequence, collecting every violation of every source and
group, and raise them together in one error. -/
def validateFieldGroupsSequence (sources : List JSON) (groups : List (List String))
    (reprs : List String) (name : String) :
    Except (String × List FieldGroupViolation) Unit :=
  let vs := fieldGroupSeqAux groups reprs name sources 0 (.dict []) []
  if vs.isEmpty then .ok () else .error (name, vs)

/-! ## Source locators (scanners)

Text is `List Char`; a file is its `splitlines` result `List (List Char)`.
The cursor of the character-stream scanners is modelled as the remaining
suffix of the text (Python index `pos` corresponds to `content.drop pos`),
which makes every forward scan structurally decreasing. -/

/-- `LineRange` (src/dature/errors.py): 1-based inclusive line range.
(The Python field `end` is a Lean keyword; it is named `stop` here.) -/
structure LineRange where
  start : Nat
  stop : Nat
  deriving Repr, DecidableEq

/-- The single-quote character (written via its code point). -/
def squote : Char := Char.ofNat 39

/-- The quote characters stripped by `strip("\"'")`. -/
def quoteChars : List Char := ['"', squote]

/-- Python `str.isspace` characters relevant to `strip`/`lstrip`
(ASCII whitespace; the sources are ASCII configuration text). -/
def pyIsSpace (c : Char) : Bool :=
  c = ' ' || c = '\t' || c = '\n' || c = '\r' || c = '\x0b' || c = '\x0c'

/-- Python `str.lstrip()`. -/
def lstripChars (cs : List Char) : List Char :=
  cs.dropWhile pyIsSpace

/-- Python `str.strip()`. -/
def stripChars (cs : List Char) : List Char :=
  ((cs.dropWhile pyIsSpace).reverse.dropWhile pyIsSpace).reverse

/-- Python `str.strip(set)` for a character set. -/
def stripSet (set : List Char) (cs : List Char) : List Char :=
  ((cs.dropWhile set.contains).reverse.dropWhile set.contains).reverse

/-- Python `str.partition(sep)` for a one-character separator: `some`
of the parts before/after the first occurrence, else `none`. -/
def partitionChar (c : Char) : List Char → Option (List Char × List Char)
  | [] => none
  | x :: rest =>
    if x = c then some ([], rest)
    else
      match partitionChar c rest with
      | some (b, a) => some (x :: b, a)
      | none => none

/-- Python `str.count(sub)` (non-overlapping, left to right) for a
non-empty `sub` (the only use is the three-character TOML delimiters). -/
def countSub (needle : List Char) : List Char → Nat
  | [] => 0
  | c :: rest =>
    if needle.isPrefixOf (c :: rest) then
      1 + countSub needle (rest.drop (needle.length - 1))
    else countSub needle rest
termination_by hay => hay.length
decreasing_by
· simp only [List.length_cons, List.length_drop]
  omega
· simp

/-- Python `sub in s` on text: substring test. -/
def isSubstring (needle : List Char) : List Char → Bool
  | [] => needle.isEmpty
  | c :: rest => needle.isPrefixOf (c :: rest) || isSubstring needle rest

/-- ### INI scanner (`TablePathFinder`, src/dature/source_locators/ini_.py)
The continuation scan: extend `end` while the following physical lines
start with a space or tab (`for j in range(line_num, len(lines))`). -/
def iniScanContinuation (lines : List (List Char)) (j : Nat) (endLine : Nat) : Nat :=
  if h : j < lines.length then
    let nl := lines.getD j []
    if nl.isEmpty || !(nl.head? = some ' ' || nl.head? = some '\t') then endLine
    else iniScanContinuation lines (j + 1) (j + 1)
  else endLine
termination_by lines.length - j

/-- `TablePathFinder._process_line` (src/dature/source_locators/ini_.py:10):
track the `[section]` state, and on a `key = value` / `key : value` line
whose key and section match the target, return the range extended over
indented continuation lines. `target_path[-1]` on an empty target raises
`IndexError`. -/
def iniProcessLine (lines : List (List Char)) (curSection : List String)
    (lineNum : Nat) (line : List Char) (targetPath : List String) :
    Except String (List String × Option LineRange) :=
  match targetPath.getLast? with
  | none => .error "IndexError: list index out of range"
  | some targetKey =>
    let targetParents := targetPath.dropLast
    let stripped := stripChars line
    if stripped.isEmpty || stripped.head? = some '#' || stripped.head? = some ';' then
      .ok (curSection, none)
    else if line.head? = some ' ' || line.head? = some '\t' then
      .ok (curSection, none)
    else if stripped.head? = some '[' && stripped.contains ']' then
      let sectionName := stripSet ('[' :: ']' :: [' ']) stripped
      .ok ((splitOnChar '.' sectionName).map fun cs => (⟨cs⟩ : String), none)
    else
      let sep : Char := if stripped.contains '=' then '=' else ':'
      if !stripped.contains sep then .ok (curSection, none)
      else
        let parts := (partitionChar sep stripped).getD (stripped, [])
        let key := stripSet quoteChars (stripChars parts.1)
        if ((⟨key⟩ : String) ≠ targetKey) || curSection ≠ targetParents then
          .ok (curSection, none)
        else
          .ok (curSection, some ⟨lineNum, iniScanContinuation lines lineNum lineNum⟩)

/-- `find_line_range` of the line-oriented base
(src/dature/source_locators/line_base.py:11) specialised to the INI
scanner: thread the section state over `enumerate(lines, 1)`. -/
def iniFindAux (lines : List (List Char)) (targetPath : List String) :
    Nat → List (List Char) → List String → Except String (Option LineRange)
  | _, [], _ => .ok none
  | i, line :: rest, sec => do
    let (sec2, res) ← iniProcessLine lines sec i line targetPath
    match res with
    | some r => .ok (some r)
    | none => iniFindAux lines targetPath (i + 1) rest sec2

/-- The INI `find_line_range` entry point. -/
def iniFindLineRange (lines : List (List Char)) (targetPath : List String) :
    Except String (Option LineRange) :=
  iniFindAux lines targetPath 1 lines []

/-- ### TOML scanner (src/dature/source_locators/toml_.py)
`_detect_unclosed_multiline`: a `"""` or `'''` delimiter occurring an odd
number of times in the value leaves the string unclosed. -/
def detectUnclosedMultiline (value : List Char) : Option (List Char) :=
  let d1 := "\"\"\"".data
  let d2 := List.replicate 3 squote
  if isSubstring d1 value && countSub d1 value % 2 = 1 then some d1
  else if isSubstring d2 value && countSub d2 value % 2 = 1 then some d2
  else none

/-- The `for j in range(start_line_1based, len(lines))` loop of
`_find_multiline_string_end`. -/
def findMultilineStringEndGo (lines : List (List Char)) (startLine1 : Nat)
    (delim : List Char) (j : Nat) : Nat :=
  if h : j < lines.length then
    if isSubstring delim (lines.getD j []) then j + 1
    else findMultilineStringEndGo lines startLine1 delim (j + 1)
  else startLine1
termination_by lines.length - j

/-- `_find_multiline_string_end` (toml_.py:66): first following line
containing the delimiter, 1-based; the opening line if none does. -/
def findMultilineStringEnd (lines : List (List Char)) (startLine1 : Nat)
    (delim : List Char) : Nat :=
  findMultilineStringEndGo lines startLine1 delim startLine1

/-- `_process_container_char` (toml_.py:80): depth/quote tracking for a
TOML inline container, one character at a time (a backslash is skipped but
carries no state to the next character, exactly as in the source).
The state is `(depth, in_string)`. -/
def processContainerChar (ch : Char) (state : Int × Option Char) : Int × Option Char :=
  match state.2 with
  | some q =>
    if ch = '\\' then state
    else if ch = q then (state.1, none)
    else state
  | none =>
    if ch = '"' || ch = squote then (state.1, some ch)
    else if ch = '{' || ch = '[' then (state.1 + 1, none)
    else if ch = '}' || ch = ']' then (state.1 - 1, none)
    else state

/-- The `for j in range(line_index + 1, len(lines))` loop of
`_find_inline_container_end`. -/
def findInlineContainerEndGo (lines : List (List Char)) (j : Nat)
    (state : Int × Option Char) : Nat :=
  if h : j < lines.length then
    let st2 := (lines.getD j []).foldl (fun st ch => processContainerChar ch st) state
    if st2.1 = 0 then j + 1 else findInlineContainerEndGo lines (j + 1) st2
  else lines.length
termination_by lines.length - j

/-- `_find_inline_container_end` (toml_.py:96): scan the value text, then
whole following lines, until the bracket depth returns to 0; falls back to
the last line of the file. -/
def findInlineContainerEnd (lines : List (List Char)) (lineIndex : Nat)
    (value : List Char) : Nat :=
  let state := value.foldl (fun st ch => processContainerChar ch st) ((0 : Int), none)
  if state.1 = 0 then lineIndex + 1
  else findInlineContainerEndGo lines (lineIndex + 1) state

/-- `TomlPathFinder._process_line` (toml_.py:13). State:
`(current_section, in_multiline)`. Inside an unclosed multi-line string
every line is skipped until one contains the delimiter; a section header
replaces the section; a matching `key = value` line yields a range covering
the multi-line string or inline container. `target_path[-1]` on an empty
target raises `IndexError`. -/
def tomlProcessLine (lines : List (List Char))
    (state : List String × Option (List Char)) (lineNum : Nat) (line : List Char)
    (targetPath : List String) :
    Except String ((List String × Option (List Char)) × Option LineRange) :=
  match targetPath.getLast? with
  | none => .error "IndexError: list index out of range"
  | some targetKey =>
    let targetParents := targetPath.dropLast
    match state.2 with
    | some delim =>
      if isSubstring delim line then .ok ((state.1, none), none)
      else .ok ((state.1, some delim), none)
    | none =>
      let stripped := stripChars line
      if stripped.isEmpty || stripped.head? = some '#' || stripped.head? = some ';' then
        .ok (state, none)
      else if stripped.head? = some '[' && stripped.contains ']' then
        let sectionName := stripSet ('[' :: ']' :: [' ']) stripped
        let newSection :=
          (splitOnChar '.' sectionName).map fun p => (⟨stripChars p⟩ : String)
        .ok ((newSection, none), none)
      else if !stripped.contains '=' then .ok (state, none)
      else
        let parts := (partitionChar '=' stripped).getD (stripped, [])
        let key := stripSet quoteChars (stripChars parts.1)
        let value := stripChars parts.2
        match detectUnclosedMultiline value with
        | some delim =>
          if ((⟨key⟩ : String) ≠ targetKey) || state.1 ≠ targetParents then
            .ok ((state.1, some delim), none)
          else
            .ok (state, some ⟨lineNum, findMultilineStringEnd lines lineNum delim⟩)
        | none =>
          if ((⟨key⟩ : String) ≠ targetKey) || state.1 ≠ targetParents then
            .ok (state, none)
          else
            .ok (state, some ⟨lineNum, findInlineContainerEnd lines (lineNum - 1) value⟩)

/-- The TOML `find_line_range` loop (line_base.py specialised). -/
def tomlFindAux (lines : List (List Char)) (targetPath : List String) :
    Nat → List (List Char) → List String × Option (List Char) →
    Except String (Option LineRange)
  | _, [], _ => .ok none
  | i, line :: rest, state => do
    let (st2, res) ← tomlProcessLine lines state i line targetPath
    match res with
    | some r => .ok (some r)
    | none => tomlFindAux lines targetPath (i + 1) rest st2

/-- The TOML `find_line_range` entry point. -/
def tomlFindLineRange (lines : List (List Char)) (targetPath : List String) :
    Except String (Option LineRange) :=
  tomlFindAux lines targetPath 1 lines ([], none)

/-- ### YAML scanner (src/dature/source_locators/yaml_.py)
The `while self._stack and self._stack[-1]["indent"] >= indent: pop` loop
(the stack is kept in Python order, bottom of the stack first). -/
def popGE (indent : Nat) (s : List (List Char × Nat)) : List (List Char × Nat) :=
  match h : s.getLast? with
  | some last => if indent ≤ last.2 then popGE indent s.dropLast else s
  | none => s
termination_by s.length
decreasing_by
  cases s with
  | nil => simp at h
  | cons x xs => simp

/-- The block/nested-value forward scan of `YamlPathFinder._process_line`
(yaml_.py:36): extend `end` over following lines with strictly greater
indentation, skipping blank and comment lines. -/
def yamlScanBlock (lines : List (List Char)) (indent : Nat) (j : Nat)
    (endLine : Nat) : Nat :=
  if h : j < lines.length then
    let nl := lines.getD j []
    let ns := lstripChars nl
    if ns.isEmpty || ns.head? = some '#' then yamlScanBlock lines indent (j + 1) endLine
    else if nl.length - ns.length ≤ indent then endLine
    else yamlScanBlock lines indent (j + 1) (j + 1)
  else endLine
termination_by lines.length - j

/-- The YAML block-scalar indicators `("|", ">", "|-", ">-", "|+", ">+")`. -/
def yamlBlockIndicators : List (List Char) :=
  ["|".data, ">".data, "|-".data, ">-".data, "|+".data, ">+".data]

/-- `YamlPathFinder._process_line` (yaml_.py:10): maintain the indentation
stack of `(key, indent)` entries, push this line's key, and if the stack
spells the target path return a single line (inline scalar) or the range of
the more-indented block below (block scalar / nested value). -/
def yamlProcessLine (lines : List (List Char)) (stack : List (List Char × Nat))
    (lineNum : Nat) (line : List Char) (targetPath : List String) :
    List (List Char × Nat) × Option LineRange :=
  let stripped := lstripChars line
  if stripped.isEmpty || stripped.head? = some '#' || stripped.head? = some '-' then
    (stack, none)
  else
    match partitionChar ':' stripped with
    | none => (stack, none)
    | some (keyPart, valuePart) =>
      let indent := line.length - stripped.length
      let key := stripSet quoteChars (stripChars keyPart)
      let stack2 := popGE indent stack ++ [(key, indent)]
      if stack2.map (fun e => (⟨e.1⟩ : String)) ≠ targetPath then (stack2, none)
      else
        let value := stripChars valuePart
        if !value.isEmpty && !yamlBlockIndicators.contains value then
          (stack2, some ⟨lineNum, lineNum⟩)
        else
          (stack2, some ⟨lineNum, yamlScanBlock lines indent lineNum lineNum⟩)

/-- The YAML `find_line_range` loop (line_base.py specialised); the YAML
scanner raises no exception, so it is a total function. -/
def yamlFindAux (lines : List (List Char)) (targetPath : List String) :
    Nat → List (List Char) → List (List Char × Nat) → Option LineRange
  | _, [], _ => none
  | i, line :: rest, stack =>
    match yamlProcessLine lines stack i line targetPath with
    | (_, some r) => some r
    | (st2, none) => yamlFindAux lines targetPath (i + 1) rest st2

/-- The YAML `find_line_range` entry point. -/
def yamlFindLineRange (lines : List (List Char)) (targetPath : List String) :
    Option LineRange :=
  yamlFindAux lines targetPath 1 lines []


/-! ### Character-stream scanners (JSON, JSON5)

`CharPathFinder` (src/dature/source_locators/char_base.py) walks the text
with a cursor `(pos, line)` and a stack of frames. Here the cursor is the
remaining suffix of the text (Python index `pos` corresponds to
`content.drop pos`); a Python helper returning a new position is embedded
as a function returning the number of characters it consumes, so that the
new suffix is a `List.drop` of the old one. A helper that also tracks the
line counter gets one Lean function per component, over the same walk. -/

/-- `StackEntry` (char_base.py:8). -/
structure StackEntry where
  key : Option String
  isArray : Bool
  arrayIndex : Int
  deriving Repr, DecidableEq

/-- `increment_parent_array` (char_base.py:98): bump the array index of the
innermost frame when it is an array frame. -/
def incrementParentArray (stack : List StackEntry) : List StackEntry :=
  match stack.getLast? with
  | some e =>
    if e.isArray then stack.dropLast ++ [{ e with arrayIndex := e.arrayIndex + 1 }]
    else stack
  | none => stack

/-- `build_path` (char_base.py:103): frame keys, array indices as decimal
strings, then the candidate key. -/
def buildPath (stack : List StackEntry) (currentKey : String) : List String :=
  (stack.foldl
    (fun acc e =>
      let acc2 := match e.key with | some k => acc ++ [k] | none => acc
      if e.isArray then acc2 ++ [toString e.arrayIndex] else acc2)
    []) ++ [currentKey]

/-- The scalar stop set of `skip_scalar` (char_base.py:114). -/
def skipScalarStop (c : Char) : Bool :=
  c = ' ' || c = '\t' || c = '\r' || c = '\n' || c = ',' || c = '}' || c = ']'

/-- `skip_scalar` (char_base.py:114): advance past a bare scalar token. -/
def skipScalar (cs : List Char) : List Char :=
  cs.dropWhile fun c => !skipScalarStop c

/-- `_skip_string` (json_.py:67) as the number of characters consumed,
counting from right after the opening quote to right after the closing one
(a backslash consumes the following character; Python `pos += 2` at the
last character overshoots by one, hence the `2` in the one-character
backslash case). -/
def jsonSkipStringCount : List Char → Nat
  | [] => 0
  | '\\' :: _ :: rest2 => 2 + jsonSkipStringCount rest2
  | '\\' :: [] => 2
  | '"' :: _ => 1
  | _ :: rest => 1 + jsonSkipStringCount rest

/-- The string body `content[string_start : end_pos - 1]`. -/
def jsonSkipStringVal (cs : List Char) : List Char :=
  cs.take (jsonSkipStringCount cs - 1)

/-- The cursor after `_skip_string`: the suffix after the closing quote. -/
def jsonSkipStringRest (cs : List Char) : List Char :=
  cs.drop (jsonSkipStringCount cs)

/-- The whitespace set of `_skip_ws` (json_.py:81). -/
def isJsonWs (c : Char) : Bool :=
  c = ' ' || c = '\t' || c = '\r' || c = '\n'

/-- `_skip_ws` (json_.py:81). -/
def skipWsChars (cs : List Char) : List Char :=
  cs.dropWhile isJsonWs

/-- `_skip_to_value_start` (json_.py:87), cursor component: past the `:`
and the whitespace after it. -/
def jsonSkipToValueStartRest : List Char → List Char
  | [] => []
  | c :: rest => if c = ':' then skipWsChars rest else jsonSkipToValueStartRest rest

/-- The newline counting of the whitespace loop of `_skip_to_value_start`. -/
def jsonWsLine : List Char → Nat → Nat
  | [], line => line
  | c :: rest, line =>
    if isJsonWs c then jsonWsLine rest (if c = '\n' then line + 1 else line)
    else line

/-- `_skip_to_value_start` (json_.py:87), line-counter component. -/
def jsonSkipToValueStartLine : List Char → Nat → Nat
  | [], line => line
  | c :: rest, line =>
    if c = ':' then jsonWsLine rest line
    else jsonSkipToValueStartLine rest (if c = '\n' then line + 1 else line)

/-- `_scan_container_end` (json_.py:109): bracket-depth scan (strings
skipped atomically), returning the line of the matching closing bracket;
called with the suffix after the opening bracket and depth 1. -/
def jsonScanContainerEnd : List Char → Int → Nat → Nat
  | rest, depth, line =>
    if depth ≤ 0 then line
    else
      match rest with
      | [] => line
      | '\n' :: tl => jsonScanContainerEnd tl depth (line + 1)
      | '"' :: tl => jsonScanContainerEnd (tl.drop (jsonSkipStringCount tl)) depth line
      | '{' :: tl => jsonScanContainerEnd tl (depth + 1) line
      | '[' :: tl => jsonScanContainerEnd tl (depth + 1) line
      | '}' :: tl => jsonScanContainerEnd tl (depth - 1) line
      | ']' :: tl => jsonScanContainerEnd tl (depth - 1) line
      | _ :: tl => jsonScanContainerEnd tl depth line
termination_by rest _ _ => rest.length
decreasing_by
all_goals simp only [List.length_cons, List.length_drop]
all_goals omega

/-- `JsonPathFinder._find_value_end_line` (json_.py:51): classify the value
after the matched key (scalar, string, or container). -/
def jsonFindValueEndLine (rest : List Char) (startLine : Nat) : Nat :=
  let r2 := jsonSkipToValueStartRest rest
  let line2 := jsonSkipToValueStartLine rest startLine
  match r2 with
  | [] => line2
  | c :: tl =>
    if c = '"' then line2
    else if c = '{' || c = '[' then jsonScanContainerEnd tl 1 line2
    else line2

/-- `CharPathFinder.find_line_range` (char_base.py:33) with the JSON hooks
(json_.py): the single forward pass over the text. The arguments after
`targetPath` are the remaining text, current line, frame stack and pending
key. -/
def jsonFindAux (targetPath : List String) :
    List Char → Nat → List StackEntry → Option String → Option LineRange
  | [], _, _, _ => none
  | c :: tl, line, stack, lastKey =>
    if c = '\n' then jsonFindAux targetPath tl (line + 1) stack lastKey
    else if c = ' ' || c = '\t' || c = '\r' then jsonFindAux targetPath tl line stack lastKey
    else if c = ',' then jsonFindAux targetPath tl line stack lastKey
    else if c = '{' || c = '[' then
      jsonFindAux targetPath tl line
        (incrementParentArray stack ++ [⟨lastKey, c = '[', -1⟩]) none
    else if c = '}' || c = ']' then
      jsonFindAux targetPath tl line stack.dropLast none
    else if c = '"' then
      let n := jsonSkipStringCount tl
      let sval := tl.take (n - 1)
      let afterStr := tl.drop n
      match hws : skipWsChars afterStr with
      | ':' :: afterColon =>
        if buildPath stack (⟨sval⟩ : String) = targetPath then
          some ⟨line, jsonFindValueEndLine afterStr line⟩
        else jsonFindAux targetPath afterColon line stack (some (⟨sval⟩ : String))
      | _ => jsonFindAux targetPath afterStr line (incrementParentArray stack) none
    else
      jsonFindAux targetPath (skipScalar (c :: tl)) line (incrementParentArray stack) lastKey
termination_by rest _ _ _ => rest.length
decreasing_by
all_goals try (simp only [List.length_cons, List.length_drop]; omega)
all_goals
  have hdw : ∀ (p : Char → Bool) (l : List Char), (l.dropWhile p).length ≤ l.length := by
    intro p l
    induction l with
    | nil => simp
    | cons a t ih => by_cases h : p a <;> simp [List.dropWhile_cons, h] <;> omega
  simp only [List.length_cons]
· have h2 := hdw isJsonWs (tl.drop (jsonSkipStringCount tl))
  rw [show skipWsChars (tl.drop (jsonSkipStringCount tl))
        = (tl.drop (jsonSkipStringCount tl)).dropWhile isJsonWs from rfl] at hws
  rw [hws] at h2
  simp only [List.length_cons, List.length_drop] at h2
  omega
· show (skipScalar (c :: tl)).length < tl.length + 1
  rw [skipScalar, List.dropWhile_cons]
  have hstop : skipScalarStop c = false := by
    simp only [skipScalarStop]
    simp_all
  rw [hstop]
  simp only [Bool.not_false, if_pos]
  exact Nat.lt_succ_of_le (hdw (fun x => !skipScalarStop x) tl)

/-- The JSON `find_line_range` entry point (text, line 1, empty stack). -/
def jsonFindLineRange (content : List Char) (targetPath : List String) :
    Option LineRange :=
  jsonFindAux targetPath content 1 [] none

/-! ### JSON5 scanner (src/dature/source_locators/json5_.py) -/

/-- `_is_ident_start` (json5_.py:163); Python `str.isalpha` restricted to
ASCII letters (configuration keys in the sources are ASCII). -/
def isIdentStart (c : Char) : Bool :=
  c.isAlpha || c = '_' || c = '$'

/-- `_is_ident_char` (json5_.py:167). -/
def isIdentChar (c : Char) : Bool :=
  c.isAlphanum || c = '_' || c = '$'

/-- `_skip_quoted_string` (json5_.py:138) as the number of characters
consumed (from after the opening quote to after the closing one; backslash
consumes the following character, checked before the newline and closing
quote checks). -/
def json5SkipQuotedCount (quote : Char) : List Char → Nat
  | [] => 0
  | '\\' :: _ :: rest2 => 2 + json5SkipQuotedCount quote rest2
  | '\\' :: [] => 2
  | c :: rest =>
    if c = '\n' then 1 + json5SkipQuotedCount quote rest
    else if c = quote then 1
    else 1 + json5SkipQuotedCount quote rest

/-- `_skip_quoted_string` (json5_.py:138), line-counter component: a plain
newline and an escaped newline both increment the counter. -/
def json5SkipQuotedLine (quote : Char) : List Char → Nat → Nat
  | [], line => line
  | '\\' :: c2 :: rest2, line =>
    json5SkipQuotedLine quote rest2 (if c2 = '\n' then line + 1 else line)
  | '\\' :: [], line => line
  | c :: rest, line =>
    if c = '\n' then json5SkipQuotedLine quote rest (line + 1)
    else if c = quote then line
    else json5SkipQuotedLine quote rest line

/-- `_skip_line_comment` (json5_.py:177): up to (not past) the newline. -/
def json5SkipLineComment (cs : List Char) : List Char :=
  cs.dropWhile fun c => !(c = '\n')

/-- `_skip_block_comment` (json5_.py:183) as the number of characters
consumed (past the closing `*/`, or the whole input). -/
def json5SkipBlockCommentCount : List Char → Nat
  | [] => 0
  | '*' :: '/' :: _ => 2
  | _ :: rest => 1 + json5SkipBlockCommentCount rest

/-- `_skip_block_comment` (json5_.py:183), line-counter component. -/
def json5SkipBlockCommentLine : List Char → Nat → Nat
  | [], line => line
  | '*' :: '/' :: _, line => line
  | c :: rest, line =>
    json5SkipBlockCommentLine rest (if c = '\n' then line + 1 else line)

/-- `_skip_ws_and_comments` (json5_.py:198) as the number of characters
consumed: whitespace, `//` comments and `/* */` comments; stops at anything
else (including a lone `/`). -/
def json5SkipWsCommentsCount : List Char → Nat
  | [] => 0
  | ' ' :: rest => 1 + json5SkipWsCommentsCount rest
  | '\t' :: rest => 1 + json5SkipWsCommentsCount rest
  | '\r' :: rest => 1 + json5SkipWsCommentsCount rest
  | '\n' :: rest => 1 + json5SkipWsCommentsCount rest
  | '/' :: '/' :: rest2 =>
    let k := (rest2.takeWhile fun c => !(c = '\n')).length
    2 + k + json5SkipWsCommentsCount (rest2.drop k)
  | '/' :: '*' :: rest2 =>
    let k := json5SkipBlockCommentCount rest2
    2 + k + json5SkipWsCommentsCount (rest2.drop k)
  | _ :: _ => 0
termination_by cs => cs.length
decreasing_by
all_goals simp only [List.length_cons, List.length_drop]
all_goals omega

/-- The cursor after `_skip_ws_and_comments`. -/
def json5SkipWsCommentsRest (cs : List Char) : List Char :=
  cs.drop (json5SkipWsCommentsCount cs)

/-- `_skip_ws_and_comments` (json5_.py:198), line-counter component. -/
def json5SkipWsCommentsLine : List Char → Nat → Nat
  | [], line => line
  | ' ' :: rest, line => json5SkipWsCommentsLine rest line
  | '\t' :: rest, line => json5SkipWsCommentsLine rest line
  | '\r' :: rest, line => json5SkipWsCommentsLine rest line
  | '\n' :: rest, line => json5SkipWsCommentsLine rest (line + 1)
  | '/' :: '/' :: rest2, line =>
    json5SkipWsCommentsLine (rest2.drop (rest2.takeWhile fun c => !(c = '\n')).length) line
  | '/' :: '*' :: rest2, line =>
    json5SkipWsCommentsLine (rest2.drop (json5SkipBlockCommentCount rest2))
      (json5SkipBlockCommentLine rest2 line)
  | _ :: _, line => line
termination_by cs _ => cs.length
decreasing_by
all_goals simp only [List.length_cons, List.length_drop]
all_goals omega

/-- `_scan_json5_container_end` (json5_.py:225): bracket-depth scan of a
JSON5 container, skipping strings (both quote characters) and comments. -/
def json5ScanContainerEnd : List Char → Int → Nat → Nat
  | rest, depth, line =>
    if depth ≤ 0 then line
    else
      match rest with
      | [] => line
      | '\n' :: tl => json5ScanContainerEnd tl depth (line + 1)
      | '/' :: '/' :: tl2 =>
        json5ScanContainerEnd (json5SkipLineComment tl2) depth line
      | '/' :: '*' :: tl2 =>
        json5ScanContainerEnd (tl2.drop (json5SkipBlockCommentCount tl2)) depth
          (json5SkipBlockCommentLine tl2 line)
      | '{' :: tl => json5ScanContainerEnd tl (depth + 1) line
      | '[' :: tl => json5ScanContainerEnd tl (depth + 1) line
      | '}' :: tl => json5ScanContainerEnd tl (depth - 1) line
      | ']' :: tl => json5ScanContainerEnd tl (depth - 1) line
      | c :: tl =>
        if c = '"' || c = squote then
          json5ScanContainerEnd (tl.drop (json5SkipQuotedCount c tl)) depth
            (json5SkipQuotedLine c tl line)
        else json5ScanContainerEnd tl depth line
termination_by rest _ _ => rest.length
decreasing_by
all_goals try (simp only [List.length_cons, List.length_drop]; omega)
all_goals
  have hdw : ∀ (p : Char → Bool) (l : List Char), (l.dropWhile p).length ≤ l.length := by
    intro p l
    induction l with
    | nil => simp
    | cons a t ih => by_cases h : p a <;> simp [List.dropWhile_cons, h] <;> omega
  simp only [List.length_cons, List.length_drop]
  have := hdw (fun c => !(c = '\n')) tl2
  simp only [json5SkipLineComment] at *
  omega

/-- `Json5PathFinder._find_value_end_line` (json5_.py:55): skip noise to
the colon, then noise again, then classify the value. -/
def json5FindValueEndLine (rest : List Char) (startLine : Nat) : Nat :=
  let r1 := json5SkipWsCommentsRest rest
  let l1 := json5SkipWsCommentsLine rest startLine
  match r1 with
  | ':' :: after =>
    let r2 := json5SkipWsCommentsRest after
    let l2 := json5SkipWsCommentsLine after l1
    match r2 with
    | [] => l2
    | c :: tl =>
      if c = '"' || c = squote then json5SkipQuotedLine c tl l2
      else if c = '{' || c = '[' then json5ScanContainerEnd tl 1 l2
      else l2
  | _ => startLine

/-- `CharPathFinder.find_line_range` with the JSON5 hooks (json5_.py):
whitespace/comma/comment noise, bracket frames, then quoted keys
(`_handle_quoted`) or bare identifier keys (`_handle_identifier`). -/
def json5FindAux (targetPath : List String) :
    List Char → Nat → List StackEntry → Option String → Option LineRange
  | [], _, _, _ => none
  | c :: tl, line, stack, lastKey =>
    if c = '\n' then json5FindAux targetPath tl (line + 1) stack lastKey
    else if c = ' ' || c = '\t' || c = '\r' then json5FindAux targetPath tl line stack lastKey
    else if c = ',' then json5FindAux targetPath tl line stack lastKey
    else if c = '/' && tl.head? = some '/' then
      json5FindAux targetPath (json5SkipLineComment (tl.drop 1)) line stack lastKey
    else if c = '/' && tl.head? = some '*' then
      json5FindAux targetPath ((tl.drop 1).drop (json5SkipBlockCommentCount (tl.drop 1)))
        (json5SkipBlockCommentLine (tl.drop 1) line) stack lastKey
    else if c = '{' || c = '[' then
      json5FindAux targetPath tl line
        (incrementParentArray stack ++ [⟨lastKey, c = '[', -1⟩]) none
    else if c = '}' || c = ']' then
      json5FindAux targetPath tl line stack.dropLast none
    else if c = '"' || c = squote then
      let n := json5SkipQuotedCount c tl
      let sval := tl.take (n - 1)
      let afterStr := tl.drop n
      let endLine := json5SkipQuotedLine c tl line
      match hws : json5SkipWsCommentsRest afterStr with
      | ':' :: after =>
        if buildPath stack (⟨sval⟩ : String) = targetPath then
          some ⟨line, json5FindValueEndLine afterStr line⟩
        else
          json5FindAux targetPath after (json5SkipWsCommentsLine afterStr endLine) stack
            (some (⟨sval⟩ : String))
      | _ => json5FindAux targetPath afterStr endLine (incrementParentArray stack) none
    else if hident : isIdentStart c then
      let ident := (c :: tl).takeWhile isIdentChar
      let afterIdent := (c :: tl).dropWhile isIdentChar
      match hws : json5SkipWsCommentsRest afterIdent with
      | ':' :: after =>
        if buildPath stack (⟨ident⟩ : String) = targetPath then
          some ⟨line, json5FindValueEndLine afterIdent line⟩
        else
          json5FindAux targetPath after (json5SkipWsCommentsLine afterIdent line) stack
            (some (⟨ident⟩ : String))
      | _ => json5FindAux targetPath afterIdent line (incrementParentArray stack) none
    else
      json5FindAux targetPath (skipScalar (c :: tl)) line (incrementParentArray stack) lastKey
termination_by rest _ _ _ => rest.length
decreasing_by
all_goals try (simp only [List.length_cons, List.length_drop]; omega)
all_goals
  have hdw : ∀ (p : Char → Bool) (l : List Char), (l.dropWhile p).length ≤ l.length := by
    intro p l
    induction l with
    | nil => simp
    | cons a t ih => by_cases h : p a <;> simp [List.dropWhile_cons, h] <;> omega
  simp only [List.length_cons, List.length_drop]
· -- line comment: drop 1 then dropWhile
  have := hdw (fun c => !(c = '\n')) (tl.drop 1)
  simp only [json5SkipLineComment] at *
  simp only [List.length_drop] at this
  omega
· -- quoted key with colon, no match: resume after the colon
  have h2 := congrArg List.length hws
  have ha : afterStr = tl.drop (json5SkipQuotedCount c tl) := rfl
  simp only [ha, json5SkipWsCommentsRest, List.length_drop, List.length_cons] at h2 ⊢
  omega
· -- identifier key with colon, no match: resume after the colon
  have h2 := congrArg List.length hws
  have ha : afterIdent = (c :: tl).dropWhile isIdentChar := rfl
  have hic : isIdentChar c = true := by
    simp only [isIdentChar]
    simp only [isIdentStart] at hident
    rcases Bool.or_eq_true_iff.mp hident with h | h
    · rcases Bool.or_eq_true_iff.mp h with h1 | h1
      · simp [Char.isAlphanum, h1]
      · simp [h1]
    · simp [h]
  have h3 : ((c :: tl).dropWhile isIdentChar).length ≤ tl.length := by
    rw [List.dropWhile_cons, hic]
    simp only [if_pos]
    exact hdw isIdentChar tl
  simp only [ha, json5SkipWsCommentsRest, List.length_drop, List.length_cons] at h2 ⊢
  omega
· -- identifier that is a value (no colon): resume after the identifier
  have hic : isIdentChar c = true := by
    simp only [isIdentChar]
    simp only [isIdentStart] at hident
    rcases Bool.or_eq_true_iff.mp hident with h | h
    · rcases Bool.or_eq_true_iff.mp h with h1 | h1
      · simp [Char.isAlphanum, h1]
      · simp [h1]
    · simp [h]
  show ((c :: tl).dropWhile isIdentChar).length < tl.length + 1
  rw [List.dropWhile_cons, hic]
  simp only [if_pos]
  exact Nat.lt_succ_of_le (hdw isIdentChar tl)
· -- bare scalar: the first character is consumed
  show (skipScalar (c :: tl)).length < tl.length + 1
  rw [skipScalar, List.dropWhile_cons]
  have hstop : skipScalarStop c = false := by
    simp only [skipScalarStop]
    simp_all
  rw [hstop]
  simp only [Bool.not_false, if_pos]
  exact Nat.lt_succ_of_le (hdw (fun x => !skipScalarStop x) tl)

/-- The JSON5 `find_line_range` entry point. -/
def json5FindLineRange (content : List Char) (targetPath : List String) :
    Option LineRange :=
  json5FindAux targetPath content 1 [] none

/-! ### Spec-side predicates and auxiliary forms used by the theorems -/

/-- The per-key body of `_collect_conflicts` as a standalone function:
`conflictsForKeys` is the concatenation of these chunks (proved below).
A refactoring of the loop body, introduced so membership in the conflict
list can be analysed per key. -/
def chunkOf (dicts : List JSON) (path : List String) (fmap : Option FieldMergeMap)
    (key : String) : List Conflict :=
  let srcs := sourcesFor dicts key
  if srcs.length < 2 then []
  else if (lookupStrategy fmap (joinDots (path ++ [key]))).isSome then []
  else
    let values := srcs.map Prod.snd
    if (values.filter isDictB).length = srcs.length then
      collectConflicts values (path ++ [key]) fmap
    else
      match values with
      | [] => []
      | v0 :: vtail =>
        if vtail.all fun v => pyEq v v0 then []
        else [(path ++ [key], srcs)]

/-- The claim's characterization of a conflict path (spec §4.5): along the
path every step has ≥ 2 contributors, no explicit field strategy, and all
map values (recursing); at the final step ≥ 2 contributors, no strategy,
not all values maps and not all values equal. -/
def conflictAt (dicts : List JSON) (fmap : Option FieldMergeMap) :
    List String → List String → Bool
  | _, [] => false
  | pfx, [k] =>
    let srcs := sourcesFor dicts k
    decide (2 ≤ srcs.length) &&
    (lookupStrategy fmap (joinDots (pfx ++ [k]))).isNone &&
    !(decide (((srcs.map Prod.snd).filter isDictB).length = srcs.length)) &&
    (match srcs.map Prod.snd with
     | [] => false
     | v0 :: vtail => !(vtail.all fun v => pyEq v v0))
  | pfx, k :: rest =>
    let srcs := sourcesFor dicts k
    decide (2 ≤ srcs.length) &&
    (lookupStrategy fmap (joinDots (pfx ++ [k]))).isNone &&
    decide (((srcs.map Prod.snd).filter isDictB).length = srcs.length) &&
    conflictAt (srcs.map Prod.snd) fmap (pfx ++ [k]) rest

/-- The claim's classification criterion for one field-group leaf
(spec §4.6): changed when the new source supplies a value that differs
from the running merged value; unchanged when the source omits the path or
supplies an equal value. -/
def leafChanged (base source : JSON) (path : String) : Bool :=
  match getNestedValue source path with
  | none => false
  | some sv =>
    match getNestedValue base path with
    | some bv => !(pyEq sv bv)
    | none => true

/-- The running state of the spec-modelled field-group driver after
folding a list of sources (see `fieldGroupSeqAux`): the merged-so-far tree
and the field-origin map. -/
def fieldGroupFoldState (groups : List (List String)) :
    List JSON → Nat → JSON × List (String × Nat) → JSON × List (String × Nat)
  | [], _, st => st
  | src :: rest, i, (merged, origins) =>
    let merged2 :=
      match deepMergeLastWins none merged src "" with
      | .ok m => m
      | .error _ => merged
    fieldGroupFoldState groups rest (i + 1) (merged2, updateOrigins origins groups src i)

/-- A JSON string body: appending a closing quote makes `_skip_string`
consume exactly the body and that quote, whatever follows (no unescaped
quote inside, no dangling backslash at the end). -/
def jsonStringBody (s : List Char) : Prop :=
  ∀ rest : List Char, jsonSkipStringCount (s ++ ('"' :: rest)) = s.length + 1

/-! ## Theorems

General-purpose lemmas about the embedded operations, followed by one
theorem per claim (with a witness where the theorem carries hypotheses,
and a counterexample where the claim as stated fails on the code). -/

theorem toRat?_isComparable {v : JSON} {x : Rat} (h : toRat? v = some x) :
    isComparable v = true := by
  cases v <;> simp_all [toRat?, isComparable]

theorem dedup_go_spec : ∀ (xs seen : List JSON), ∃ kept,
    deduplicateList.go seen xs = seen.reverse ++ kept ∧
    kept.Sublist xs ∧
    (∀ y ∈ kept, ∀ s ∈ seen, pyEq s y = false) ∧
    List.Pairwise (fun a b => pyEq a b = false) kept ∧
    (∀ x ∈ xs, (∃ s ∈ seen, pyEq s x = true) ∨ (∃ y ∈ kept, pyEq y x = true) ∨ x ∈ kept) := by
  intro xs
  induction xs with
  | nil =>
    intro seen
    exact ⟨[], by simp [deduplicateList.go], by simp, by simp, by simp, by simp⟩
  | cons item rest ih =>
    intro seen
    by_cases hseen : seen.any fun s => pyEq s item
    · obtain ⟨kept, hgo, hsub, hfresh, hpw, hcov⟩ := ih seen
      refine ⟨kept, ?_, hsub.cons _, hfresh, hpw, ?_⟩
      · simpa [deduplicateList.go, hseen] using hgo
      · intro x hx
        rcases List.mem_cons.mp hx with rfl | hx
        · rcases List.any_eq_true.mp hseen with ⟨s, hs, hpe⟩
          exact Or.inl ⟨s, hs, hpe⟩
        · exact hcov x hx
    · obtain ⟨kept, hgo, hsub, hfresh, hpw, hcov⟩ := ih (item :: seen)
      have hnot : ∀ s ∈ seen, pyEq s item = false := by
        intro s hs
        by_contra hne
        exact hseen (List.any_eq_true.mpr ⟨s, hs, by simpa using hne⟩)
      refine ⟨item :: kept, ?_, hsub.cons₂ _, ?_, ?_, ?_⟩
      · rw [deduplicateList.go, if_neg (by simp [hseen])]
        simpa using hgo
      · intro y hy s hs
        rcases List.mem_cons.mp hy with rfl | hy
        · exact hnot s hs
        · exact hfresh y hy s (List.mem_cons_of_mem _ hs)
      · refine List.pairwise_cons.mpr ⟨?_, hpw⟩
        intro y hy
        exact hfresh y hy item (List.mem_cons_self _ _)
      · intro x hx
        rcases List.mem_cons.mp hx with rfl | hx
        · exact Or.inr (Or.inr (List.mem_cons_self _ _))
        · rcases hcov x hx with ⟨s, hs, hpe⟩ | ⟨y, hy, hpe⟩ | hyk
          · rcases List.mem_cons.mp hs with rfl | hs
            · exact Or.inr (Or.inl ⟨s, List.mem_cons_self _ _, hpe⟩)
            · exact Or.inl ⟨s, hs, hpe⟩
          · exact Or.inr (Or.inl ⟨y, List.mem_cons_of_mem _ hy, hpe⟩)
          · exact Or.inr (Or.inr (List.mem_cons_of_mem _ hyk))

theorem deduplicateList_spec (xs : List JSON) :
    (deduplicateList xs).Sublist xs ∧
    List.Pairwise (fun a b => pyEq a b = false) (deduplicateList xs) ∧
    (∀ x ∈ xs, (∃ y ∈ deduplicateList xs, pyEq y x = true) ∨ x ∈ deduplicateList xs) := by
  obtain ⟨kept, hgo, hsub, _, hpw, hcov⟩ := dedup_go_spec xs []
  have hd : deduplicateList xs = kept := by simpa [deduplicateList] using hgo
  rw [hd]
  refine ⟨hsub, hpw, ?_⟩
  intro x hx
  rcases hcov x hx with ⟨s, hs, _⟩ | h | h
  · simp at hs
  · exact Or.inl h
  · exact Or.inr h

/-- The claim `C2` as stated is false on the code in two ways, at one
concrete input each: `MAX` on `(5, "a")` — both values in {int,float,str},
so the claim promises a maximum — raises the comparison `TypeError`
instead; and `MAX` on `(True, False)` — neither value in {int,float,str},
so the claim promises a type error naming both types — returns `True`
because Python `bool` is an `int` subtype and passes the `isinstance`
check. -/
theorem C2_counterexample :
    applyFieldMerge (.int 5) (.str "a") .MAX
      = .error (.typeError "< not supported between instances of int and str") ∧
    applyFieldMerge (.bool true) (.bool false) .MAX = .ok (.bool true) := by
  constructor
  · simp [applyFieldMerge, isComparable, pyMax, pyLt, toRat?, typeName]
  · simp [applyFieldMerge, isComparable, pyMax, pyLt, toRat?]

/-- `C2` (amended): `APPEND` returns base ++ override and `PREPEND`
override ++ base; the `_UNIQUE` variants additionally de-duplicate by
Python equality keeping first occurrences; all four raise a `TypeError`
naming both observed types whenever either value is not a list. `MAX` and
`MIN` require both values to pass Python's `isinstance((int, float, str))`
check — `bool` passes it, being an `int` subtype — else they raise a
`TypeError` naming both observed types; when both pass, two numbers (or a
number and a bool) yield the maximum (resp. minimum) by numeric value, two
strings the lexicographic maximum (resp. minimum), and a number/string mix
raises the comparison `TypeError`. In particular the claim's examples:
`APPEND (["a","b"], ["c","d"]) = ["a","b","c","d"]`,
`APPEND_UNIQUE (["a","b"], ["b","c"]) = ["a","b","c"]`, `MAX (5,10) = 10`,
and `MAX` on two lists raises a type error naming both `list` types. -/
theorem C2_apply_field_merge :
    (∀ b o : List JSON,
      applyFieldMerge (.list b) (.list o) .APPEND = .ok (.list (b ++ o)) ∧
      applyFieldMerge (.list b) (.list o) .PREPEND = .ok (.list (o ++ b)) ∧
      applyFieldMerge (.list b) (.list o) .APPEND_UNIQUE
        = .ok (.list (deduplicateList (b ++ o))) ∧
      applyFieldMerge (.list b) (.list o) .PREPEND_UNIQUE
        = .ok (.list (deduplicateList (o ++ b)))) ∧
    (∀ base override : JSON, (∀ b, base ≠ .list b) ∨ (∀ o, override ≠ .list o) →
      ∀ s ∈ [FieldMergeStrategy.APPEND, .APPEND_UNIQUE, .PREPEND, .PREPEND_UNIQUE],
        applyFieldMerge base override s
          = .error (.typeError (strategyName s
              ++ " strategy requires both values to be lists, got "
              ++ typeName base ++ " and " ++ typeName override))) ∧
    (∀ base override : JSON,
      ¬(isComparable base = true ∧ isComparable override = true) →
      applyFieldMerge base override .MAX
        = .error (.typeError ("MAX strategy requires comparable values, got "
            ++ typeName base ++ " and " ++ typeName override)) ∧
      applyFieldMerge base override .MIN
        = .error (.typeError ("MIN strategy requires comparable values, got "
            ++ typeName base ++ " and " ++ typeName override))) ∧
    (∀ (base override : JSON) (x y : Rat),
      toRat? base = some x → toRat? override = some y →
      (∃ m, applyFieldMerge base override .MAX = .ok m ∧
        (m = base ∨ m = override) ∧ toRat? m = some (max x y)) ∧
      (∃ m, applyFieldMerge base override .MIN = .ok m ∧
        (m = base ∨ m = override) ∧ toRat? m = some (min x y))) ∧
    (∀ s t : String,
      applyFieldMerge (.str s) (.str t) .MAX = .ok (.str (max s t)) ∧
      applyFieldMerge (.str s) (.str t) .MIN = .ok (.str (min s t))) ∧
    (∀ (base : JSON) (x : Rat) (t : String), toRat? base = some x →
      (applyFieldMerge base (.str t) .MAX).isOk = false ∧
      (applyFieldMerge (.str t) base .MAX).isOk = false ∧
      (applyFieldMerge base (.str t) .MIN).isOk = false ∧
      (applyFieldMerge (.str t) base .MIN).isOk = false) ∧
    (applyFieldMerge (.list [.str "a", .str "b"]) (.list [.str "c", .str "d"]) .APPEND
      = .ok (.list [.str "a", .str "b", .str "c", .str "d"])) ∧
    (applyFieldMerge (.list [.str "a", .str "b"]) (.list [.str "b", .str "c"]) .APPEND_UNIQUE
      = .ok (.list [.str "a", .str "b", .str "c"])) ∧
    (applyFieldMerge (.int 5) (.int 10) .MAX = .ok (.int 10)) ∧
    (applyFieldMerge (.list []) (.list [.int 1]) .MAX
      = .error (.typeError "MAX strategy requires comparable values, got list and list")) := by
  refine ⟨?_, ?_, ?_, ?_, ?_, ?_, ?_, ?_, ?_, ?_⟩
  · intro b o
    refine ⟨?_, ?_, ?_, ?_⟩ <;>
      simp [applyFieldMerge, applyListMerge, ensureBothLists]
  · intro base override hnl s hs
    have : (∀ b, base ≠ JSON.list b) ∨ (∀ o, override ≠ JSON.list o) := hnl
    fin_cases hs <;>
      (cases base <;> cases override <;>
        simp_all [applyFieldMerge, applyListMerge, ensureBothLists, strategyName])
  · intro base override hnc
    cases base <;> cases override <;>
      simp_all [applyFieldMerge, isComparable, typeName]
  · intro base override x y hx hy
    have hcb := toRat?_isComparable hx
    have hco := toRat?_isComparable hy
    constructor
    · by_cases hlt : x < y
      · refine ⟨override, ?_, Or.inr rfl, ?_⟩
        · simp [applyFieldMerge, hcb, hco, pyMax, pyLt, hx, hy, hlt]
        · rw [hy, max_eq_right (le_of_lt hlt)]
      · refine ⟨base, ?_, Or.inl rfl, ?_⟩
        · simp [applyFieldMerge, hcb, hco, pyMax, pyLt, hx, hy, hlt]
        · rw [hx, max_eq_left (not_lt.mp hlt)]
    · by_cases hlt : y < x
      · refine ⟨override, ?_, Or.inr rfl, ?_⟩
        · simp [applyFieldMerge, hcb, hco, pyMin, pyLt, hx, hy, hlt]
        · rw [hy, min_eq_right (le_of_lt hlt)]
      · refine ⟨base, ?_, Or.inl rfl, ?_⟩
        · simp [applyFieldMerge, hcb, hco, pyMin, pyLt, hx, hy, hlt]
        · rw [hx, min_eq_left (not_lt.mp hlt)]
  · intro s t
    constructor
    · by_cases hlt : s < t
      · rw [max_eq_right (le_of_lt hlt)]
        simp [applyFieldMerge, isComparable, pyMax, pyLt, toRat?, hlt]
      · rw [max_eq_left (not_lt.mp hlt)]
        simp [applyFieldMerge, isComparable, pyMax, pyLt, toRat?, hlt]
    · by_cases hlt : t < s
      · rw [min_eq_right (le_of_lt hlt)]
        simp [applyFieldMerge, isComparable, pyMin, pyLt, toRat?, hlt]
      · rw [min_eq_left (not_lt.mp hlt)]
        simp [applyFieldMerge, isComparable, pyMin, pyLt, toRat?, hlt]
  · intro base x t hx
    have hcb := toRat?_isComparable hx
    have hnum : ∀ q : Rat, toRat? (JSON.str t) = some q → False := by
      intro q hq
      simp [toRat?] at hq
    cases base <;>
      simp_all [applyFieldMerge, isComparable, pyMax, pyMin, pyLt, toRat?, Except.isOk,
        Except.toBool]
  · simp [applyFieldMerge, applyListMerge, ensureBothLists]
  · simp [applyFieldMerge, applyListMerge, ensureBothLists, deduplicateList,
      deduplicateList.go, pyEq, toRat?]
  · norm_num [applyFieldMerge, isComparable, pyMax, pyLt, toRat?]
  · simp [applyFieldMerge, isComparable, typeName]

/-- Witness for `C2_apply_field_merge`: every hypothesis discharged at a
concrete input. -/
theorem C2_witness :
    applyFieldMerge (.list [.int 1]) (.list [.int 2]) .APPEND
      = .ok (.list [.int 1, .int 2]) ∧
    applyFieldMerge (.int 3) (.list []) .APPEND
      = .error (.typeError
          "APPEND strategy requires both values to be lists, got int and list") ∧
    (∃ m, applyFieldMerge (.int 5) (.int 10) .MAX = .ok m ∧
      (m = .int 5 ∨ m = .int 10) ∧ toRat? m = some (max (5 : Rat) 10)) ∧
    applyFieldMerge (.bool true) (.bool false) .MIN = .ok (.bool false) ∧
    applyFieldMerge (.str "a") (.str "b") .MAX = .ok (.str (max "a" "b")) ∧
    (applyFieldMerge (.int 1) (.str "z") .MAX).isOk = false := by
  refine ⟨(C2_apply_field_merge.1 [.int 1] [.int 2]).1, ?_, ?_, ?_, ?_, ?_⟩
  · have := C2_apply_field_merge.2.1 (.int 3) (.list [])
      (Or.inl (by intro b h; cases h)) .APPEND (by simp)
    simpa [strategyName, typeName] using this
  · exact (C2_apply_field_merge.2.2.2.1 (.int 5) (.int 10) 5 10
      (by norm_num [toRat?]) (by norm_num [toRat?])).1
  · have := (C2_apply_field_merge.2.2.2.1 (.bool true) (.bool false) 1 0
      (by norm_num [toRat?]) (by norm_num [toRat?])).2
    obtain ⟨m, hm, hmor, hmr⟩ := this
    rcases hmor with rfl | rfl
    · simp [toRat?] at hmr
    · exact hm
  · exact (C2_apply_field_merge.2.2.2.2.1 "a" "b").1
  · exact ((C2_apply_field_merge.2.2.2.2.2.1 (.int 1) 1 "z" (by norm_num [toRat?])).1)

theorem lookupAssoc_assocSet_self (l : List (String × JSON)) (k : String) (v : JSON) :
    lookupAssoc (assocSet l k v) k = some v := by
  induction l with
  | nil => simp [assocSet, lookupAssoc]
  | cons kv rest ih =>
    obtain ⟨k1, w⟩ := kv
    by_cases h : k1 = k <;> simp [assocSet, lookupAssoc, h, ih]

theorem lookupAssoc_assocSet_other (l : List (String × JSON)) (k k' : String) (v : JSON)
    (h : k' ≠ k) : lookupAssoc (assocSet l k v) k' = lookupAssoc l k' := by
  have hkk : ¬(k = k') := fun h' => h h'.symm
  induction l with
  | nil => simp [assocSet, lookupAssoc, hkk]
  | cons kv rest ih =>
    obtain ⟨k1, w⟩ := kv
    by_cases h1 : k1 = k
    · subst h1
      simp [assocSet, lookupAssoc, hkk]
    · by_cases h2 : k1 = k' <;> simp [assocSet, lookupAssoc, h1, h2, ih, h]

theorem lookupAssoc_append (l l' : List (String × JSON)) (k : String) :
    lookupAssoc (l ++ l') k
      = match lookupAssoc l k with
        | some v => some v
        | none => lookupAssoc l' k := by
  induction l with
  | nil => simp [lookupAssoc]
  | cons kv rest ih =>
    obtain ⟨k1, w⟩ := kv
    by_cases h : k1 = k <;> simp [lookupAssoc, h, ih]

theorem nodupKeys_cons {k : String} {v : JSON} {rest : List (String × JSON)}
    (h : nodupKeys ((k, v) :: rest) = true) :
    nodupKeys rest = true ∧ lookupAssoc rest k = none := by
  simp only [nodupKeys, Bool.and_eq_true, Bool.not_eq_true'] at h
  refine ⟨h.2, ?_⟩
  have hk : ∀ kv ∈ rest, ¬(kv.1 = k) := by
    intro kv hkv
    have := List.any_eq_false.mp h.1 kv hkv
    simpa using this
  clear h
  induction rest with
  | nil => simp [lookupAssoc]
  | cons kv2 rest2 ih =>
    obtain ⟨k2, w2⟩ := kv2
    have hne : ¬(k2 = k) := hk (k2, w2) (List.mem_cons_self _ _)
    simp only [lookupAssoc, if_neg hne]
    exact ih fun kv hkv => hk kv (List.mem_cons_of_mem _ hkv)

theorem goLW_lookup (fmap : Option FieldMergeMap) (path : String) :
    ∀ (okvs result r : List (String × JSON)),
    nodupKeys okvs = true →
    deepMergeLastWinsGo fmap path result okvs = .ok r →
    ∀ k : String,
      (lookupAssoc okvs k = none → lookupAssoc r k = lookupAssoc result k) ∧
      (∀ ov, lookupAssoc okvs k = some ov →
        (∀ bv, lookupAssoc result k = some bv →
          ∃ m, deepMergeLastWins fmap bv ov (childPath path k) = .ok m ∧
            lookupAssoc r k = some m) ∧
        (lookupAssoc result k = none → lookupAssoc r k = some ov)) := by
  intro okvs
  induction okvs with
  | nil =>
    intro result r _ hgo k
    simp only [deepMergeLastWinsGo] at hgo
    cases hgo
    exact ⟨fun _ => rfl, fun ov hov => by simp [lookupAssoc] at hov⟩
  | cons kv rest ih =>
    intro result r hnd hgo k
    obtain ⟨key, value⟩ := kv
    obtain ⟨hndr, hfresh⟩ := nodupKeys_cons hnd
    by_cases hres : ∃ bv, lookupAssoc result key = some bv
    · obtain ⟨bv, hbv⟩ := hres
      simp only [deepMergeLastWinsGo, hbv] at hgo
      cases hmg : deepMergeLastWins fmap bv value (childPath path key) with
      | error e => simp [hmg, Bind.bind, Except.bind] at hgo
      | ok m =>
        simp only [hmg, Bind.bind, Except.bind] at hgo
        have hihk := ih (assocSet result key m) r hndr hgo
        by_cases hk : k = key
        · subst hk
          constructor
          · intro habs
            simp [lookupAssoc] at habs
          · intro ov hov
            simp only [lookupAssoc, if_pos rfl] at hov
            cases hov
            constructor
            · intro bv' hbv'
              rw [hbv] at hbv'
              cases hbv'
              refine ⟨m, hmg, ?_⟩
              have := (hihk k).1 hfresh
              rw [this, lookupAssoc_assocSet_self]
            · intro hnone
              rw [hbv] at hnone
              cases hnone
        · have hkey : ¬(key = k) := fun h => hk (Eq.symm h)
          have hset := lookupAssoc_assocSet_other result key k m hk
          constructor
          · intro hnone
            simp only [lookupAssoc, if_neg hkey] at hnone
            rw [(hihk k).1 hnone, hset]
          · intro ov hov
            simp only [lookupAssoc, if_neg hkey] at hov
            have := (hihk k).2 ov hov
            constructor
            · intro bv' hbv'
              exact this.1 bv' (by rw [hset]; exact hbv')
            · intro hnone
              exact this.2 (by rw [hset]; exact hnone)
    · have hnone : lookupAssoc result key = none := by
        cases h : lookupAssoc result key with
        | some bv => exact absurd ⟨bv, h⟩ hres
        | none => rfl
      simp only [deepMergeLastWinsGo, hnone] at hgo
      have hihk := ih (result ++ [(key, value)]) r hndr hgo
      have happ : ∀ k' : String,
          lookupAssoc (result ++ [(key, value)]) k'
            = match lookupAssoc result k' with
              | some v => some v
              | none => lookupAssoc [(key, value)] k' := fun k' =>
        lookupAssoc_append result [(key, value)] k'
      by_cases hk : k = key
      · subst hk
        constructor
        · intro habs
          simp [lookupAssoc] at habs
        · intro ov hov
          simp only [lookupAssoc, if_pos rfl] at hov
          cases hov
          constructor
          · intro bv' hbv'
            rw [hnone] at hbv'
            cases hbv'
          · intro _
            have := (hihk k).1 hfresh
            rw [this, happ k, hnone]
            simp [lookupAssoc]
      · have hkey : ¬(key = k) := fun h => hk (Eq.symm h)
        constructor
        · intro hnk
          simp only [lookupAssoc, if_neg hkey] at hnk
          rw [(hihk k).1 hnk, happ k]
          cases h : lookupAssoc result k with
          | some v => simp
          | none => simp [lookupAssoc, hkey]
        · intro ov hov
          simp only [lookupAssoc, if_neg hkey] at hov
          have := (hihk k).2 ov hov
          constructor
          · intro bv' hbv'
            refine this.1 bv' ?_
            rw [happ k, hbv']
          · intro hnk
            refine this.2 ?_
            rw [happ k, hnk]
            simp [lookupAssoc, hkey]

theorem goFW_lookup (fmap : Option FieldMergeMap) (path : String) :
    ∀ (okvs result r : List (String × JSON)),
    nodupKeys okvs = true →
    deepMergeFirstWinsGo fmap path result okvs = .ok r →
    ∀ k : String,
      (lookupAssoc okvs k = none → lookupAssoc r k = lookupAssoc result k) ∧
      (∀ ov, lookupAssoc okvs k = some ov →
        (∀ bv, lookupAssoc result k = some bv →
          ∃ m, deepMergeFirstWins fmap bv ov (childPath path k) = .ok m ∧
            lookupAssoc r k = some m) ∧
        (lookupAssoc result k = none → lookupAssoc r k = some ov)) := by
  intro okvs
  induction okvs with
  | nil =>
    intro result r _ hgo k
    simp only [deepMergeFirstWinsGo] at hgo
    cases hgo
    exact ⟨fun _ => rfl, fun ov hov => by simp [lookupAssoc] at hov⟩
  | cons kv rest ih =>
    intro result r hnd hgo k
    obtain ⟨key, value⟩ := kv
    obtain ⟨hndr, hfresh⟩ := nodupKeys_cons hnd
    by_cases hres : ∃ bv, lookupAssoc result key = some bv
    · obtain ⟨bv, hbv⟩ := hres
      simp only [deepMergeFirstWinsGo, hbv] at hgo
      cases hmg : deepMergeFirstWins fmap bv value (childPath path key) with
      | error e => simp [hmg, Bind.bind, Except.bind] at hgo
      | ok m =>
        simp only [hmg, Bind.bind, Except.bind] at hgo
        have hihk := ih (assocSet result key m) r hndr hgo
        by_cases hk : k = key
        · subst hk
          constructor
          · intro habs
            simp [lookupAssoc] at habs
          · intro ov hov
            simp only [lookupAssoc, if_pos rfl] at hov
            cases hov
            constructor
            · intro bv' hbv'
              rw [hbv] at hbv'
              cases hbv'
              refine ⟨m, hmg, ?_⟩
              have := (hihk k).1 hfresh
              rw [this, lookupAssoc_assocSet_self]
            · intro hnone
              rw [hbv] at hnone
              cases hnone
        · have hkey : ¬(key = k) := fun h => hk (Eq.symm h)
          have hset := lookupAssoc_assocSet_other result key k m hk
          constructor
          · intro hnone
            simp only [lookupAssoc, if_neg hkey] at hnone
            rw [(hihk k).1 hnone, hset]
          · intro ov hov
            simp only [lookupAssoc, if_neg hkey] at hov
            have := (hihk k).2 ov hov
            constructor
            · intro bv' hbv'
              exact this.1 bv' (by rw [hset]; exact hbv')
            · intro hnone
              exact this.2 (by rw [hset]; exact hnone)
    · have hnone : lookupAssoc result key = none := by
        cases h : lookupAssoc result key with
        | some bv => exact absurd ⟨bv, h⟩ hres
        | none => rfl
      simp only [deepMergeFirstWinsGo, hnone] at hgo
      have hihk := ih (result ++ [(key, value)]) r hndr hgo
      have happ : ∀ k' : String,
          lookupAssoc (result ++ [(key, value)]) k'
            = match lookupAssoc result k' with
              | some v => some v
              | none => lookupAssoc [(key, value)] k' := fun k' =>
        lookupAssoc_append result [(key, value)] k'
      by_cases hk : k = key
      · subst hk
        constructor
        · intro habs
          simp [lookupAssoc] at habs
        · intro ov hov
          simp only [lookupAssoc, if_pos rfl] at hov
          cases hov
          constructor
          · intro bv' hbv'
            rw [hnone] at hbv'
            cases hbv'
          · intro _
            have := (hihk k).1 hfresh
            rw [this, happ k, hnone]
            simp [lookupAssoc]
      · have hkey : ¬(key = k) := fun h => hk (Eq.symm h)
        constructor
        · intro hnk
          simp only [lookupAssoc, if_neg hkey] at hnk
          rw [(hihk k).1 hnk, happ k]
          cases h : lookupAssoc result k with
          | some v => simp
          | none => simp [lookupAssoc, hkey]
        · intro ov hov
          simp only [lookupAssoc, if_neg hkey] at hov
          have := (hihk k).2 ov hov
          constructor
          · intro bv' hbv'
            refine this.1 bv' ?_
            rw [happ k, hbv']
          · intro hnk
            refine this.2 ?_
            rw [happ k, hnk]
            simp [lookupAssoc, hkey]

/-- `C1`: one node of the deep merge, for both strategies. (a) An explicit
field-strategy entry at the current dotted path is applied as a leaf
directly (the node's result is exactly `apply_field_merge`, so nothing
recurses below the path). (b) With no entry and two dicts, the merge
recurses key-by-key extending the dotted path, keys on one side only
passing through unchanged (stated as a lookup-level characterization of
the resulting dict). (c) In every other case the global strategy decides:
the new value under `LAST_WINS`, the accumulated value under
`FIRST_WINS`. -/
theorem C1_deep_merge_node :
    ∀ (fmap : Option FieldMergeMap) (path : String) (base override : JSON),
    (∀ s, lookupStrategy fmap path = some s →
      deepMergeLastWins fmap base override path = applyFieldMerge base override s ∧
      deepMergeFirstWins fmap base override path = applyFieldMerge base override s) ∧
    (lookupStrategy fmap path = none →
      ∀ bkvs okvs, base = .dict bkvs → override = .dict okvs →
      nodupKeys okvs = true →
      (∀ r, deepMergeLastWins fmap base override path = .ok r →
        ∃ rkvs, r = .dict rkvs ∧
          ∀ k : String,
            (lookupAssoc okvs k = none → lookupAssoc rkvs k = lookupAssoc bkvs k) ∧
            (∀ ov, lookupAssoc okvs k = some ov →
              (∀ bv, lookupAssoc bkvs k = some bv →
                ∃ m, deepMergeLastWins fmap bv ov (childPath path k) = .ok m ∧
                  lookupAssoc rkvs k = some m) ∧
              (lookupAssoc bkvs k = none → lookupAssoc rkvs k = some ov))) ∧
      (∀ r, deepMergeFirstWins fmap base override path = .ok r →
        ∃ rkvs, r = .dict rkvs ∧
          ∀ k : String,
            (lookupAssoc okvs k = none → lookupAssoc rkvs k = lookupAssoc bkvs k) ∧
            (∀ ov, lookupAssoc okvs k = some ov →
              (∀ bv, lookupAssoc bkvs k = some bv →
                ∃ m, deepMergeFirstWins fmap bv ov (childPath path k) = .ok m ∧
                  lookupAssoc rkvs k = some m) ∧
              (lookupAssoc bkvs k = none → lookupAssoc rkvs k = some ov)))) ∧
    (lookupStrategy fmap path = none →
      ¬(isDictB base = true ∧ isDictB override = true) →
      deepMergeLastWins fmap base override path = .ok override ∧
      deepMergeFirstWins fmap base override path = .ok base) := by
  intro fmap path base override
  refine ⟨?_, ?_, ?_⟩
  · intro s hs
    constructor
    · cases base <;> cases override <;> simp [deepMergeLastWins, hs]
    · cases base <;> cases override <;> simp [deepMergeFirstWins, hs]
  · intro hnone bkvs okvs hb ho hnd
    subst hb
    subst ho
    constructor
    · intro r hr
      simp only [deepMergeLastWins, hnone] at hr
      cases hgo : deepMergeLastWinsGo fmap path bkvs okvs with
      | error e => simp [hgo, Bind.bind, Except.bind] at hr
      | ok rkvs =>
        simp only [hgo, Bind.bind, Except.bind, pure, Except.pure] at hr
        cases hr
        exact ⟨rkvs, rfl, fun k => goLW_lookup fmap path okvs bkvs rkvs hnd hgo k⟩
    · intro r hr
      simp only [deepMergeFirstWins, hnone] at hr
      cases hgo : deepMergeFirstWinsGo fmap path bkvs okvs with
      | error e => simp [hgo, Bind.bind, Except.bind] at hr
      | ok rkvs =>
        simp only [hgo, Bind.bind, Except.bind, pure, Except.pure] at hr
        cases hr
        exact ⟨rkvs, rfl, fun k => goFW_lookup fmap path okvs bkvs rkvs hnd hgo k⟩
  · intro hnone hnd
    cases base <;> cases override <;>
      simp_all [deepMergeLastWins, deepMergeFirstWins, hnone, isDictB, pure, Except.pure]

/-- Witness for `C1_deep_merge_node`: all three parts applied at concrete
inputs, discharging every hypothesis. -/
theorem C1_witness :
    (deepMergeLastWins (some [("a", FieldMergeStrategy.APPEND)])
        (.list [.int 1]) (.list [.int 2]) "a"
      = applyFieldMerge (.list [.int 1]) (.list [.int 2]) .APPEND) ∧
    (∃ rkvs, JSON.dict [("x", .int 2), ("y", .int 3)] = .dict rkvs ∧
      ∀ k : String,
        (lookupAssoc [("x", JSON.int 2), ("y", JSON.int 3)] k = none →
          lookupAssoc rkvs k = lookupAssoc [("x", JSON.int 1)] k) ∧
        (∀ ov, lookupAssoc [("x", JSON.int 2), ("y", JSON.int 3)] k = some ov →
          (∀ bv, lookupAssoc [("x", JSON.int 1)] k = some bv →
            ∃ m, deepMergeLastWins none bv ov (childPath "" k) = .ok m ∧
              lookupAssoc rkvs k = some m) ∧
          (lookupAssoc [("x", JSON.int 1)] k = none →
            lookupAssoc rkvs k = some ov))) ∧
    (deepMergeLastWins none (.int 1) (.int 2) "p" = .ok (.int 2) ∧
      deepMergeFirstWins none (.int 1) (.int 2) "p" = .ok (.int 1)) := by
  refine ⟨?_, ?_, ?_⟩
  · exact ((C1_deep_merge_node (some [("a", .APPEND)]) "a"
      (.list [.int 1]) (.list [.int 2])).1 .APPEND
      (by simp [lookupStrategy, lookupStrategy.go])).1
  · have hthm := ((C1_deep_merge_node none ""
      (.dict [("x", .int 1)]) (.dict [("x", .int 2), ("y", .int 3)])).2.1
      (by simp [lookupStrategy]) [("x", .int 1)] [("x", .int 2), ("y", .int 3)]
      rfl rfl (by simp [nodupKeys])).1
    have hrun : deepMergeLastWins none (.dict [("x", .int 1)])
        (.dict [("x", .int 2), ("y", .int 3)]) ""
        = .ok (.dict [("x", .int 2), ("y", .int 3)]) := by
      simp [deepMergeLastWins, deepMergeLastWinsGo, lookupStrategy, lookupAssoc,
        assocSet, childPath, Bind.bind, Except.bind, pure, Except.pure]
    obtain ⟨rkvs, hrk, hspec⟩ := hthm _ hrun
    exact ⟨rkvs, hrk, hspec⟩
  · exact (C1_deep_merge_node none "p" (.int 1) (.int 2)).2.2
      (by simp [lookupStrategy]) (by simp [isDictB])

theorem lookupAssoc_mem {kvs : List (String × JSON)} {k : String} {v : JSON}
    (h : lookupAssoc kvs k = some v) : (k, v) ∈ kvs := by
  induction kvs with
  | nil => simp [lookupAssoc] at h
  | cons kv rest ih =>
    obtain ⟨k1, w⟩ := kv
    by_cases hk : k1 = k
    · subst hk
      rw [lookupAssoc, if_pos rfl] at h
      cases h
      exact List.mem_cons_self _ _
    · rw [lookupAssoc, if_neg hk] at h
      exact List.mem_cons_of_mem _ (ih h)

theorem sizeOf_mem_dict {kvs : List (String × JSON)} {k : String} {v : JSON}
    (h : (k, v) ∈ kvs) : sizeOf v < sizeOf kvs := by
  induction kvs with
  | nil => simp at h
  | cons kv rest ih =>
    rcases List.mem_cons.mp h with rfl | h
    · simp
      omega
    · have := ih h
      simp
      omega

theorem sizeOf_mem_list {xs : List JSON} {v : JSON}
    (h : v ∈ xs) : sizeOf v < sizeOf xs := by
  induction xs with
  | nil => simp at h
  | cons x rest ih =>
    rcases List.mem_cons.mp h with rfl | h
    · simp
      omega
    · have := ih h
      simp
      omega

theorem wfDict_mem {kvs : List (String × JSON)} {k : String} {v : JSON}
    (hwf : wfDict kvs = true) (h : (k, v) ∈ kvs) : wfJSON v = true := by
  induction kvs with
  | nil => simp at h
  | cons kv rest ih =>
    obtain ⟨k1, w⟩ := kv
    rw [wfDict, Bool.and_eq_true] at hwf
    rcases List.mem_cons.mp h with heq | h
    · cases heq
      exact hwf.1
    · exact ih hwf.2 h

theorem wfList_mem {xs : List JSON} {v : JSON}
    (hwf : wfList xs = true) (h : v ∈ xs) : wfJSON v = true := by
  induction xs with
  | nil => simp at h
  | cons x rest ih =>
    rw [wfList, Bool.and_eq_true] at hwf
    rcases List.mem_cons.mp h with rfl | h
    · exact hwf.1
    · exact ih hwf.2 h

theorem nodup_lookup_mem {kvs : List (String × JSON)} {k : String} {v : JSON}
    (hnd : nodupKeys kvs = true) (h : (k, v) ∈ kvs) : lookupAssoc kvs k = some v := by
  induction kvs with
  | nil => simp at h
  | cons kv rest ih =>
    obtain ⟨k1, w⟩ := kv
    obtain ⟨hndr, hfresh⟩ := nodupKeys_cons hnd
    rcases List.mem_cons.mp h with heq | h
    · cases heq
      rw [lookupAssoc, if_pos rfl]
    · by_cases hk : k1 = k
      · subst hk
        have : lookupAssoc rest k1 = some v := ih hndr h
        rw [hfresh] at this
        cases this
      · rw [lookupAssoc, if_neg hk]
        exact ih hndr h

theorem assocSet_id {kvs : List (String × JSON)} {k : String} {v : JSON}
    (h : lookupAssoc kvs k = some v) : assocSet kvs k v = kvs := by
  induction kvs with
  | nil => simp [lookupAssoc] at h
  | cons kv rest ih =>
    obtain ⟨k1, w⟩ := kv
    by_cases hk : k1 = k
    · subst hk
      rw [lookupAssoc, if_pos rfl] at h
      cases h
      rw [assocSet, if_pos rfl]
    · rw [lookupAssoc, if_neg hk] at h
      rw [assocSet, if_neg hk, ih h]

theorem pyEq_refl : ∀ (n : Nat) (t : JSON), sizeOf t ≤ n → wfJSON t = true →
    pyEq t t = true := by
  intro n
  induction n with
  | zero =>
    intro t hsz
    cases t <;> simp at hsz
  | succ n ih =>
    intro t hsz hwf
    cases t with
    | null => simp [pyEq, toRat?]
    | bool b => simp [pyEq, toRat?]
    | int m => simp [pyEq, toRat?]
    | float q => simp [pyEq, toRat?]
    | str s => simp [pyEq, toRat?]
    | list xs =>
      rw [wfJSON] at hwf
      rw [pyEq]
      simp only [toRat?]
      have : ∀ ys : List JSON, (∀ y ∈ ys, y ∈ xs) → pyEqList ys ys = true := by
        intro ys
        induction ys with
        | nil => intro _; rw [pyEqList]
        | cons y rest ihy =>
          intro hsub
          rw [pyEqList, Bool.and_eq_true]
          have hy : y ∈ xs := hsub y (List.mem_cons_self _ _)
          have hsy : sizeOf y ≤ n := by
            have h1 : sizeOf y < sizeOf xs := sizeOf_mem_list hy
            have h2 : sizeOf xs < sizeOf (JSON.list xs) := by simp
            omega
          exact ⟨ih y hsy (wfList_mem hwf hy),
            ihy fun z hz => hsub z (List.mem_cons_of_mem _ hz)⟩
      rw [this xs fun y hy => hy]
    | dict kvs =>
      rw [wfJSON, Bool.and_eq_true] at hwf
      rw [pyEq]
      simp only [toRat?]
      have : ∀ sub : List (String × JSON), (∀ kv ∈ sub, kv ∈ kvs) →
          pyEqDictSub sub kvs = true := by
        intro sub
        induction sub with
        | nil => intro _; rw [pyEqDictSub]
        | cons kv rest ihs =>
          intro hsub
          obtain ⟨k, v⟩ := kv
          rw [pyEqDictSub, Bool.and_eq_true]
          have hmem : (k, v) ∈ kvs := hsub (k, v) (List.mem_cons_self _ _)
          have hlk : lookupAssoc kvs k = some v := nodup_lookup_mem hwf.1 hmem
          have hsv : sizeOf v ≤ n := by
            have h1 := sizeOf_mem_dict hmem
            have h2 : sizeOf kvs < sizeOf (JSON.dict kvs) := by simp
            omega
          constructor
          · rw [hlk]
            exact ih v hsv (wfDict_mem hwf.2 hmem)
          · exact ihs fun z hz => hsub z (List.mem_cons_of_mem _ hz)
      rw [this kvs fun kv hkv => hkv]
      simp

theorem goLW_disjoint (fmap : Option FieldMergeMap) (path : String) :
    ∀ (okvs acc : List (String × JSON)),
    (∀ kv ∈ okvs, lookupAssoc acc kv.1 = none) → nodupKeys okvs = true →
    deepMergeLastWinsGo fmap path acc okvs = .ok (acc ++ okvs) := by
  intro okvs
  induction okvs with
  | nil => intro acc _ _; simp [deepMergeLastWinsGo, pure, Except.pure]
  | cons kv rest ih =>
    intro acc hfresh hnd
    obtain ⟨key, value⟩ := kv
    obtain ⟨hndr, hkey⟩ := nodupKeys_cons hnd
    have hacc : lookupAssoc acc key = none := hfresh (key, value) (List.mem_cons_self _ _)
    rw [deepMergeLastWinsGo, hacc]
    have : ∀ kv ∈ rest, lookupAssoc (acc ++ [(key, value)]) kv.1 = none := by
      intro kv2 hkv2
      rw [lookupAssoc_append]
      rw [hfresh kv2 (List.mem_cons_of_mem _ hkv2)]
      have hne : ¬(key = kv2.1) := by
        intro heq
        have : lookupAssoc rest kv2.1 = none := heq ▸ hkey
        have hmem : (kv2.1, kv2.2) ∈ rest := by
          simpa using hkv2
        rw [nodup_lookup_mem hndr hmem] at this
        cases this
      simp [lookupAssoc, hne]
    rw [ih (acc ++ [(key, value)]) this hndr]
    simp

theorem mergeEmptyLW (t : JSON) (hwf : wfJSON t = true) (path : String) :
    deepMergeLastWins none (.dict []) t path = .ok t := by
  cases t with
  | dict kvs =>
    rw [wfJSON, Bool.and_eq_true] at hwf
    simp only [deepMergeLastWins, lookupStrategy]
    rw [goLW_disjoint none path kvs [] (fun kv _ => by simp [lookupAssoc]) hwf.1]
    simp [Bind.bind, Except.bind, pure, Except.pure]
  | null => simp [deepMergeLastWins, lookupStrategy, pure, Except.pure]
  | bool b => simp [deepMergeLastWins, lookupStrategy, pure, Except.pure]
  | int n => simp [deepMergeLastWins, lookupStrategy, pure, Except.pure]
  | float q => simp [deepMergeLastWins, lookupStrategy, pure, Except.pure]
  | str s => simp [deepMergeLastWins, lookupStrategy, pure, Except.pure]
  | list xs => simp [deepMergeLastWins, lookupStrategy, pure, Except.pure]

theorem mergeSelfLW : ∀ (n : Nat) (t : JSON), sizeOf t ≤ n → wfJSON t = true →
    ∀ path, deepMergeLastWins none t t path = .ok t := by
  intro n
  induction n with
  | zero =>
    intro t hsz
    cases t <;> simp at hsz
  | succ n ih =>
    intro t hsz hwf path
    cases t with
    | dict kvs =>
      rw [wfJSON, Bool.and_eq_true] at hwf
      simp only [deepMergeLastWins, lookupStrategy]
      have hgo : ∀ sub : List (String × JSON), (∀ kv ∈ sub, kv ∈ kvs) →
          deepMergeLastWinsGo none path kvs sub = .ok kvs := by
        intro sub
        induction sub with
        | nil => intro _; simp [deepMergeLastWinsGo, pure, Except.pure]
        | cons kv rest ihs =>
          intro hsub
          obtain ⟨key, value⟩ := kv
          have hmem : (key, value) ∈ kvs := hsub _ (List.mem_cons_self _ _)
          have hlk : lookupAssoc kvs key = some value := nodup_lookup_mem hwf.1 hmem
          have hsv : sizeOf value ≤ n := by
            have h1 := sizeOf_mem_dict hmem
            have h2 : sizeOf kvs < sizeOf (JSON.dict kvs) := by simp
            omega
          simp only [deepMergeLastWinsGo, hlk]
          rw [ih value hsv (wfDict_mem hwf.2 hmem) (childPath path key)]
          simp only [Bind.bind, Except.bind]
          rw [assocSet_id hlk]
          exact ihs fun z hz => hsub z (List.mem_cons_of_mem _ hz)
      rw [hgo kvs fun kv hkv => hkv]
      simp [Bind.bind, Except.bind, pure, Except.pure]
    | null => simp [deepMergeLastWins, lookupStrategy, pure, Except.pure]
    | bool b => simp [deepMergeLastWins, lookupStrategy, pure, Except.pure]
    | int m => simp [deepMergeLastWins, lookupStrategy, pure, Except.pure]
    | float q => simp [deepMergeLastWins, lookupStrategy, pure, Except.pure]
    | str s => simp [deepMergeLastWins, lookupStrategy, pure, Except.pure]
    | list xs => simp [deepMergeLastWins, lookupStrategy, pure, Except.pure]

theorem goFW_disjoint (fmap : Option FieldMergeMap) (path : String) :
    ∀ (okvs acc : List (String × JSON)),
    (∀ kv ∈ okvs, lookupAssoc acc kv.1 = none) → nodupKeys okvs = true →
    deepMergeFirstWinsGo fmap path acc okvs = .ok (acc ++ okvs) := by
  intro okvs
  induction okvs with
  | nil => intro acc _ _; simp [deepMergeFirstWinsGo, pure, Except.pure]
  | cons kv rest ih =>
    intro acc hfresh hnd
    obtain ⟨key, value⟩ := kv
    obtain ⟨hndr, hkey⟩ := nodupKeys_cons hnd
    have hacc : lookupAssoc acc key = none := hfresh (key, value) (List.mem_cons_self _ _)
    rw [deepMergeFirstWinsGo, hacc]
    have : ∀ kv ∈ rest, lookupAssoc (acc ++ [(key, value)]) kv.1 = none := by
      intro kv2 hkv2
      rw [lookupAssoc_append]
      rw [hfresh kv2 (List.mem_cons_of_mem _ hkv2)]
      have hne : ¬(key = kv2.1) := by
        intro heq
        have : lookupAssoc rest kv2.1 = none := heq ▸ hkey
        have hmem : (kv2.1, kv2.2) ∈ rest := by
          simpa using hkv2
        rw [nodup_lookup_mem hndr hmem] at this
        cases this
      simp [lookupAssoc, hne]
    rw [ih (acc ++ [(key, value)]) this hndr]
    simp

theorem mergeEmptyFW (kvs : List (String × JSON)) (hnd : nodupKeys kvs = true)
    (path : String) :
    deepMergeFirstWins none (.dict []) (.dict kvs) path = .ok (.dict kvs) := by
  simp only [deepMergeFirstWins, lookupStrategy]
  rw [goFW_disjoint none path kvs [] (fun kv _ => by simp [lookupAssoc]) hnd]
  simp [Bind.bind, Except.bind, pure, Except.pure]

theorem mergeSelfFW : ∀ (n : Nat) (t : JSON), sizeOf t ≤ n → wfJSON t = true →
    ∀ path, deepMergeFirstWins none t t path = .ok t := by
  intro n
  induction n with
  | zero =>
    intro t hsz
    cases t <;> simp at hsz
  | succ n ih =>
    intro t hsz hwf path
    cases t with
    | dict kvs =>
      rw [wfJSON, Bool.and_eq_true] at hwf
      simp only [deepMergeFirstWins, lookupStrategy]
      have hgo : ∀ sub : List (String × JSON), (∀ kv ∈ sub, kv ∈ kvs) →
          deepMergeFirstWinsGo none path kvs sub = .ok kvs := by
        intro sub
        induction sub with
        | nil => intro _; simp [deepMergeFirstWinsGo, pure, Except.pure]
        | cons kv rest ihs =>
          intro hsub
          obtain ⟨key, value⟩ := kv
          have hmem : (key, value) ∈ kvs := hsub _ (List.mem_cons_self _ _)
          have hlk : lookupAssoc kvs key = some value := nodup_lookup_mem hwf.1 hmem
          have hsv : sizeOf value ≤ n := by
            have h1 := sizeOf_mem_dict hmem
            have h2 : sizeOf kvs < sizeOf (JSON.dict kvs) := by simp
            omega
          simp only [deepMergeFirstWinsGo, hlk]
          rw [ih value hsv (wfDict_mem hwf.2 hmem) (childPath path key)]
          simp only [Bind.bind, Except.bind]
          rw [assocSet_id hlk]
          exact ihs fun z hz => hsub z (List.mem_cons_of_mem _ hz)
      rw [hgo kvs fun kv hkv => hkv]
      simp [Bind.bind, Except.bind, pure, Except.pure]
    | null => simp [deepMergeFirstWins, lookupStrategy, pure, Except.pure]
    | bool b => simp [deepMergeFirstWins, lookupStrategy, pure, Except.pure]
    | int m => simp [deepMergeFirstWins, lookupStrategy, pure, Except.pure]
    | float q => simp [deepMergeFirstWins, lookupStrategy, pure, Except.pure]
    | str s => simp [deepMergeFirstWins, lookupStrategy, pure, Except.pure]
    | list xs => simp [deepMergeFirstWins, lookupStrategy, pure, Except.pure]

theorem conflictsForKeys_noSources (dicts : List JSON)
    (h : ∀ key, sourcesFor dicts key = []) :
    ∀ (path : List String) (fmap : Option FieldMergeMap) (keys : List String),
    conflictsForKeys dicts path fmap keys = [] := by
  intro path fmap keys
  induction keys with
  | nil => rw [conflictsForKeys]
  | cons key ks ihk =>
    simp only [conflictsForKeys, h key, ihk]
    simp

theorem conflictsForKeys_selfPair : ∀ (n : Nat) (t : JSON), sizeOf t ≤ n →
    wfJSON t = true → ∀ (path : List String) (fmap : Option FieldMergeMap)
    (keys : List String), conflictsForKeys [t, t] path fmap keys = [] := by
  intro n
  induction n with
  | zero =>
    intro t hsz
    cases t <;> simp at hsz
  | succ n ih =>
    intro t hsz hwf path fmap
    cases t with
    | dict kvs =>
      rw [wfJSON, Bool.and_eq_true] at hwf
      intro keys
      induction keys with
      | nil => rw [conflictsForKeys]
      | cons key ks ihk =>
        cases hlk : lookupAssoc kvs key with
        | none =>
          have hsrc : sourcesFor [JSON.dict kvs, JSON.dict kvs] key = [] := by
            simp [sourcesFor, sourcesForAux, hlk]
          simp only [conflictsForKeys, hsrc, ihk]
          simp
        | some v =>
          have hsrc : sourcesFor [JSON.dict kvs, JSON.dict kvs] key = [(0, v), (1, v)] := by
            simp [sourcesFor, sourcesForAux, hlk]
          have hmem : (key, v) ∈ kvs := lookupAssoc_mem hlk
          have hwfv : wfJSON v = true := wfDict_mem hwf.2 hmem
          have hsv : sizeOf v ≤ n := by
            have h1 := sizeOf_mem_dict hmem
            have h2 : sizeOf kvs < sizeOf (JSON.dict kvs) := by simp
            omega
          have hpe : pyEq v v = true := pyEq_refl n v hsv hwfv
          simp only [conflictsForKeys, hsrc, ihk]
          cases hstr : (lookupStrategy fmap (joinDots (path ++ [key]))).isSome with
          | true => simp [hstr]
          | false =>
            cases v with
            | dict vkvs =>
              have hrec : collectConflicts [JSON.dict vkvs, JSON.dict vkvs]
                  (path ++ [key]) fmap = [] := by
                rw [collectConflicts]
                exact ih _ hsv hwfv _ _ _
              simp [hstr, hrec, isDictB]
            | null => simp [hstr, isDictB, hpe]
            | bool b => simp [hstr, isDictB, hpe]
            | int m => simp [hstr, isDictB, hpe]
            | float q => simp [hstr, isDictB, hpe]
            | str s => simp [hstr, isDictB, hpe]
            | list xs => simp [hstr, isDictB, hpe]
    | null =>
      exact conflictsForKeys_noSources _ (fun k => by simp [sourcesFor, sourcesForAux]) path fmap
    | bool b =>
      exact conflictsForKeys_noSources _ (fun k => by simp [sourcesFor, sourcesForAux]) path fmap
    | int m =>
      exact conflictsForKeys_noSources _ (fun k => by simp [sourcesFor, sourcesForAux]) path fmap
    | float q =>
      exact conflictsForKeys_noSources _ (fun k => by simp [sourcesFor, sourcesForAux]) path fmap
    | str s =>
      exact conflictsForKeys_noSources _ (fun k => by simp [sourcesFor, sourcesForAux]) path fmap
    | list xs =>
      exact conflictsForKeys_noSources _ (fun k => by simp [sourcesFor, sourcesForAux]) path fmap

theorem collectConflicts_selfPair (t : JSON) (hwf : wfJSON t = true)
    (fmap : Option FieldMergeMap) : collectConflicts [t, t] [] fmap = [] := by
  rw [collectConflicts]
  exact conflictsForKeys_selfPair (sizeOf t) t le_rfl hwf [] fmap _

/-- C8 counterexample: the merge fold seeds its accumulator with the empty
dict, so under `FIRST_WINS` a non-dict source list such as `[5, 5]` merges
to the empty dict — the accumulated `\x7b\x7d` wins over `5` — and the
round trip does not return the source tree. -/
theorem C8_counterexample :
    loadAndMerge [JSON.int 5, JSON.int 5] .FIRST_WINS none
      = .ok (JSON.dict []) ∧ JSON.dict [] ≠ JSON.int 5 := by
  constructor
  · simp [loadAndMerge, mergeRawDicts, mergeRawDicts.go, deepMerge,
      deepMergeFirstWins, lookupStrategy, Bind.bind, Except.bind, pure, Except.pure]
  · intro h
    cases h

/-- C8 (corrected): for every well-formed tree `t`, folding the source list
`[t, t]` returns `t` unchanged under `LAST_WINS` and under
`RAISE_ON_CONFLICT` (no conflict is detected between a tree and itself);
under `FIRST_WINS` it returns `t` unchanged provided `t` is a dict (for a
non-dict top level the empty-dict fold seed wins instead, see
`C8_counterexample`). -/
theorem C8_round_trip (t : JSON) (hwf : wfJSON t = true) :
    loadAndMerge [t, t] .LAST_WINS none = .ok t ∧
    loadAndMerge [t, t] .RAISE_ON_CONFLICT none = .ok t ∧
    (∀ kvs, t = .dict kvs → loadAndMerge [t, t] .FIRST_WINS none = .ok t) := by
  have h1 : deepMergeLastWins none (JSON.dict []) t "" = .ok t := mergeEmptyLW t hwf ""
  have h2 : deepMergeLastWins none t t "" = .ok t := mergeSelfLW (sizeOf t) t le_rfl hwf ""
  refine ⟨?_, ?_, ?_⟩
  · simp [loadAndMerge, mergeRawDicts, mergeRawDicts.go, deepMerge, h1, h2,
      Bind.bind, Except.bind, pure, Except.pure]
  · have h0 : raiseOnConflict [t, t] none = .ok () := by
      simp [raiseOnConflict, collectConflicts_selfPair t hwf none]
    simp [loadAndMerge, mergeRawDicts, mergeRawDicts.go, h0, h1, h2,
      Bind.bind, Except.bind, pure, Except.pure]
  · intro kvs ht
    subst ht
    have hwf2 := hwf
    rw [wfJSON, Bool.and_eq_true] at hwf2
    have hf1 : deepMergeFirstWins none (JSON.dict []) (JSON.dict kvs) ""
        = .ok (JSON.dict kvs) := mergeEmptyFW kvs hwf2.1 ""
    have hf2 : deepMergeFirstWins none (JSON.dict kvs) (JSON.dict kvs) ""
        = .ok (JSON.dict kvs) :=
      mergeSelfFW (sizeOf (JSON.dict kvs)) (JSON.dict kvs) le_rfl hwf ""
    simp [loadAndMerge, mergeRawDicts, mergeRawDicts.go, deepMerge, hf1, hf2,
      Bind.bind, Except.bind, pure, Except.pure]

/-- C8 witness: the round trip evaluated on the concrete dict
`\x7b"a": 1\x7d` under all three strategies. -/
theorem C8_witness :
    wfJSON (JSON.dict [("a", JSON.int 1)]) = true ∧
    loadAndMerge [JSON.dict [("a", JSON.int 1)], JSON.dict [("a", JSON.int 1)]]
      .LAST_WINS none = .ok (JSON.dict [("a", JSON.int 1)]) ∧
    loadAndMerge [JSON.dict [("a", JSON.int 1)], JSON.dict [("a", JSON.int 1)]]
      .RAISE_ON_CONFLICT none = .ok (JSON.dict [("a", JSON.int 1)]) ∧
    loadAndMerge [JSON.dict [("a", JSON.int 1)], JSON.dict [("a", JSON.int 1)]]
      .FIRST_WINS none = .ok (JSON.dict [("a", JSON.int 1)]) := by
  have hwf : wfJSON (JSON.dict [("a", JSON.int 1)]) = true := by
    simp [wfJSON, nodupKeys, wfDict]
  have h := C8_round_trip (JSON.dict [("a", JSON.int 1)]) hwf
  exact ⟨hwf, h.1, h.2.1, h.2.2 _ rfl⟩

theorem mergeGo_raise_eq_last (fmap : Option FieldMergeMap) :
    ∀ (l : List JSON) (merged : JSON),
    mergeRawDicts.go .RAISE_ON_CONFLICT fmap merged l
      = mergeRawDicts.go .LAST_WINS fmap merged l := by
  intro l
  induction l with
  | nil => intro merged; rfl
  | cons raw rest ih =>
    intro merged
    simp only [mergeRawDicts.go, deepMerge]
    cases hm : deepMergeLastWins fmap merged raw "" with
    | error e => simp [hm, Bind.bind, Except.bind]
    | ok m => simp [hm, Bind.bind, Except.bind, ih]

/-- C4: under `RAISE_ON_CONFLICT`, conflict detection runs before any
merging: with a non-empty conflict list, `_load_and_merge` fails with the
single aggregate error carrying every conflict record and performs no merge;
with no conflicts, the result is exactly the `LAST_WINS` fold of the
sources. -/
theorem C4_raise_on_conflict (rawDicts : List JSON) (fmap : Option FieldMergeMap) :
    (collectConflicts rawDicts [] fmap ≠ [] →
      loadAndMerge rawDicts .RAISE_ON_CONFLICT fmap
        = .error (.conflictError (collectConflicts rawDicts [] fmap))) ∧
    (collectConflicts rawDicts [] fmap = [] →
      loadAndMerge rawDicts .RAISE_ON_CONFLICT fmap
        = mergeRawDicts rawDicts .LAST_WINS fmap) := by
  constructor
  · intro h
    cases hc : collectConflicts rawDicts [] fmap with
    | nil => exact absurd hc h
    | cons c cs =>
      simp [loadAndMerge, raiseOnConflict, hc, Bind.bind, Except.bind]
  · intro h
    simp only [loadAndMerge, raiseOnConflict, h, mergeRawDicts]
    simp [Bind.bind, Except.bind, pure, Except.pure]
    exact mergeGo_raise_eq_last fmap rawDicts (.dict [])

/-- C4 witness: `[\x7b"a": 1\x7d, \x7b"a": 2\x7d]` raises the aggregate
error with the single conflict record at path `["a"]`, and the
conflict-free singleton list `[\x7b"a": 1\x7d]` merges via the `LAST_WINS`
fold. -/
theorem C4_witness :
    loadAndMerge [JSON.dict [("a", JSON.int 1)], JSON.dict [("a", JSON.int 2)]]
        .RAISE_ON_CONFLICT none
      = .error (.conflictError [(["a"], [(0, JSON.int 1), (1, JSON.int 2)])]) ∧
    loadAndMerge [JSON.dict [("a", JSON.int 1)]] .RAISE_ON_CONFLICT none
      = mergeRawDicts [JSON.dict [("a", JSON.int 1)]] .LAST_WINS none := by
  have hc : collectConflicts
      [JSON.dict [("a", JSON.int 1)], JSON.dict [("a", JSON.int 2)]] [] none
      = [(["a"], [(0, JSON.int 1), (1, JSON.int 2)])] := by
    rw [collectConflicts]
    simp [keyOrder, keyOrderAux, addKeys, conflictsForKeys, sourcesFor,
      sourcesForAux, lookupAssoc, lookupStrategy, isDictB, pyEq, toRat?]
  have hc1 : collectConflicts [JSON.dict [("a", JSON.int 1)]] [] none = [] := by
    rw [collectConflicts]
    simp [keyOrder, keyOrderAux, addKeys, conflictsForKeys, sourcesFor,
      sourcesForAux, lookupAssoc]
  constructor
  · have h := (C4_raise_on_conflict
      [JSON.dict [("a", JSON.int 1)], JSON.dict [("a", JSON.int 2)]] none).1
      (by rw [hc]; intro hcontra; cases hcontra)
    rw [hc] at h
    exact h
  · exact (C4_raise_on_conflict [JSON.dict [("a", JSON.int 1)]] none).2 hc1

theorem addKeys_mem_mono : ∀ (kvs : List (String × JSON)) (acc : List String)
    (k : String), k ∈ acc → k ∈ addKeys acc kvs := by
  intro kvs
  induction kvs with
  | nil => intro acc k h; simpa [addKeys] using h
  | cons kv rest ih =>
    intro acc k h
    obtain ⟨k1, v1⟩ := kv
    cases hcont : acc.contains k1
    · simp only [addKeys, hcont]
      simp only [Bool.false_eq_true, if_false]
      exact ih _ k (List.mem_append_left _ h)
    · simp only [addKeys, hcont, if_true]
      exact ih acc k h

theorem addKeys_mem_of_lookup : ∀ (kvs : List (String × JSON)) (acc : List String)
    (k : String) (v : JSON), lookupAssoc kvs k = some v → k ∈ addKeys acc kvs := by
  intro kvs
  induction kvs with
  | nil => intro acc k v h; simp [lookupAssoc] at h
  | cons kv rest ih =>
    intro acc k v h
    obtain ⟨k1, v1⟩ := kv
    by_cases hk : k1 = k
    · subst hk
      cases hcont : acc.contains k1
      · simp only [addKeys, hcont, Bool.false_eq_true, if_false]
        exact addKeys_mem_mono rest _ _ (by simp)
      · simp only [addKeys, hcont, if_true]
        have hmem : k1 ∈ acc := by simpa using hcont
        exact addKeys_mem_mono rest acc k1 hmem
    · rw [lookupAssoc, if_neg hk] at h
      cases hcont : acc.contains k1
      · simp only [addKeys, hcont, Bool.false_eq_true, if_false]
        exact ih _ k v h
      · simp only [addKeys, hcont, if_true]
        exact ih acc k v h

theorem keyOrderAux_mono : ∀ (dicts : List JSON) (acc : List String) (k : String),
    k ∈ acc → k ∈ keyOrderAux acc dicts := by
  intro dicts
  induction dicts with
  | nil => intro acc k h; simpa [keyOrderAux] using h
  | cons d rest ih =>
    intro acc k h
    cases d with
    | dict kvs =>
      simp only [keyOrderAux]
      exact ih _ k (addKeys_mem_mono kvs acc k h)
    | null => simp only [keyOrderAux]; exact ih acc k h
    | bool b => simp only [keyOrderAux]; exact ih acc k h
    | int m => simp only [keyOrderAux]; exact ih acc k h
    | float q => simp only [keyOrderAux]; exact ih acc k h
    | str s => simp only [keyOrderAux]; exact ih acc k h
    | list xs => simp only [keyOrderAux]; exact ih acc k h

theorem mem_keyOrderAux_of_sources : ∀ (dicts : List JSON) (k : String) (i : Nat)
    (acc : List String), sourcesForAux k i dicts ≠ [] → k ∈ keyOrderAux acc dicts := by
  intro dicts
  induction dicts with
  | nil => intro k i acc h; simp [sourcesForAux] at h
  | cons d rest ih =>
    intro k i acc h
    cases d with
    | dict kvs =>
      simp only [keyOrderAux]
      cases hl : lookupAssoc kvs k with
      | some v => exact keyOrderAux_mono rest _ k (addKeys_mem_of_lookup kvs acc k v hl)
      | none =>
        simp only [sourcesForAux, hl] at h
        exact ih k (i + 1) _ h
    | null =>
      simp only [sourcesForAux] at h
      simp only [keyOrderAux]
      exact ih k (i + 1) acc h
    | bool b =>
      simp only [sourcesForAux] at h
      simp only [keyOrderAux]
      exact ih k (i + 1) acc h
    | int m =>
      simp only [sourcesForAux] at h
      simp only [keyOrderAux]
      exact ih k (i + 1) acc h
    | float q =>
      simp only [sourcesForAux] at h
      simp only [keyOrderAux]
      exact ih k (i + 1) acc h
    | str s =>
      simp only [sourcesForAux] at h
      simp only [keyOrderAux]
      exact ih k (i + 1) acc h
    | list xs =>
      simp only [sourcesForAux] at h
      simp only [keyOrderAux]
      exact ih k (i + 1) acc h

theorem mem_keyOrder_of_sources (dicts : List JSON) (k : String)
    (h : sourcesFor dicts k ≠ []) : k ∈ keyOrder dicts :=
  mem_keyOrderAux_of_sources dicts k 0 [] h

theorem sourcesForAux_sizeOf : ∀ (l : List JSON) (k : String) (i : Nat),
    sizeOf ((sourcesForAux k i l).map Prod.snd) ≤ sizeOf l ∧
      (sourcesForAux k i l ≠ [] →
        sizeOf ((sourcesForAux k i l).map Prod.snd) < sizeOf l) := by
  intro l k
  induction l with
  | nil =>
    intro i
    refine ⟨by simp [sourcesForAux], fun h => absurd rfl h⟩
  | cons d rest ih =>
    intro i
    cases d with
    | dict kvs =>
      cases hl : lookupAssoc kvs k with
      | some v =>
        have hv : sizeOf v < sizeOf kvs := sizeOf_mem_dict (lookupAssoc_mem hl)
        have ht := (ih (i + 1)).1
        constructor
        · simp [sourcesForAux, hl]
          omega
        · intro _
          simp [sourcesForAux, hl]
          omega
      | none =>
        have ht := (ih (i + 1)).1
        constructor
        · simp only [sourcesForAux, hl]
          simp
          omega
        · intro _
          simp only [sourcesForAux, hl]
          simp
          omega
    | null =>
      have ht := (ih (i + 1)).1
      exact ⟨by simp [sourcesForAux]; omega, fun _ => by simp [sourcesForAux]; omega⟩
    | bool b =>
      have ht := (ih (i + 1)).1
      exact ⟨by simp [sourcesForAux]; omega, fun _ => by simp [sourcesForAux]; omega⟩
    | int m =>
      have ht := (ih (i + 1)).1
      exact ⟨by simp [sourcesForAux]; omega, fun _ => by simp [sourcesForAux]; omega⟩
    | float q =>
      have ht := (ih (i + 1)).1
      exact ⟨by simp [sourcesForAux]; omega, fun _ => by simp [sourcesForAux]; omega⟩
    | str s =>
      have ht := (ih (i + 1)).1
      exact ⟨by simp [sourcesForAux]; omega, fun _ => by simp [sourcesForAux]; omega⟩
    | list xs =>
      have ht := (ih (i + 1)).1
      exact ⟨by simp [sourcesForAux]; omega, fun _ => by simp [sourcesForAux]; omega⟩

theorem sourcesFor_sizeOf (dicts : List JSON) (key : String)
    (h : ¬ (sourcesFor dicts key).length < 2) :
    sizeOf ((sourcesFor dicts key).map Prod.snd) < sizeOf dicts := by
  have hne : sourcesFor dicts key ≠ [] := by
    intro hemp
    apply h
    rw [hemp]
    decide
  exact (sourcesForAux_sizeOf dicts key 0).2 hne

theorem mem_conflictsForKeys (dicts : List JSON) (pfx : List String)
    (fmap : Option FieldMergeMap) :
    ∀ (keys : List String) (c : Conflict),
    c ∈ conflictsForKeys dicts pfx fmap keys ↔
      ∃ k, k ∈ keys ∧ c ∈ chunkOf dicts pfx fmap k := by
  intro keys
  induction keys with
  | nil => intro c; rw [conflictsForKeys]; simp
  | cons key ks ih =>
    intro c
    have hsplit : conflictsForKeys dicts pfx fmap (key :: ks)
        = chunkOf dicts pfx fmap key ++ conflictsForKeys dicts pfx fmap ks := by
      simp only [conflictsForKeys, chunkOf]
      by_cases h2 : (sourcesFor dicts key).length < 2
      · simp [h2]
      · cases hstr : (lookupStrategy fmap (joinDots (pfx ++ [key]))).isSome
        · by_cases hdall : (((sourcesFor dicts key).map Prod.snd).filter isDictB).length
              = (sourcesFor dicts key).length
          · simp [h2, hstr, hdall]
          · cases hv : (sourcesFor dicts key).map Prod.snd with
            | nil =>
              exfalso
              apply h2
              have hlen : (sourcesFor dicts key).length = 0 := by
                have := congrArg List.length hv
                simpa using this
              omega
            | cons v0 vtail =>
              rw [hv] at hdall
              cases hall : vtail.all fun v => pyEq v v0
              · simp [h2, hstr, hdall, hv, hall]
              · simp [h2, hstr, hdall, hv, hall]
        · simp [h2, hstr]
    rw [hsplit, List.mem_append, ih c]
    constructor
    · rintro (hc | ⟨k, hk, hck⟩)
      · exact ⟨key, List.mem_cons_self key ks, hc⟩
      · exact ⟨k, List.mem_cons_of_mem key hk, hck⟩
    · rintro ⟨k, hk, hck⟩
      rcases List.mem_cons.mp hk with hkk | hkk
      · subst hkk
        exact Or.inl hck
      · exact Or.inr ⟨k, hkk, hck⟩

theorem conflicts_path_shape : ∀ (n : Nat) (dicts : List JSON), sizeOf dicts ≤ n →
    ∀ (pfx : List String) (fmap : Option FieldMergeMap) (keys : List String)
    (c : Conflict), c ∈ conflictsForKeys dicts pfx fmap keys →
    ∃ k suffix, k ∈ keys ∧ c.1 = pfx ++ k :: suffix := by
  intro n
  induction n with
  | zero =>
    intro dicts hsz
    cases dicts <;> simp at hsz
  | succ n ih =>
    intro dicts hsz pfx fmap keys c hc
    rw [mem_conflictsForKeys] at hc
    obtain ⟨k, hk, hck⟩ := hc
    simp only [chunkOf] at hck
    by_cases h2 : (sourcesFor dicts k).length < 2
    · simp [h2] at hck
    · cases hstr : (lookupStrategy fmap (joinDots (pfx ++ [k]))).isSome with
      | true => simp [h2, hstr] at hck
      | false =>
        by_cases hdall : (((sourcesFor dicts k).map Prod.snd).filter isDictB).length
            = (sourcesFor dicts k).length
        · simp only [if_neg h2, hstr, Bool.false_eq_true, if_false, if_pos hdall] at hck
          rw [collectConflicts] at hck
          have hlt : sizeOf ((sourcesFor dicts k).map Prod.snd) < sizeOf dicts :=
            sourcesFor_sizeOf dicts k h2
          obtain ⟨k2, suffix2, hk2, hpath⟩ :=
            ih ((sourcesFor dicts k).map Prod.snd) (by omega) (pfx ++ [k]) fmap _ c hck
          refine ⟨k, k2 :: suffix2, hk, ?_⟩
          rw [hpath]
          simp
        · simp only [if_neg h2, hstr, Bool.false_eq_true, if_false, if_neg hdall] at hck
          cases hv : (sourcesFor dicts k).map Prod.snd with
          | nil =>
            exfalso
            apply h2
            have hlen : (sourcesFor dicts k).length = 0 := by
              have := congrArg List.length hv
              simpa using this
            omega
          | cons v0 vtail =>
            rw [hv] at hck
            cases hall : vtail.all fun v => pyEq v v0 with
            | true => simp [hall] at hck
            | false =>
              have hcc : c = (pfx ++ [k], sourcesFor dicts k) := by
                simpa [hall] using hck
              exact ⟨k, [], hk, by rw [hcc]⟩

theorem conflictAt_iff : ∀ (n : Nat) (dicts : List JSON), sizeOf dicts ≤ n →
    ∀ (fmap : Option FieldMergeMap) (pfx p : List String),
    ((∃ srcs, (pfx ++ p, srcs) ∈ collectConflicts dicts pfx fmap) ↔
      conflictAt dicts fmap pfx p = true) := by
  intro n
  induction n with
  | zero =>
    intro dicts hsz
    cases dicts <;> simp at hsz
  | succ n ih =>
    intro dicts hsz fmap pfx p
    cases p with
    | nil =>
      simp only [conflictAt]
      constructor
      · rintro ⟨srcs, hmem⟩
        rw [collectConflicts] at hmem
        obtain ⟨k, suffix, hk, hpath⟩ :=
          conflicts_path_shape (n + 1) dicts hsz pfx fmap _ _ hmem
        have hlen := congrArg List.length hpath
        simp only [List.append_nil, List.length_append, List.length_cons] at hlen
        omega
      · intro hfalse
        cases hfalse
    | cons k rest =>
      cases rest with
      | nil =>
        constructor
        · rintro ⟨srcs, hmem⟩
          rw [collectConflicts, mem_conflictsForKeys] at hmem
          obtain ⟨k', hk', hck⟩ := hmem
          simp only [chunkOf] at hck
          by_cases h2 : (sourcesFor dicts k').length < 2
          · simp [h2] at hck
          · cases hopt : lookupStrategy fmap (joinDots (pfx ++ [k'])) with
            | some s => simp [h2, hopt] at hck
            | none =>
              simp only [if_neg h2, hopt, Option.isSome_none, Bool.false_eq_true,
                if_false] at hck
              by_cases hdall : (((sourcesFor dicts k').map Prod.snd).filter isDictB).length
                  = (sourcesFor dicts k').length
              · simp only [if_pos hdall] at hck
                rw [collectConflicts] at hck
                obtain ⟨k3, suffix3, hk3, hpath⟩ :=
                  conflicts_path_shape n ((sourcesFor dicts k').map Prod.snd)
                    (by have := sourcesFor_sizeOf dicts k' h2; omega)
                    (pfx ++ [k']) fmap _ _ hck
                exfalso
                have hlen := congrArg List.length hpath
                simp only [List.length_append, List.length_cons, List.length_nil] at hlen
                omega
              · simp only [if_neg hdall] at hck
                cases hv : (sourcesFor dicts k').map Prod.snd with
                | nil =>
                  exfalso
                  apply h2
                  have hlen : (sourcesFor dicts k').length = 0 := by
                    have := congrArg List.length hv
                    simpa using this
                  omega
                | cons v0 vtail =>
                  rw [hv] at hck
                  cases hall : vtail.all fun v => pyEq v v0 with
                  | true => simp [hall] at hck
                  | false =>
                    have hcc : ((pfx ++ [k], srcs) : Conflict)
                        = (pfx ++ [k'], sourcesFor dicts k') := by
                      simpa [hall] using hck
                    have h1 : pfx ++ [k] = pfx ++ [k'] := congrArg Prod.fst hcc
                    simp at h1
                    subst h1
                    rw [hv] at hdall
                    simp only [conflictAt]
                    rw [hv]
                    simp [Nat.not_lt.mp h2, hopt, hdall, hall]
        · intro hB
          simp only [conflictAt, Bool.and_eq_true] at hB
          obtain ⟨⟨⟨ha, hb⟩, hc⟩, hd⟩ := hB
          have h2 : ¬ (sourcesFor dicts k).length < 2 := by
            have := of_decide_eq_true ha
            omega
          have hbnone : lookupStrategy fmap (joinDots (pfx ++ [k])) = none :=
            Option.isNone_iff_eq_none.mp hb
          have hdall : ¬ (((sourcesFor dicts k).map Prod.snd).filter isDictB).length
              = (sourcesFor dicts k).length := by
            simpa using hc
          cases hv : (sourcesFor dicts k).map Prod.snd with
          | nil =>
            exfalso
            apply h2
            have hlen : (sourcesFor dicts k).length = 0 := by
              have := congrArg List.length hv
              simpa using this
            omega
          | cons v0 vtail =>
            rw [hv] at hd
            simp only [Bool.not_eq_true'] at hd
            refine ⟨sourcesFor dicts k, ?_⟩
            rw [collectConflicts, mem_conflictsForKeys]
            refine ⟨k, mem_keyOrder_of_sources dicts k
              (fun hemp => h2 (by rw [hemp]; decide)), ?_⟩
            simp only [chunkOf, if_neg h2, hbnone, Option.isSome_none,
              Bool.false_eq_true, if_false, if_neg hdall]
            rw [hv]
            simp [hd]
      | cons k2 rest2 =>
        have hsplitPath : pfx ++ k :: k2 :: rest2 = (pfx ++ [k]) ++ (k2 :: rest2) := by
          simp
        constructor
        · rintro ⟨srcs, hmem⟩
          rw [collectConflicts, mem_conflictsForKeys] at hmem
          obtain ⟨k', hk', hck⟩ := hmem
          simp only [chunkOf] at hck
          by_cases h2 : (sourcesFor dicts k').length < 2
          · simp [h2] at hck
          · cases hopt : lookupStrategy fmap (joinDots (pfx ++ [k'])) with
            | some s => simp [h2, hopt] at hck
            | none =>
              simp only [if_neg h2, hopt, Option.isSome_none, Bool.false_eq_true,
                if_false] at hck
              by_cases hdall : (((sourcesFor dicts k').map Prod.snd).filter isDictB).length
                  = (sourcesFor dicts k').length
              · simp only [if_pos hdall] at hck
                have hlt := sourcesFor_sizeOf dicts k' h2
                have hshape := hck
                rw [collectConflicts] at hshape
                obtain ⟨k3, suffix3, hk3, hpath⟩ :=
                  conflicts_path_shape n ((sourcesFor dicts k').map Prod.snd)
                    (by omega) (pfx ++ [k']) fmap _ _ hshape
                have hpath2 : pfx ++ k :: k2 :: rest2 = pfx ++ k' :: k3 :: suffix3 := by
                  have := hpath
                  simpa using this
                have hkk : k = k' := by
                  have h1 := hpath2
                  simp at h1
                  exact h1.1
                subst hkk
                have hinner : conflictAt ((sourcesFor dicts k).map Prod.snd) fmap
                    (pfx ++ [k]) (k2 :: rest2) = true := by
                  apply (ih _ (by omega) fmap (pfx ++ [k]) (k2 :: rest2)).mp
                  refine ⟨srcs, ?_⟩
                  rw [← hsplitPath]
                  exact hck
                simp only [conflictAt]
                simp [Nat.not_lt.mp h2, hopt, hdall, hinner]
              · simp only [if_neg hdall] at hck
                cases hv : (sourcesFor dicts k').map Prod.snd with
                | nil =>
                  exfalso
                  apply h2
                  have hlen : (sourcesFor dicts k').length = 0 := by
                    have := congrArg List.length hv
                    simpa using this
                  omega
                | cons v0 vtail =>
                  rw [hv] at hck
                  cases hall : vtail.all fun v => pyEq v v0 with
                  | true => simp [hall] at hck
                  | false =>
                    have hcc : ((pfx ++ k :: k2 :: rest2, srcs) : Conflict)
                        = (pfx ++ [k'], sourcesFor dicts k') := by
                      simpa [hall] using hck
                    exfalso
                    have h1 : pfx ++ k :: k2 :: rest2 = pfx ++ [k'] :=
                      congrArg Prod.fst hcc
                    have hlen := congrArg List.length h1
                    simp only [List.length_append, List.length_cons,
                      List.length_nil] at hlen
                    omega
        · intro hB
          simp only [conflictAt, Bool.and_eq_true] at hB
          obtain ⟨⟨⟨ha, hb⟩, hc⟩, hd⟩ := hB
          have h2 : ¬ (sourcesFor dicts k).length < 2 := by
            have := of_decide_eq_true ha
            omega
          have hbnone : lookupStrategy fmap (joinDots (pfx ++ [k])) = none :=
            Option.isNone_iff_eq_none.mp hb
          have hdall : (((sourcesFor dicts k).map Prod.snd).filter isDictB).length
              = (sourcesFor dicts k).length := of_decide_eq_true hc
          have hlt := sourcesFor_sizeOf dicts k h2
          obtain ⟨srcs, hmem⟩ :=
            (ih ((sourcesFor dicts k).map Prod.snd) (by omega) fmap
              (pfx ++ [k]) (k2 :: rest2)).mpr hd
          refine ⟨srcs, ?_⟩
          rw [collectConflicts, mem_conflictsForKeys]
          refine ⟨k, mem_keyOrder_of_sources dicts k
            (fun hemp => h2 (by rw [hemp]; decide)), ?_⟩
          simp only [chunkOf, if_neg h2, hbnone, Option.isSome_none,
            Bool.false_eq_true, if_false, if_pos hdall]
          rw [hsplitPath]
          exact hmem

/-- C3: the conflict detector reports exactly the paths characterized by the
spec: along the path every step has at least two contributing sources, no
explicit field strategy and all-map values (recursing to leaves), and at
the final step at least two sources contribute, there is no explicit field
strategy, not every contributed value is a map, and the values are not all
Python-equal (`conflictAt` transcribes that characterization). In
particular `detect([\x7b"a": 1\x7d, \x7b"a": 2\x7d], \x7b\x7d)` yields
exactly one conflict at `"a"`, and the same input with an explicit rule
`("a", LAST_WINS)` yields none. -/
theorem C3_conflict_detector :
    (∀ (dicts : List JSON) (fmap : Option FieldMergeMap) (p : List String),
      ((∃ srcs, (p, srcs) ∈ collectConflicts dicts [] fmap) ↔
        conflictAt dicts fmap [] p = true)) ∧
    collectConflicts [JSON.dict [("a", JSON.int 1)], JSON.dict [("a", JSON.int 2)]] []
        (some []) = [(["a"], [(0, JSON.int 1), (1, JSON.int 2)])] ∧
    collectConflicts [JSON.dict [("a", JSON.int 1)], JSON.dict [("a", JSON.int 2)]] []
        (some [("a", .LAST_WINS)]) = [] := by
  refine ⟨?_, ?_, ?_⟩
  · intro dicts fmap p
    have h := conflictAt_iff (sizeOf dicts) dicts le_rfl fmap [] p
    simpa using h
  · rw [collectConflicts]
    simp [keyOrder, keyOrderAux, addKeys, conflictsForKeys, sourcesFor,
      sourcesForAux, lookupAssoc, lookupStrategy, lookupStrategy.go, isDictB,
      pyEq, toRat?]
  · rw [collectConflicts]
    simp [keyOrder, keyOrderAux, addKeys, conflictsForKeys, sourcesFor,
      sourcesForAux, lookupAssoc, lookupStrategy, lookupStrategy.go, isDictB,
      joinDots]

theorem getLast?_some_of_ne_nil {targetPath : List String} (hne : targetPath ≠ []) :
    ∃ tk, targetPath.getLast? = some tk := by
  cases hgl : targetPath.getLast? with
  | some tk => exact ⟨tk, rfl⟩
  | none =>
    exfalso
    apply hne
    simpa using hgl

theorem iniProcessLine_ok (lines : List (List Char)) (sec : List String) (i : Nat)
    (line : List Char) (targetPath : List String) (tk : String)
    (htk : targetPath.getLast? = some tk) :
    ∃ st2 res, iniProcessLine lines sec i line targetPath = .ok (st2, res) := by
  rw [iniProcessLine, htk]
  dsimp only
  split_ifs <;> exact ⟨_, _, rfl⟩

theorem tomlProcessLine_ok (lines : List (List Char)) (sec : List String)
    (ml : Option (List Char)) (i : Nat) (line : List Char)
    (targetPath : List String) (tk : String)
    (htk : targetPath.getLast? = some tk) :
    ∃ st2 res, tomlProcessLine lines (sec, ml) i line targetPath = .ok (st2, res) := by
  rw [tomlProcessLine, htk]
  cases ml with
  | some delim =>
    dsimp only
    split_ifs <;> exact ⟨_, _, rfl⟩
  | none =>
    dsimp only
    repeat' split
    all_goals exact ⟨_, _, rfl⟩

theorem iniFindAux_ok (lines : List (List Char)) (targetPath : List String)
    (hne : targetPath ≠ []) : ∀ (rest : List (List Char)) (i : Nat)
    (sec : List String), ∃ r, iniFindAux lines targetPath i rest sec = .ok r := by
  obtain ⟨tk, htk⟩ := getLast?_some_of_ne_nil hne
  intro rest
  induction rest with
  | nil => intro i sec; exact ⟨none, rfl⟩
  | cons line rest ih =>
    intro i sec
    obtain ⟨st2, res, hproc⟩ := iniProcessLine_ok lines sec i line targetPath tk htk
    cases res with
    | some r =>
      exact ⟨some r, by simp only [iniFindAux, hproc, Bind.bind, Except.bind]⟩
    | none =>
      obtain ⟨r, hr⟩ := ih (i + 1) st2
      exact ⟨r, by simp only [iniFindAux, hproc, Bind.bind, Except.bind]; exact hr⟩

theorem tomlFindAux_ok (lines : List (List Char)) (targetPath : List String)
    (hne : targetPath ≠ []) : ∀ (rest : List (List Char)) (i : Nat)
    (st : List String × Option (List Char)),
    ∃ r, tomlFindAux lines targetPath i rest st = .ok r := by
  obtain ⟨tk, htk⟩ := getLast?_some_of_ne_nil hne
  intro rest
  induction rest with
  | nil => intro i st; exact ⟨none, rfl⟩
  | cons line rest ih =>
    intro i st
    obtain ⟨sec, ml⟩ := st
    obtain ⟨st2, res, hproc⟩ := tomlProcessLine_ok lines sec ml i line targetPath tk htk
    cases res with
    | some r =>
      exact ⟨some r, by simp only [tomlFindAux, hproc, Bind.bind, Except.bind]⟩
    | none =>
      obtain ⟨r, hr⟩ := ih (i + 1) st2
      exact ⟨r, by simp only [tomlFindAux, hproc, Bind.bind, Except.bind]; exact hr⟩

/-- C7 counterexample: with an empty target path and at least one input
line, the TOML and INI line scanners evaluate `target_path[-1]` and raise
`IndexError` instead of returning None. -/
theorem C7_counterexample :
    iniFindLineRange [['k']] [] = .error "IndexError: list index out of range" ∧
    tomlFindLineRange [['k']] [] = .error "IndexError: list index out of range" := by
  constructor <;> rfl

/-- C7 (corrected): for a non-empty target path the TOML and INI scanners
never raise (they return `ok` of a result, None modelled as `ok none`);
the YAML, JSON and JSON5 scanners are total functions of their input; on
an empty target path with non-empty input TOML and INI raise `IndexError`
(see `C7_counterexample`). Reaching end of input without a match returns
None, and malformed input resolves to None rather than an error. -/
theorem C7_find_line_range :
    (∀ (lines : List (List Char)) (targetPath : List String), targetPath ≠ [] →
      ∃ r, iniFindLineRange lines targetPath = .ok r) ∧
    (∀ (lines : List (List Char)) (targetPath : List String), targetPath ≠ [] →
      ∃ r, tomlFindLineRange lines targetPath = .ok r) ∧
    (∀ targetPath, iniFindLineRange [] targetPath = .ok none) ∧
    (∀ targetPath, tomlFindLineRange [] targetPath = .ok none) ∧
    (∀ targetPath, yamlFindLineRange [] targetPath = none) ∧
    (∀ targetPath, jsonFindLineRange [] targetPath = none) ∧
    (∀ targetPath, json5FindLineRange [] targetPath = none) ∧
    iniFindLineRange [['g', 'a', 'r']] ["a"] = .ok none ∧
    tomlFindLineRange [['g', 'a', 'r']] ["a"] = .ok none ∧
    yamlFindLineRange [['g', 'a', 'r']] ["a"] = none ∧
    jsonFindLineRange ['}'] ["a"] = none ∧
    json5FindLineRange ['}'] ["a"] = none := by
  refine ⟨?_, ?_, ?_, ?_, ?_, ?_, ?_, ?_, ?_, ?_, ?_, ?_⟩
  · intro lines targetPath hne
    exact iniFindAux_ok lines targetPath hne lines 1 []
  · intro lines targetPath hne
    exact tomlFindAux_ok lines targetPath hne lines 1 ([], none)
  · intro targetPath; rfl
  · intro targetPath; rfl
  · intro targetPath; rfl
  · intro targetPath
    simp only [jsonFindLineRange, jsonFindAux]
  · intro targetPath
    simp only [json5FindLineRange, json5FindAux]
  · rfl
  · rfl
  · rfl
  · simp [jsonFindLineRange, jsonFindAux]
  · simp [json5FindLineRange, json5FindAux]

/-- C7 witness: the no-exception theorem applied to the concrete line
`k=1` with target path `["k"]` for both fallible scanners. -/
theorem C7_witness :
    (∃ r, iniFindLineRange [['k', '=', '1']] ["k"] = .ok r) ∧
    (∃ r, tomlFindLineRange [['k', '=', '1']] ["k"] = .ok r) := by
  constructor
  · exact C7_find_line_range.1 [['k', '=', '1']] ["k"] (by simp)
  · exact C7_find_line_range.2.1 [['k', '=', '1']] ["k"] (by simp)

theorem iniScanContinuation_ge (lines : List (List Char)) :
    ∀ (n j e : Nat), lines.length - j ≤ n → e ≤ j →
    e ≤ iniScanContinuation lines j e := by
  intro n
  induction n with
  | zero =>
    intro j e hn he
    rw [iniScanContinuation, dif_neg (by omega : ¬ j < lines.length)]
  | succ n ih =>
    intro j e hn he
    rw [iniScanContinuation]
    by_cases hj : j < lines.length
    · rw [dif_pos hj]
      dsimp only
      split_ifs with hcond
      · exact le_rfl
      · exact le_trans (by omega) (ih (j + 1) (j + 1) (by omega) le_rfl)
    · rw [dif_neg hj]

theorem findMultilineStringEndGo_ge (lines : List (List Char)) (s : Nat)
    (delim : List Char) : ∀ (n j : Nat), lines.length - j ≤ n → s ≤ j + 1 →
    s ≤ findMultilineStringEndGo lines s delim j := by
  intro n
  induction n with
  | zero =>
    intro j hn hs
    rw [findMultilineStringEndGo, dif_neg (by omega : ¬ j < lines.length)]
  | succ n ih =>
    intro j hn hs
    rw [findMultilineStringEndGo]
    by_cases hj : j < lines.length
    · rw [dif_pos hj]
      split_ifs with hcond
      · omega
      · exact ih (j + 1) (by omega) (by omega)
    · rw [dif_neg hj]

theorem findMultilineStringEnd_ge (lines : List (List Char)) (s : Nat)
    (delim : List Char) : s ≤ findMultilineStringEnd lines s delim := by
  rw [findMultilineStringEnd]
  exact findMultilineStringEndGo_ge lines s delim (lines.length - s) s le_rfl (by omega)

theorem findInlineContainerEndGo_ge (lines : List (List Char)) :
    ∀ (n j : Nat) (st : Int × Option Char), lines.length - j ≤ n →
    j ≤ lines.length → j ≤ findInlineContainerEndGo lines j st := by
  intro n
  induction n with
  | zero =>
    intro j st hn hj
    rw [findInlineContainerEndGo]
    by_cases h : j < lines.length
    · omega
    · rw [dif_neg h]
      omega
  | succ n ih =>
    intro j st hn hj
    rw [findInlineContainerEndGo]
    by_cases h : j < lines.length
    · rw [dif_pos h]
      show j ≤ if ((lines.getD j []).foldl (fun st ch => processContainerChar ch st) st).1 = 0
          then j + 1
          else findInlineContainerEndGo lines (j + 1)
            ((lines.getD j []).foldl (fun st ch => processContainerChar ch st) st)
      split_ifs with hcond
      · omega
      · exact le_trans (by omega) (ih (j + 1) _ (by omega) (by omega))
    · rw [dif_neg h]
      omega

theorem findInlineContainerEnd_ge (lines : List (List Char)) (lineNum : Nat)
    (value : List Char) (h1 : 1 ≤ lineNum) (h2 : lineNum ≤ lines.length) :
    lineNum ≤ findInlineContainerEnd lines (lineNum - 1) value := by
  rw [findInlineContainerEnd]
  split_ifs with hst
  · omega
  · have hgo := findInlineContainerEndGo_ge lines (lines.length - (lineNum - 1 + 1))
      (lineNum - 1 + 1)
      (value.foldl (fun st ch => processContainerChar ch st) ((0 : Int), none))
      le_rfl (by omega)
    omega

theorem yamlScanBlock_ge (lines : List (List Char)) (indent : Nat) :
    ∀ (n j e : Nat), lines.length - j ≤ n → e ≤ j →
    e ≤ yamlScanBlock lines indent j e := by
  intro n
  induction n with
  | zero =>
    intro j e hn he
    rw [yamlScanBlock, dif_neg (by omega : ¬ j < lines.length)]
  | succ n ih =>
    intro j e hn he
    rw [yamlScanBlock]
    by_cases hj : j < lines.length
    · rw [dif_pos hj]
      dsimp only
      split_ifs with hc1 hc2
      · exact ih (j + 1) e (by omega) (by omega)
      · exact le_rfl
      · exact le_trans (by omega) (ih (j + 1) (j + 1) (by omega) le_rfl)
    · rw [dif_neg hj]

theorem jsonWsLine_ge : ∀ (cs : List Char) (l : Nat), l ≤ jsonWsLine cs l := by
  intro cs
  induction cs with
  | nil => intro l; simp [jsonWsLine]
  | cons c rest ih =>
    intro l
    rw [jsonWsLine]
    split_ifs with h1 h2
    · exact le_trans (by omega) (ih (l + 1))
    · exact ih l
    · exact le_rfl

theorem jsonSkipToValueStartLine_ge : ∀ (cs : List Char) (l : Nat),
    l ≤ jsonSkipToValueStartLine cs l := by
  intro cs
  induction cs with
  | nil => intro l; simp [jsonSkipToValueStartLine]
  | cons c rest ih =>
    intro l
    rw [jsonSkipToValueStartLine]
    split_ifs with h1 h2
    · exact jsonWsLine_ge rest l
    · exact le_trans (by omega) (ih (l + 1))
    · exact ih l

theorem jsonScanContainerEnd_ge : ∀ (n : Nat) (cs : List Char), cs.length ≤ n →
    ∀ (d : Int) (l : Nat), l ≤ jsonScanContainerEnd cs d l := by
  intro n
  induction n with
  | zero =>
    intro cs hn d l
    have hcs : cs = [] := List.length_eq_zero.mp (by omega)
    subst hcs
    rw [jsonScanContainerEnd.eq_1]
    split_ifs <;> exact le_rfl
  | succ n ih =>
    intro cs hn d l
    cases cs with
    | nil =>
      rw [jsonScanContainerEnd.eq_1]
      split_ifs <;> exact le_rfl
    | cons c tl =>
      simp only [List.length_cons] at hn
      by_cases h1 : c = '\n'
      · subst h1
        rw [jsonScanContainerEnd.eq_2]
        split_ifs with hd
        · exact le_rfl
        · exact le_trans (by omega) (ih tl (by omega) d (l + 1))
      by_cases h2 : c = '"'
      · subst h2
        rw [jsonScanContainerEnd.eq_3]
        split_ifs with hd
        · exact le_rfl
        · refine ih _ ?_ d l
          simp only [List.length_drop]
          omega
      by_cases h3 : c = '{'
      · subst h3
        rw [jsonScanContainerEnd.eq_4]
        split_ifs with hd
        · exact le_rfl
        · exact ih tl (by omega) _ l
      by_cases h4 : c = '['
      · subst h4
        rw [jsonScanContainerEnd.eq_5]
        split_ifs with hd
        · exact le_rfl
        · exact ih tl (by omega) _ l
      by_cases h5 : c = '}'
      · subst h5
        rw [jsonScanContainerEnd.eq_6]
        split_ifs with hd
        · exact le_rfl
        · exact ih tl (by omega) _ l
      by_cases h6 : c = ']'
      · subst h6
        rw [jsonScanContainerEnd.eq_7]
        split_ifs with hd
        · exact le_rfl
        · exact ih tl (by omega) _ l
      rw [jsonScanContainerEnd.eq_8 d l c tl h1 h2 h3 h4 h5 h6]
      split_ifs with hd
      · exact le_rfl
      · exact ih tl (by omega) d l

theorem jsonFindValueEndLine_ge (rest : List Char) (startLine : Nat) :
    startLine ≤ jsonFindValueEndLine rest startLine := by
  rw [jsonFindValueEndLine]
  split
  · exact jsonSkipToValueStartLine_ge rest startLine
  · split_ifs
    · exact jsonSkipToValueStartLine_ge rest startLine
    · exact le_trans (jsonSkipToValueStartLine_ge rest startLine)
        (jsonScanContainerEnd_ge _ _ le_rfl 1 _)
    · exact jsonSkipToValueStartLine_ge rest startLine

theorem length_dropWhile_le' {α : Type} (p : α → Bool) :
    ∀ (l : List α), (l.dropWhile p).length ≤ l.length := by
  intro l
  induction l with
  | nil => simp
  | cons a t ih =>
    by_cases h : p a <;> simp [List.dropWhile_cons, h] <;> omega

theorem json5SkipQuotedLine_ge : ∀ (n : Nat) (cs : List Char), cs.length ≤ n →
    ∀ (q : Char) (l : Nat), l ≤ json5SkipQuotedLine q cs l := by
  intro n
  induction n with
  | zero =>
    intro cs hn q l
    have hcs : cs = [] := List.length_eq_zero.mp (by omega)
    subst hcs
    rw [json5SkipQuotedLine.eq_1]
  | succ n ih =>
    intro cs hn q l
    cases cs with
    | nil => rw [json5SkipQuotedLine.eq_1]
    | cons c rest =>
      simp only [List.length_cons] at hn
      by_cases hb : c = '\\'
      · subst hb
        cases rest with
        | nil => rw [json5SkipQuotedLine.eq_3]
        | cons c2 rest2 =>
          rw [json5SkipQuotedLine.eq_2]
          refine le_trans (by split_ifs <;> omega) (ih rest2 ?_ q _)
          simp only [List.length_cons] at hn
          omega
      · rw [json5SkipQuotedLine.eq_4 q l c rest
          (fun c2 r2 hc _ => hb hc) (fun hc _ => hb hc)]
        split_ifs with h1 h2
        · exact le_trans (by omega) (ih rest (by omega) q (l + 1))
        · exact le_rfl
        · exact ih rest (by omega) q l

theorem json5SkipBlockCommentLine_ge : ∀ (n : Nat) (cs : List Char),
    cs.length ≤ n → ∀ (l : Nat), l ≤ json5SkipBlockCommentLine cs l := by
  intro n
  induction n with
  | zero =>
    intro cs hn l
    have hcs : cs = [] := List.length_eq_zero.mp (by omega)
    subst hcs
    rw [json5SkipBlockCommentLine.eq_1]
  | succ n ih =>
    intro cs hn l
    cases cs with
    | nil => rw [json5SkipBlockCommentLine.eq_1]
    | cons c rest =>
      simp only [List.length_cons] at hn
      cases rest with
      | nil =>
        rw [json5SkipBlockCommentLine.eq_3 l c [] (fun tail _ h => List.noConfusion h)]
        exact le_trans (by split_ifs <;> omega) (ih [] (by simp) _)
      | cons c2 rest2 =>
        by_cases hsc : c = '*' ∧ c2 = '/'
        · obtain ⟨hc, hc2⟩ := hsc
          subst hc
          subst hc2
          rw [json5SkipBlockCommentLine.eq_2]
        · have hside : ∀ (tail : List Char), c = '*' → c2 :: rest2 = '/' :: tail → False := by
            intro tail hc heq
            exact hsc ⟨hc, (List.cons.inj heq).1⟩
          rw [json5SkipBlockCommentLine.eq_3 l c (c2 :: rest2) hside]
          refine le_trans (by split_ifs <;> omega) (ih (c2 :: rest2) ?_ _)
          simp only [List.length_cons] at hn ⊢
          omega

theorem json5SkipWsCommentsLine_ge : ∀ (n : Nat) (cs : List Char),
    cs.length ≤ n → ∀ (l : Nat), l ≤ json5SkipWsCommentsLine cs l := by
  intro n
  induction n with
  | zero =>
    intro cs hn l
    have hcs : cs = [] := List.length_eq_zero.mp (by omega)
    subst hcs
    rw [json5SkipWsCommentsLine.eq_1]
  | succ n ih =>
    intro cs hn l
    cases cs with
    | nil => rw [json5SkipWsCommentsLine.eq_1]
    | cons c rest =>
      simp only [List.length_cons] at hn
      by_cases h1 : c = ' '
      · subst h1
        rw [json5SkipWsCommentsLine.eq_2]
        exact ih rest (by omega) l
      by_cases h2 : c = '\t'
      · subst h2
        rw [json5SkipWsCommentsLine.eq_3]
        exact ih rest (by omega) l
      by_cases h3 : c = '\r'
      · subst h3
        rw [json5SkipWsCommentsLine.eq_4]
        exact ih rest (by omega) l
      by_cases h4 : c = '\n'
      · subst h4
        rw [json5SkipWsCommentsLine.eq_5]
        exact le_trans (by omega) (ih rest (by omega) (l + 1))
      by_cases h5 : c = '/'
      · subst h5
        cases rest with
        | nil =>
          rw [json5SkipWsCommentsLine.eq_8 l '/' [] h1 h2 h3 h4
            (fun r2 _ h => List.noConfusion h) (fun r2 _ h => List.noConfusion h)]
        | cons c2 rest2 =>
          by_cases h6 : c2 = '/'
          · subst h6
            rw [json5SkipWsCommentsLine.eq_6]
            refine ih _ ?_ l
            simp only [List.length_drop, List.length_cons] at hn ⊢
            omega
          by_cases h7 : c2 = '*'
          · subst h7
            rw [json5SkipWsCommentsLine.eq_7]
            refine le_trans
              (json5SkipBlockCommentLine_ge rest2.length rest2 le_rfl l) (ih _ ?_ _)
            simp only [List.length_drop, List.length_cons] at hn ⊢
            omega
          rw [json5SkipWsCommentsLine.eq_8 l '/' (c2 :: rest2) h1 h2 h3 h4
            (fun r2 _ heq => h6 (List.cons.inj heq).1)
            (fun r2 _ heq => h7 (List.cons.inj heq).1)]
      rw [json5SkipWsCommentsLine.eq_8 l c rest h1 h2 h3 h4
        (fun r2 hc _ => h5 hc) (fun r2 hc _ => h5 hc)]

theorem json5ScanContainerEnd_ge : ∀ (n : Nat) (cs : List Char), cs.length ≤ n →
    ∀ (d : Int) (l : Nat), l ≤ json5ScanContainerEnd cs d l := by
  intro n
  induction n with
  | zero =>
    intro cs hn d l
    have hcs : cs = [] := List.length_eq_zero.mp (by omega)
    subst hcs
    rw [json5ScanContainerEnd.eq_1]
    split_ifs <;> exact le_rfl
  | succ n ih =>
    intro cs hn d l
    cases cs with
    | nil =>
      rw [json5ScanContainerEnd.eq_1]
      split_ifs <;> exact le_rfl
    | cons c tl =>
      simp only [List.length_cons] at hn
      by_cases h1 : c = '\n'
      · subst h1
        rw [json5ScanContainerEnd.eq_2]
        split_ifs with hd
        · exact le_rfl
        · exact le_trans (by omega) (ih tl (by omega) d (l + 1))
      by_cases h2 : c = '{'
      · subst h2
        rw [json5ScanContainerEnd.eq_5]
        split_ifs with hd
        · exact le_rfl
        · exact ih tl (by omega) _ l
      by_cases h3 : c = '['
      · subst h3
        rw [json5ScanContainerEnd.eq_6]
        split_ifs with hd
        · exact le_rfl
        · exact ih tl (by omega) _ l
      by_cases h4 : c = '}'
      · subst h4
        rw [json5ScanContainerEnd.eq_7]
        split_ifs with hd
        · exact le_rfl
        · exact ih tl (by omega) _ l
      by_cases h5 : c = ']'
      · subst h5
        rw [json5ScanContainerEnd.eq_8]
        split_ifs with hd
        · exact le_rfl
        · exact ih tl (by omega) _ l
      by_cases h6 : c = '/'
      · subst h6
        cases tl with
        | nil =>
          rw [json5ScanContainerEnd.eq_9 d l '/' [] h1
            (fun tl2 _ h => List.noConfusion h) (fun tl2 _ h => List.noConfusion h)
            h2 h3 h4 h5]
          split_ifs with hd hq
          · exact le_rfl
          · exact le_trans (json5SkipQuotedLine_ge 0 [] le_rfl _ l)
              (ih _ (by simp) d _)
          · exact ih [] (by simp) d l
        | cons c2 rest2 =>
          simp only [List.length_cons] at hn
          by_cases h7 : c2 = '/'
          · subst h7
            rw [json5ScanContainerEnd.eq_3]
            split_ifs with hd
            · exact le_rfl
            · refine ih _ ?_ d l
              have := length_dropWhile_le' (fun c => !(c = '\n')) rest2
              simp only [json5SkipLineComment] at *
              omega
          by_cases h8 : c2 = '*'
          · subst h8
            rw [json5ScanContainerEnd.eq_4]
            split_ifs with hd
            · exact le_rfl
            · refine le_trans
                (json5SkipBlockCommentLine_ge rest2.length rest2 le_rfl l) (ih _ ?_ d _)
              simp only [List.length_drop]
              omega
          rw [json5ScanContainerEnd.eq_9 d l '/' (c2 :: rest2) h1
            (fun tl2 _ heq => h7 (List.cons.inj heq).1)
            (fun tl2 _ heq => h8 (List.cons.inj heq).1)
            h2 h3 h4 h5]
          split_ifs with hd hq
          · exact le_rfl
          · refine le_trans
              (json5SkipQuotedLine_ge (c2 :: rest2).length (c2 :: rest2) le_rfl _ l)
              (ih _ ?_ d _)
            simp only [List.length_drop, List.length_cons] at *
            omega
          · exact ih (c2 :: rest2) (by simp only [List.length_cons]; omega) d l
      rw [json5ScanContainerEnd.eq_9 d l c tl h1
        (fun tl2 hc _ => h6 hc) (fun tl2 hc _ => h6 hc) h2 h3 h4 h5]
      split_ifs with hd hq
      · exact le_rfl
      · refine le_trans (json5SkipQuotedLine_ge tl.length tl le_rfl _ l) (ih _ ?_ d _)
        simp only [List.length_drop]
        omega
      · exact ih tl (by omega) d l

theorem json5FindValueEndLine_ge (rest : List Char) (startLine : Nat) :
    startLine ≤ json5FindValueEndLine rest startLine := by
  rw [json5FindValueEndLine]
  split
  · rename_i after heq
    cases hr2 : json5SkipWsCommentsRest after with
    | nil =>
      simp only [hr2]
      exact le_trans (json5SkipWsCommentsLine_ge rest.length rest le_rfl startLine)
        (json5SkipWsCommentsLine_ge _ _ le_rfl _)
    | cons c tl =>
      simp only [hr2]
      split_ifs with hq hc
      · exact le_trans
          (le_trans (json5SkipWsCommentsLine_ge rest.length rest le_rfl startLine)
            (json5SkipWsCommentsLine_ge _ _ le_rfl _))
          (json5SkipQuotedLine_ge _ _ le_rfl _ _)
      · exact le_trans
          (le_trans (json5SkipWsCommentsLine_ge rest.length rest le_rfl startLine)
            (json5SkipWsCommentsLine_ge _ _ le_rfl _))
          (json5ScanContainerEnd_ge _ _ le_rfl 1 _)
      · exact le_trans (json5SkipWsCommentsLine_ge rest.length rest le_rfl startLine)
          (json5SkipWsCommentsLine_ge _ _ le_rfl _)
  · exact le_rfl

theorem iniProcessLine_range (lines : List (List Char)) (sec : List String) (i : Nat)
    (line : List Char) (targetPath : List String) (st2 : List String) (r : LineRange)
    (h : iniProcessLine lines sec i line targetPath = .ok (st2, some r)) :
    r = ⟨i, iniScanContinuation lines i i⟩ := by
  rw [iniProcessLine] at h
  cases htk : targetPath.getLast? with
  | none => simp [htk] at h
  | some tk =>
    rw [htk] at h
    dsimp only at h
    split_ifs at h <;> simp_all

theorem iniFindAux_range (lines : List (List Char)) (targetPath : List String) :
    ∀ (rest : List (List Char)) (i : Nat) (sec : List String) (r : LineRange),
    1 ≤ i → iniFindAux lines targetPath i rest sec = .ok (some r) →
    1 ≤ r.start ∧ r.start ≤ r.stop := by
  intro rest
  induction rest with
  | nil =>
    intro i sec r hi hfind
    simp [iniFindAux] at hfind
  | cons line rest ih =>
    intro i sec r hi hfind
    cases hp : iniProcessLine lines sec i line targetPath with
    | error e =>
      simp [iniFindAux, hp, Bind.bind, Except.bind] at hfind
    | ok p =>
      obtain ⟨st2, res⟩ := p
      cases res with
      | none =>
        simp only [iniFindAux, hp, Bind.bind, Except.bind] at hfind
        exact ih (i + 1) st2 r (by omega) hfind
      | some r2 =>
        have hr2 : r2 = ⟨i, iniScanContinuation lines i i⟩ :=
          iniProcessLine_range lines sec i line targetPath st2 r2 hp
        simp only [iniFindAux, hp, Bind.bind, Except.bind, Except.ok.injEq,
          Option.some.injEq] at hfind
        subst hfind
        rw [hr2]
        exact ⟨hi, iniScanContinuation_ge lines (lines.length - i) i i le_rfl le_rfl⟩

theorem tomlProcessLine_range (lines : List (List Char)) (sec : List String)
    (ml : Option (List Char)) (i : Nat) (line : List Char) (targetPath : List String)
    (st2 : List String × Option (List Char)) (r : LineRange) (hi : 1 ≤ i)
    (hlen : i ≤ lines.length)
    (h : tomlProcessLine lines (sec, ml) i line targetPath = .ok (st2, some r)) :
    1 ≤ r.start ∧ r.start ≤ r.stop := by
  rw [tomlProcessLine] at h
  cases htk : targetPath.getLast? with
  | none => simp [htk] at h
  | some tk =>
    rw [htk] at h
    dsimp only at h
    cases ml with
    | some delim =>
      dsimp only at h
      split_ifs at h <;> simp_all
    | none =>
      dsimp only at h
      repeat' split at h
      all_goals simp only [Except.ok.injEq, Prod.mk.injEq] at h
      all_goals try exact absurd h.2 (fun hx => Option.noConfusion hx)
      · obtain ⟨h1, h2⟩ := h
        have hr := (Option.some.inj h2).symm
        rw [hr]
        exact ⟨hi, findMultilineStringEnd_ge lines i _⟩
      · obtain ⟨h1, h2⟩ := h
        have hr := (Option.some.inj h2).symm
        rw [hr]
        exact ⟨hi, findInlineContainerEnd_ge lines i _ hi hlen⟩

theorem tomlFindAux_range (lines : List (List Char)) (targetPath : List String) :
    ∀ (rest : List (List Char)) (i : Nat) (st : List String × Option (List Char))
    (r : LineRange), 1 ≤ i → i + rest.length = lines.length + 1 →
    tomlFindAux lines targetPath i rest st = .ok (some r) →
    1 ≤ r.start ∧ r.start ≤ r.stop := by
  intro rest
  induction rest with
  | nil =>
    intro i st r hi hinv hfind
    simp [tomlFindAux] at hfind
  | cons line rest ih =>
    intro i st r hi hinv hfind
    obtain ⟨sec, ml⟩ := st
    cases hp : tomlProcessLine lines (sec, ml) i line targetPath with
    | error e =>
      simp [tomlFindAux, hp, Bind.bind, Except.bind] at hfind
    | ok p =>
      obtain ⟨st2, res⟩ := p
      cases res with
      | none =>
        simp only [tomlFindAux, hp, Bind.bind, Except.bind] at hfind
        refine ih (i + 1) st2 r (by omega) ?_ hfind
        simp only [List.length_cons] at hinv
        omega
      | some r2 =>
        have hr2 := tomlProcessLine_range lines sec ml i line targetPath st2 r2 hi
          (by simp only [List.length_cons] at hinv; omega) hp
        simp only [tomlFindAux, hp, Bind.bind, Except.bind, Except.ok.injEq,
          Option.some.injEq] at hfind
        subst hfind
        exact hr2

theorem yamlProcessLine_range (lines : List (List Char)) (stack : List (List Char × Nat))
    (i : Nat) (line : List Char) (targetPath : List String)
    (st2 : List (List Char × Nat)) (r : LineRange) (hi : 1 ≤ i)
    (h : yamlProcessLine lines stack i line targetPath = (st2, some r)) :
    1 ≤ r.start ∧ r.start ≤ r.stop := by
  rw [yamlProcessLine] at h
  split_ifs at h with hc1
  · exact absurd (Prod.mk.inj h).2 (fun hx => Option.noConfusion hx)
  · cases hpart : partitionChar ':' (lstripChars line) with
    | none =>
      rw [hpart] at h
      dsimp only at h
      exact absurd (Prod.mk.inj h).2 (fun hx => Option.noConfusion hx)
    | some kv =>
      obtain ⟨keyPart, valuePart⟩ := kv
      rw [hpart] at h
      dsimp only at h
      split_ifs at h with hmap hval
      · exact absurd (Prod.mk.inj h).2 (fun hx => Option.noConfusion hx)
      · have hr := (Option.some.inj (Prod.mk.inj h).2).symm
        rw [hr]
        exact ⟨hi, le_rfl⟩
      · have hr := (Option.some.inj (Prod.mk.inj h).2).symm
        rw [hr]
        exact ⟨hi, yamlScanBlock_ge lines _ (lines.length - i) i i le_rfl le_rfl⟩

theorem yamlFindAux_range (lines : List (List Char)) (targetPath : List String) :
    ∀ (rest : List (List Char)) (i : Nat) (stack : List (List Char × Nat))
    (r : LineRange), 1 ≤ i → yamlFindAux lines targetPath i rest stack = some r →
    1 ≤ r.start ∧ r.start ≤ r.stop := by
  intro rest
  induction rest with
  | nil =>
    intro i stack r hi hfind
    simp [yamlFindAux] at hfind
  | cons line rest ih =>
    intro i stack r hi hfind
    cases hp : yamlProcessLine lines stack i line targetPath with
    | mk st2 res =>
      cases res with
      | none =>
        simp only [yamlFindAux, hp] at hfind
        exact ih (i + 1) st2 r (by omega) hfind
      | some r2 =>
        simp only [yamlFindAux, hp, Option.some.injEq] at hfind
        subst hfind
        exact yamlProcessLine_range lines stack i line targetPath st2 r2 hi hp

theorem jsonFindAux_range (targetPath : List String) : ∀ (n : Nat) (cs : List Char),
    cs.length ≤ n → ∀ (line : Nat) (stack : List StackEntry) (lastKey : Option String)
    (r : LineRange), 1 ≤ line → jsonFindAux targetPath cs line stack lastKey = some r →
    1 ≤ r.start ∧ r.start ≤ r.stop := by
  intro n
  induction n with
  | zero =>
    intro cs hn line stack lastKey r hline hfind
    have hcs : cs = [] := List.length_eq_zero.mp (by omega)
    subst hcs
    rw [jsonFindAux.eq_1] at hfind
    exact Option.noConfusion hfind
  | succ n ih =>
    intro cs hn line stack lastKey r hline hfind
    cases cs with
    | nil =>
      rw [jsonFindAux.eq_1] at hfind
      exact Option.noConfusion hfind
    | cons c tl =>
      simp only [List.length_cons] at hn
      rw [jsonFindAux.eq_2] at hfind
      split_ifs at hfind with h1 h2 h3 h4 h5 h6
      · exact ih tl (by omega) (line + 1) _ _ r (by omega) hfind
      · exact ih tl (by omega) line _ _ r hline hfind
      · exact ih tl (by omega) line _ _ r hline hfind
      · exact ih tl (by omega) line _ _ r hline hfind
      · exact ih tl (by omega) line _ _ r hline hfind
      · dsimp only at hfind
        split at hfind
        · rename_i afterColon heq
          split_ifs at hfind with hpath
          · have hr := (Option.some.inj hfind).symm
            rw [hr]
            exact ⟨hline, jsonFindValueEndLine_ge _ line⟩
          · refine ih afterColon ?_ line _ _ r hline hfind
            have h2l := congrArg List.length heq
            have hdw := length_dropWhile_le' isJsonWs (List.drop (jsonSkipStringCount tl) tl)
            rw [show skipWsChars (List.drop (jsonSkipStringCount tl) tl)
                = (List.drop (jsonSkipStringCount tl) tl).dropWhile isJsonWs from rfl] at h2l
            simp only [List.length_cons, List.length_drop] at h2l hdw
            omega
        · refine ih (List.drop (jsonSkipStringCount tl) tl) ?_ line _ _ r hline hfind
          simp only [List.length_drop]
          omega
      · have hstop : skipScalarStop c = false := by
          simp only [Bool.or_eq_true, not_or, decide_eq_true_eq] at h2 h5
          simp only [skipScalarStop]
          simp [h1, h2.1.1, h2.1.2, h2.2, h3, h5.1, h5.2]
        have hlen2 : (skipScalar (c :: tl)).length ≤ tl.length := by
          rw [skipScalar, List.dropWhile_cons, hstop]
          simp only [Bool.not_false, if_pos]
          exact length_dropWhile_le' _ tl
        exact ih (skipScalar (c :: tl)) (by omega) line _ _ r hline hfind

theorem json5FindAux_range (targetPath : List String) : ∀ (n : Nat) (cs : List Char),
    cs.length ≤ n → ∀ (line : Nat) (stack : List StackEntry) (lastKey : Option String)
    (r : LineRange), 1 ≤ line → json5FindAux targetPath cs line stack lastKey = some r →
    1 ≤ r.start ∧ r.start ≤ r.stop := by
  intro n
  induction n with
  | zero =>
    intro cs hn line stack lastKey r hline hfind
    have hcs : cs = [] := List.length_eq_zero.mp (by omega)
    subst hcs
    rw [json5FindAux.eq_1] at hfind
    exact Option.noConfusion hfind
  | succ n ih =>
    intro cs hn line stack lastKey r hline hfind
    cases cs with
    | nil =>
      rw [json5FindAux.eq_1] at hfind
      exact Option.noConfusion hfind
    | cons c tl =>
      simp only [List.length_cons] at hn
      rw [json5FindAux.eq_2] at hfind
      by_cases h1 : c = '\n'
      · rw [if_pos h1] at hfind
        exact ih tl (by omega) (line + 1) _ _ r (by omega) hfind
      rw [if_neg h1] at hfind
      by_cases h2 : (decide (c = ' ') || decide (c = '\t') || decide (c = '\x0d')) = true
      · rw [if_pos h2] at hfind
        exact ih tl (by omega) line _ _ r hline hfind
      rw [if_neg h2] at hfind
      by_cases h3 : c = ','
      · rw [if_pos h3] at hfind
        exact ih tl (by omega) line _ _ r hline hfind
      rw [if_neg h3] at hfind
      by_cases h4 : (decide (c = '/') && decide (tl.head? = some '/')) = true
      · rw [if_pos h4] at hfind
        have hlc : (json5SkipLineComment (List.drop 1 tl)).length ≤ tl.length := by
          have hh := length_dropWhile_le' (fun c => !(c = '\n')) (List.drop 1 tl)
          rw [json5SkipLineComment]
          simp only [List.length_drop] at hh
          omega
        exact ih _ (by omega) line _ _ r hline hfind
      rw [if_neg h4] at hfind
      by_cases h5 : (decide (c = '/') && decide (tl.head? = some '*')) = true
      · rw [if_pos h5] at hfind
        refine ih _ ?_ _ _ _ r ?_ hfind
        · simp only [List.length_drop]
          omega
        · have := json5SkipBlockCommentLine_ge (List.drop 1 tl).length
            (List.drop 1 tl) le_rfl line
          omega
      rw [if_neg h5] at hfind
      by_cases h6 : (decide (c = '{') || decide (c = '[')) = true
      · rw [if_pos h6] at hfind
        exact ih tl (by omega) line _ _ r hline hfind
      rw [if_neg h6] at hfind
      by_cases h7 : (decide (c = '}') || decide (c = ']')) = true
      · rw [if_pos h7] at hfind
        exact ih tl (by omega) line _ _ r hline hfind
      rw [if_neg h7] at hfind
      by_cases h8 : (decide (c = '"') || decide (c = squote)) = true
      · rw [if_pos h8] at hfind
        dsimp only at hfind
        split at hfind
        · rename_i after heq
          split_ifs at hfind with hpath
          · have hr := (Option.some.inj hfind).symm
            rw [hr]
            exact ⟨hline, json5FindValueEndLine_ge _ line⟩
          · refine ih after ?_ _ _ _ r ?_ hfind
            · have h2l := congrArg List.length heq
              simp only [json5SkipWsCommentsRest, List.length_drop,
                List.length_cons] at h2l
              omega
            · have ha := json5SkipQuotedLine_ge tl.length tl le_rfl c line
              have hb := json5SkipWsCommentsLine_ge
                (List.drop (json5SkipQuotedCount c tl) tl).length
                (List.drop (json5SkipQuotedCount c tl) tl) le_rfl
                (json5SkipQuotedLine c tl line)
              omega
        · refine ih _ ?_ _ _ _ r ?_ hfind
          · simp only [List.length_drop]
            omega
          · have := json5SkipQuotedLine_ge tl.length tl le_rfl c line
            omega
      rw [if_neg h8] at hfind
      by_cases hident : isIdentStart c = true
      · rw [dif_pos hident] at hfind
        have hic : isIdentChar c = true := by
          simp only [isIdentChar]
          simp only [isIdentStart] at hident
          rcases Bool.or_eq_true_iff.mp hident with h | h
          · rcases Bool.or_eq_true_iff.mp h with hh | hh
            · simp [Char.isAlphanum, hh]
            · simp [hh]
          · simp [h]
        have hlid : ((c :: tl).dropWhile isIdentChar).length ≤ tl.length := by
          rw [List.dropWhile_cons, hic]
          simp only [if_pos]
          exact length_dropWhile_le' _ tl
        dsimp only at hfind
        split at hfind
        · rename_i after heq
          split_ifs at hfind with hpath
          · have hr := (Option.some.inj hfind).symm
            rw [hr]
            exact ⟨hline, json5FindValueEndLine_ge _ line⟩
          · refine ih after ?_ _ _ _ r ?_ hfind
            · have h2l := congrArg List.length heq
              simp only [json5SkipWsCommentsRest, List.length_drop,
                List.length_cons] at h2l
              omega
            · have hb := json5SkipWsCommentsLine_ge
                ((c :: tl).dropWhile isIdentChar).length
                ((c :: tl).dropWhile isIdentChar) le_rfl line
              omega
        · refine ih _ ?_ _ _ _ r hline hfind
          omega
      rw [dif_neg hident] at hfind
      have hstop : skipScalarStop c = false := by
        simp only [Bool.or_eq_true, not_or, decide_eq_true_eq] at h2 h7
        simp only [skipScalarStop]
        simp [h1, h2.1.1, h2.1.2, h2.2, h3, h7.1, h7.2]
      have hlen2 : (skipScalar (c :: tl)).length ≤ tl.length := by
        rw [skipScalar, List.dropWhile_cons, hstop]
        simp only [Bool.not_false, if_pos]
        exact length_dropWhile_le' _ tl
      exact ih (skipScalar (c :: tl)) (by omega) line _ _ r hline hfind

/-- C10: every `LineRange` returned by any of the five scanners'
`find_line_range` satisfies `1 ≤ start ≤ end`: the line counter starts at 1
and every end-of-range scan only moves forward from the starting line. -/
theorem C10_line_range_invariant :
    (∀ (lines : List (List Char)) (targetPath : List String) (r : LineRange),
      iniFindLineRange lines targetPath = .ok (some r) →
      1 ≤ r.start ∧ r.start ≤ r.stop) ∧
    (∀ (lines : List (List Char)) (targetPath : List String) (r : LineRange),
      tomlFindLineRange lines targetPath = .ok (some r) →
      1 ≤ r.start ∧ r.start ≤ r.stop) ∧
    (∀ (lines : List (List Char)) (targetPath : List String) (r : LineRange),
      yamlFindLineRange lines targetPath = some r →
      1 ≤ r.start ∧ r.start ≤ r.stop) ∧
    (∀ (content : List Char) (targetPath : List String) (r : LineRange),
      jsonFindLineRange content targetPath = some r →
      1 ≤ r.start ∧ r.start ≤ r.stop) ∧
    (∀ (content : List Char) (targetPath : List String) (r : LineRange),
      json5FindLineRange content targetPath = some r →
      1 ≤ r.start ∧ r.start ≤ r.stop) := by
  refine ⟨?_, ?_, ?_, ?_, ?_⟩
  · intro lines targetPath r h
    exact iniFindAux_range lines targetPath lines 1 [] r (by omega) h
  · intro lines targetPath r h
    exact tomlFindAux_range lines targetPath lines 1 ([], none) r (by omega) (by omega) h
  · intro lines targetPath r h
    exact yamlFindAux_range lines targetPath lines 1 [] r (by omega) h
  · intro content targetPath r h
    exact jsonFindAux_range targetPath content.length content le_rfl 1 [] none r
      (by omega) h
  · intro content targetPath r h
    exact json5FindAux_range targetPath content.length content le_rfl 1 [] none r
      (by omega) h

/-- C10 witness: each scanner run on a one-line concrete input containing
its key returns the range `[1, 1]`, which the invariant accepts. -/
theorem C10_witness :
    iniFindLineRange [['k', '=', '1']] ["k"] = .ok (some ⟨1, 1⟩) ∧
    tomlFindLineRange [['k', '=', '1']] ["k"] = .ok (some ⟨1, 1⟩) ∧
    yamlFindLineRange [['k', ':', ' ', '1']] ["k"] = some ⟨1, 1⟩ ∧
    jsonFindLineRange ['"', 'k', '"', ':', '1'] ["k"] = some ⟨1, 1⟩ ∧
    json5FindLineRange ['k', ':', '1'] ["k"] = some ⟨1, 1⟩ ∧
    (1 ≤ (⟨1, 1⟩ : LineRange).start ∧ (⟨1, 1⟩ : LineRange).start ≤
      (⟨1, 1⟩ : LineRange).stop) := by
  have h1 : iniFindLineRange [['k', '=', '1']] ["k"] = .ok (some ⟨1, 1⟩) := by
    simp +decide [iniFindLineRange, iniFindAux, iniProcessLine, stripChars,
      pyIsSpace, partitionChar, stripSet, quoteChars, squote, splitOnChar,
      iniScanContinuation, Bind.bind, Except.bind, pure, Except.pure]
  have h2 : tomlFindLineRange [['k', '=', '1']] ["k"] = .ok (some ⟨1, 1⟩) := by
    simp +decide [tomlFindLineRange, tomlFindAux, tomlProcessLine, stripChars,
      pyIsSpace, partitionChar, stripSet, quoteChars, squote, splitOnChar,
      detectUnclosedMultiline, isSubstring, List.isPrefixOf,
      findInlineContainerEnd, processContainerChar, Bind.bind, Except.bind,
      pure, Except.pure]
  have h3 : yamlFindLineRange [['k', ':', ' ', '1']] ["k"] = some ⟨1, 1⟩ := by
    simp +decide [yamlFindLineRange, yamlFindAux, yamlProcessLine, lstripChars,
      stripChars, pyIsSpace, partitionChar, stripSet, quoteChars, squote,
      popGE, yamlBlockIndicators]
  have h4 : jsonFindLineRange ['"', 'k', '"', ':', '1'] ["k"] = some ⟨1, 1⟩ := by
    simp +decide [jsonFindLineRange, jsonFindAux, jsonSkipStringCount,
      skipWsChars, isJsonWs, buildPath, jsonFindValueEndLine,
      jsonSkipToValueStartRest, jsonSkipToValueStartLine, jsonWsLine]
  have hai : List.dropWhile isIdentChar ['k', ':', '1'] = [':', '1'] := by
    simp +decide [List.dropWhile, isIdentChar]
  have hscrut : json5SkipWsCommentsRest (List.dropWhile isIdentChar ['k', ':', '1'])
      = ':' :: ['1'] := by
    rw [hai]
    simp +decide [json5SkipWsCommentsRest, json5SkipWsCommentsCount]
  have h5 : json5FindLineRange ['k', ':', '1'] ["k"] = some ⟨1, 1⟩ := by
    rw [json5FindLineRange, json5FindAux.eq_2]
    rw [if_neg (by decide), if_neg (by decide), if_neg (by decide),
      if_neg (by decide), if_neg (by decide), if_neg (by decide),
      if_neg (by decide), if_neg (by decide), dif_pos (by decide)]
    dsimp only
    split
    · rename_i after heq
      rw [hscrut] at heq
      injection heq with heq1 heq2
      subst heq2
      rw [if_pos (by decide)]
      rw [hai]
      simp +decide [json5FindValueEndLine, json5SkipWsCommentsRest,
        json5SkipWsCommentsCount, json5SkipWsCommentsLine]
    · exfalso
      simp_all
  exact ⟨h1, h2, h3, h4, h5, C10_line_range_invariant.1 _ _ _ h1⟩

theorem classifyGroup_mem (base source : JSON) (ctx : FieldGroupContext)
    (si : Nat) : ∀ (paths : List String) (p : String),
    (p ∈ (classifyGroup base source ctx si paths).changed ↔
      p ∈ paths ∧ leafChanged base source p = true) ∧
    (p ∈ (classifyGroup base source ctx si paths).unchanged ↔
      p ∈ paths ∧ leafChanged base source p = false) := by
  intro paths
  induction paths with
  | nil =>
    intro p
    constructor <;> simp [classifyGroup]
  | cons path rest ih =>
    intro p
    have ihc := (ih p).1
    have ihu := (ih p).2
    cases hsv : getNestedValue source path with
    | none =>
      have hlc : leafChanged base source path = false := by
        rw [leafChanged, hsv]
      simp only [classifyGroup, hsv, List.mem_cons]
      refine ⟨?_, ?_⟩
      · rw [ihc]
        constructor
        · rintro ⟨hm, hl⟩
          exact ⟨Or.inr hm, hl⟩
        · rintro ⟨rfl | hm, hl⟩
          · rw [hlc] at hl
            cases hl
          · exact ⟨hm, hl⟩
      · rw [ihu]
        constructor
        · rintro (rfl | ⟨hm, hl⟩)
          · exact ⟨Or.inl rfl, hlc⟩
          · exact ⟨Or.inr hm, hl⟩
        · rintro ⟨rfl | hm, hl⟩
          · exact Or.inl rfl
          · exact Or.inr ⟨hm, hl⟩
    | some sv =>
      cases hbv : getNestedValue base path with
      | none =>
        have hlct : leafChanged base source path = true := by
          rw [leafChanged, hsv, hbv]
        simp only [classifyGroup, hsv, hbv, Bool.false_eq_true, if_false,
          List.mem_cons]
        refine ⟨?_, ?_⟩
        · rw [ihc]
          constructor
          · rintro (rfl | ⟨hm, hl⟩)
            · exact ⟨Or.inl rfl, hlct⟩
            · exact ⟨Or.inr hm, hl⟩
          · rintro ⟨rfl | hm, hl⟩
            · exact Or.inl rfl
            · exact Or.inr ⟨hm, hl⟩
        · rw [ihu]
          constructor
          · rintro ⟨hm, hl⟩
            exact ⟨Or.inr hm, hl⟩
          · rintro ⟨rfl | hm, hl⟩
            · rw [hlct] at hl
              cases hl
            · exact ⟨hm, hl⟩
      | some bv =>
        cases hpe : pyEq sv bv with
        | true =>
          have hlc : leafChanged base source path = false := by
            simp [leafChanged, hsv, hbv, hpe]
          simp only [classifyGroup, hsv, hbv, hpe, eq_self_iff_true, if_true,
            List.mem_cons]
          refine ⟨?_, ?_⟩
          · rw [ihc]
            constructor
            · rintro ⟨hm, hl⟩
              exact ⟨Or.inr hm, hl⟩
            · rintro ⟨rfl | hm, hl⟩
              · rw [hlc] at hl
                cases hl
              · exact ⟨hm, hl⟩
          · rw [ihu]
            constructor
            · rintro (rfl | ⟨hm, hl⟩)
              · exact ⟨Or.inl rfl, hlc⟩
              · exact ⟨Or.inr hm, hl⟩
            · rintro ⟨rfl | hm, hl⟩
              · exact Or.inl rfl
              · exact Or.inr ⟨hm, hl⟩
        | false =>
          have hlct : leafChanged base source path = true := by
            simp [leafChanged, hsv, hbv, hpe]
          simp only [classifyGroup, hsv, hbv, hpe, Bool.false_eq_true, if_false,
            List.mem_cons]
          refine ⟨?_, ?_⟩
          · rw [ihc]
            constructor
            · rintro (rfl | ⟨hm, hl⟩)
              · exact ⟨Or.inl rfl, hlct⟩
              · exact ⟨Or.inr hm, hl⟩
            · rintro ⟨rfl | hm, hl⟩
              · exact Or.inl rfl
              · exact Or.inr ⟨hm, hl⟩
          · rw [ihu]
            constructor
            · rintro ⟨hm, hl⟩
              exact ⟨Or.inr hm, hl⟩
            · rintro ⟨rfl | hm, hl⟩
              · rw [hlct] at hl
                cases hl
              · exact ⟨hm, hl⟩

theorem classifyGroup_changed_nil (base source : JSON) (ctx : FieldGroupContext)
    (si : Nat) (g : List String) :
    (classifyGroup base source ctx si g).changed = [] ↔
      ∀ p ∈ g, leafChanged base source p = false := by
  rw [List.eq_nil_iff_forall_not_mem]
  constructor
  · intro h p hp
    have hnm := h p
    rw [(classifyGroup_mem base source ctx si g p).1] at hnm
    cases hlc : leafChanged base source p with
    | false => rfl
    | true => exact absurd ⟨hp, hlc⟩ hnm
  · intro h p
    rw [(classifyGroup_mem base source ctx si g p).1]
    rintro ⟨hp, hlc⟩
    rw [h p hp] at hlc
    cases hlc

theorem classifyGroup_unchanged_nil (base source : JSON) (ctx : FieldGroupContext)
    (si : Nat) (g : List String) :
    (classifyGroup base source ctx si g).unchanged = [] ↔
      ∀ p ∈ g, leafChanged base source p = true := by
  rw [List.eq_nil_iff_forall_not_mem]
  constructor
  · intro h p hp
    have hnm := h p
    rw [(classifyGroup_mem base source ctx si g p).2] at hnm
    cases hlc : leafChanged base source p with
    | true => rfl
    | false => exact absurd ⟨hp, hlc⟩ hnm
  · intro h p
    rw [(classifyGroup_mem base source ctx si g p).2]
    rintro ⟨hp, hlc⟩
    rw [h p hp] at hlc
    cases hlc

theorem violationsOf_eq_nil (base source : JSON) (si : Nat)
    (ctx : FieldGroupContext) : ∀ (groups : List (List String)),
    violationsOf base source groups si ctx = [] ↔
      ∀ g ∈ groups, (classifyGroup base source ctx si g).changed = [] ∨
        (classifyGroup base source ctx si g).unchanged = [] := by
  intro groups
  induction groups with
  | nil => simp [violationsOf]
  | cons g gs ih =>
    simp only [violationsOf]
    by_cases hc : (!(classifyGroup base source ctx si g).changed.isEmpty
        && !(classifyGroup base source ctx si g).unchanged.isEmpty) = true
    · rw [if_pos hc]
      simp only [Bool.and_eq_true, Bool.not_eq_true'] at hc
      constructor
      · intro h
        exact absurd h (List.cons_ne_nil _ _)
      · intro h
        exfalso
        rcases h g (List.mem_cons_self _ _) with h1 | h1
        · rw [h1] at hc
          simp at hc
        · rw [h1] at hc
          simp at hc
    · rw [if_neg hc]
      rw [ih]
      have hg : (classifyGroup base source ctx si g).changed = [] ∨
          (classifyGroup base source ctx si g).unchanged = [] := by
        by_contra hno
        rw [not_or] at hno
        apply hc
        simp only [Bool.and_eq_true, Bool.not_eq_true']
        cases h1 : (classifyGroup base source ctx si g).changed with
        | nil => exact absurd h1 hno.1
        | cons a l =>
          cases h2 : (classifyGroup base source ctx si g).unchanged with
          | nil => exact absurd h2 hno.2
          | cons b m => simp
      constructor
      · intro h g2 hg2
        rcases List.mem_cons.mp hg2 with heq | hm
        · rw [heq]
          exact hg
        · exact h g2 hm
      · intro h g2 hg2
        exact h g2 (List.mem_cons_of_mem _ hg2)

theorem fieldGroupSeqAux_append (groups : List (List String)) (reprs : List String)
    (name : String) : ∀ (s1 s2 : List JSON) (i : Nat) (merged : JSON)
    (origins : List (String × Nat)),
    fieldGroupSeqAux groups reprs name (s1 ++ s2) i merged origins
      = fieldGroupSeqAux groups reprs name s1 i merged origins
        ++ fieldGroupSeqAux groups reprs name s2 (i + s1.length)
            (fieldGroupFoldState groups s1 i (merged, origins)).1
            (fieldGroupFoldState groups s1 i (merged, origins)).2 := by
  intro s1
  induction s1 with
  | nil =>
    intro s2 i merged origins
    simp [fieldGroupSeqAux, fieldGroupFoldState]
  | cons src rest ih =>
    intro s2 i merged origins
    simp only [List.cons_append, fieldGroupSeqAux, fieldGroupFoldState,
      List.append_eq]
    rw [ih]
    simp only [List.append_assoc, List.length_cons]
    have hn : i + (rest.length + 1) = i + 1 + rest.length := by omega
    rw [hn]

theorem goLWWith_eq (fmap : Option FieldMergeMap) (path : String)
    (mrg : JSON → JSON → String → Except MergeError JSON) :
    ∀ (okvs result : List (String × JSON)),
      (∀ kv ∈ okvs, ∀ (b : JSON) (p : String),
        mrg b kv.2 p = deepMergeLastWins fmap b kv.2 p) →
      goLWWith mrg path result okvs = deepMergeLastWinsGo fmap path result okvs := by
  intro okvs
  induction okvs with
  | nil =>
    intro result h
    simp [goLWWith, deepMergeLastWinsGo, pure, Except.pure]
  | cons kv rest ih =>
    intro result h
    obtain ⟨key, value⟩ := kv
    simp only [goLWWith, deepMergeLastWinsGo]
    cases hl : lookupAssoc result key with
    | none =>
      exact ih _ (fun kv hm => h kv (List.mem_cons_of_mem _ hm))
    | some bv =>
      dsimp only
      rw [h (key, value) (List.mem_cons_self _ _) bv (childPath path key)]
      cases hm : deepMergeLastWins fmap bv value (childPath path key) with
      | error e => simp [hm, Bind.bind, Except.bind]
      | ok m =>
        simp only [hm, Bind.bind, Except.bind]
        exact ih _ (fun kv hmem => h kv (List.mem_cons_of_mem _ hmem))

theorem mergeLWFuel_spec :
    ∀ (n : Nat) (fmap : Option FieldMergeMap) (base override : JSON) (path : String),
      sizeOf override < n →
      mergeLWFuel n fmap base override path
        = deepMergeLastWins fmap base override path := by
  intro n
  induction n with
  | zero => exact fun _ _ o _ h => absurd h (Nat.not_lt_zero _)
  | succ n ih =>
    intro fmap base override path h
    cases hs : lookupStrategy fmap path with
    | some s =>
      cases base <;> cases override <;>
        simp [mergeLWFuel, mergeLWStep, deepMergeLastWins, hs]
    | none =>
      cases base <;> cases override <;>
        first
          | (simp [mergeLWFuel, mergeLWStep, deepMergeLastWins, hs, pure,
              Except.pure]; done)
          | skip
      rename_i bkvs okvs
      have hsz : sizeOf okvs < n := by
        have h1 : sizeOf (JSON.dict okvs) = 1 + sizeOf okvs := by simp
        omega
      rw [mergeLWFuel, deepMergeLastWins.eq_1, hs]
      dsimp only
      rw [mergeLWStep]
      rw [goLWWith_eq fmap path (mergeLWFuel n fmap) okvs bkvs
        (fun kv hm b p => ih fmap b kv.2 p
          (Nat.lt_trans (sizeOf_mem_dict hm) hsz))]
      cases hgo : deepMergeLastWinsGo fmap path bkvs okvs with
      | error e => simp [hgo, Bind.bind, Except.bind]
      | ok r => simp [hgo, Bind.bind, Except.bind, pure, Except.pure]

theorem mergeHostPortEmpty :
    deepMergeLastWins none (.dict [])
      (.dict [("host", .str "h1"), ("port", .int 1)]) ""
      = .ok (.dict [("host", .str "h1"), ("port", .int 1)]) := by
  rw [← mergeLWFuel_spec
    (sizeOf (JSON.dict [("host", JSON.str "h1"), ("port", JSON.int 1)]) + 1)
    none (.dict []) (.dict [("host", .str "h1"), ("port", .int 1)]) ""
    (Nat.lt_succ_self _)]
  rfl

theorem mergeHostPortSecond :
    deepMergeLastWins none (.dict [("host", .str "h1"), ("port", .int 1)])
      (.dict [("host", .str "h2")]) ""
      = .ok (.dict [("host", .str "h2"), ("port", .int 1)]) := by
  rw [← mergeLWFuel_spec (sizeOf (JSON.dict [("host", JSON.str "h2")]) + 1)
    none (.dict [("host", .str "h1"), ("port", .int 1)])
    (.dict [("host", .str "h2")]) "" (Nat.lt_succ_self _)]
  rfl

theorem violationsHostPortFirst :
    violationsOf (.dict []) (.dict [("host", .str "h1"), ("port", .int 1)])
      [["host", "port"]] 0 ⟨["s0", "s1"], [], "Cfg"⟩ = [] := rfl

theorem originsHostPort :
    updateOrigins [] [["host", "port"]]
      (.dict [("host", .str "h1"), ("port", .int 1)]) 0
      = [("host", 0), ("port", 0)] := rfl

theorem violationsHostPortSecond :
    violationsOf (.dict [("host", .str "h1"), ("port", .int 1)])
      (.dict [("host", .str "h2")]) [["host", "port"]] 1
      ⟨["s0", "s1"], [("host", 0), ("port", 0)], "Cfg"⟩
      = [⟨["host", "port"], ["host"], ["port"], ["s1"], ["s0"], 1⟩] := by
  simp [violationsOf, classifyGroup, getNestedValue, getNestedValue.walk,
    splitDots, splitOnChar, lookupAssoc, lookupOrigin, pyEq, toRat?, List.getD]

theorem fieldGroupSeqHostPort :
    fieldGroupSeqAux [["host", "port"]] ["s0", "s1"] "Cfg"
      [JSON.dict [("host", JSON.str "h1"), ("port", JSON.int 1)],
        JSON.dict [("host", JSON.str "h2")]] 0 (.dict []) []
      = [⟨["host", "port"], ["host"], ["port"], ["s1"], ["s0"], 1⟩] := by
  simp only [fieldGroupSeqAux, Nat.zero_add, violationsHostPortFirst,
    violationsHostPortSecond, mergeHostPortEmpty, mergeHostPortSecond,
    originsHostPort, List.nil_append, List.append_nil]

/-- C5: field-group validation classifies a leaf as changed exactly when the
new source supplies a value differing from the running merged value
(omitted or equal values are unchanged); one call records a violation for
exactly the groups with both classes non-empty and raises them together;
the sequence driver (modelled from the spec, the caller is absent from the
snapshot) folds the sources in order collecting every violation before
raising, so the violations of a source list split as the concatenation over
any prefix/suffix split; and the concrete group `[host, port]` over
`[\x7bhost: h1, port: 1\x7d, \x7bhost: h2\x7d]` raises exactly one
violation with `changed = [host]`, `unchanged = [port]`. -/
theorem C5_field_group_validation :
    (∀ (base source : JSON) (ctx : FieldGroupContext) (si : Nat)
      (paths : List String) (p : String),
      (p ∈ (classifyGroup base source ctx si paths).changed ↔
        p ∈ paths ∧ leafChanged base source p = true) ∧
      (p ∈ (classifyGroup base source ctx si paths).unchanged ↔
        p ∈ paths ∧ leafChanged base source p = false)) ∧
    (∀ (base source : JSON) (groups : List (List String)) (si : Nat)
      (ctx : FieldGroupContext),
      validateFieldGroups base source groups si ctx = .ok () ↔
        ∀ g ∈ groups, (∀ p ∈ g, leafChanged base source p = false) ∨
          (∀ p ∈ g, leafChanged base source p = true)) ∧
    (∀ (groups : List (List String)) (reprs : List String) (name : String)
      (s1 s2 : List JSON) (i : Nat) (merged : JSON)
      (origins : List (String × Nat)),
      fieldGroupSeqAux groups reprs name (s1 ++ s2) i merged origins
        = fieldGroupSeqAux groups reprs name s1 i merged origins
          ++ fieldGroupSeqAux groups reprs name s2 (i + s1.length)
              (fieldGroupFoldState groups s1 i (merged, origins)).1
              (fieldGroupFoldState groups s1 i (merged, origins)).2) ∧
    (∀ (sources : List JSON) (groups : List (List String)) (reprs : List String)
      (name : String) (vs : List FieldGroupViolation),
      fieldGroupSeqAux groups reprs name sources 0 (.dict []) [] = vs →
      (vs = [] → validateFieldGroupsSequence sources groups reprs name = .ok ()) ∧
      (vs ≠ [] → validateFieldGroupsSequence sources groups reprs name
        = .error (name, vs))) ∧
    validateFieldGroupsSequence
      [JSON.dict [("host", JSON.str "h1"), ("port", JSON.int 1)],
        JSON.dict [("host", JSON.str "h2")]]
      [["host", "port"]] ["s0", "s1"] "Cfg"
      = .error ("Cfg", [⟨["host", "port"], ["host"], ["port"], ["s1"], ["s0"], 1⟩]) := by
  refine ⟨classifyGroup_mem, ?_, fieldGroupSeqAux_append, ?_, ?_⟩
  · intro base source groups si ctx
    constructor
    · intro h
      have hnil : violationsOf base source groups si ctx = [] := by
        cases hvs : violationsOf base source groups si ctx with
        | nil => rfl
        | cons v vs =>
          rw [validateFieldGroups] at h
          rw [hvs] at h
          simp at h
      have hall := (violationsOf_eq_nil base source si ctx groups).mp hnil
      intro g hg
      rcases hall g hg with h1 | h1
      · exact Or.inl ((classifyGroup_changed_nil base source ctx si g).mp h1)
      · exact Or.inr ((classifyGroup_unchanged_nil base source ctx si g).mp h1)
    · intro h
      have hnil : violationsOf base source groups si ctx = [] := by
        rw [violationsOf_eq_nil]
        intro g hg
        rcases h g hg with h1 | h1
        · exact Or.inl ((classifyGroup_changed_nil base source ctx si g).mpr h1)
        · exact Or.inr ((classifyGroup_unchanged_nil base source ctx si g).mpr h1)
      rw [validateFieldGroups, hnil]
      rfl
  · intro sources groups reprs name vs hvs
    subst hvs
    constructor
    · intro hnil
      rw [validateFieldGroupsSequence, hnil]
      rfl
    · intro hne
      rw [validateFieldGroupsSequence]
      cases hvs2 : fieldGroupSeqAux groups reprs name sources 0 (.dict []) [] with
      | nil => exact absurd hvs2 hne
      | cons v vs2 => simp [hvs2]
  · simp only [validateFieldGroupsSequence, fieldGroupSeqHostPort]
    rfl

/-- C5 witness: the aggregate-error clause applied to the spec's concrete
sources, with the collected violation list computed explicitly. -/
theorem C5_witness :
    validateFieldGroupsSequence
      [JSON.dict [("host", JSON.str "h1"), ("port", JSON.int 1)],
        JSON.dict [("host", JSON.str "h2")]]
      [["host", "port"]] ["s0", "s1"] "Cfg"
      = .error ("Cfg",
          [⟨["host", "port"], ["host"], ["port"], ["s1"], ["s0"], 1⟩]) :=
  (C5_field_group_validation.2.2.2.1 _ _ _ _ _ fieldGroupSeqHostPort).2
    (fun hcontra => List.noConfusion hcontra)

/-- C6 counterexample: in the YAML text `note: |` / `  key: 1` / `key: 2`
the second line lies inside the block-scalar string value of `note`, yet
the scanner pushes it on the indentation stack as a real nested key: the
target path `["note", "key"]` — which does not exist as a real key — is
matched at line 2. -/
theorem C6_counterexample :
    yamlFindLineRange
      [['n', 'o', 't', 'e', ':', ' ', '|'],
        [' ', ' ', 'k', 'e', 'y', ':', ' ', '1'],
        ['k', 'e', 'y', ':', ' ', '2']]
      ["note", "key"] = some ⟨2, 2⟩ := by
  simp +decide [yamlFindLineRange, yamlFindAux, yamlProcessLine, lstripChars,
    stripChars, pyIsSpace, partitionChar, stripSet, quoteChars, squote,
    popGE, yamlBlockIndicators, yamlScanBlock]

/-- C6 (corrected): the TOML scanner never reports a key on any line read
while inside an unclosed multi-line string, and in the concrete text
`key =三quotes / content = 1 / 三quotes / real = 2` the inner `content` is
not found while the real `real` key after the close is found on line 4; a
key occurring inside a single-line string value is not matched by the JSON
or INI scanners; but the YAML scanner does treat an indented `key:` line
inside a block scalar as a real nested key (see `C6_counterexample`), while
still finding the real key after the block on its own later line. -/
theorem C6_keys_in_strings :
    (∀ (lines : List (List Char)) (sec : List String) (delim : List Char)
      (i : Nat) (line : List Char) (targetPath : List String) (tk : String),
      targetPath.getLast? = some tk →
      ∃ st2, tomlProcessLine lines (sec, some delim) i line targetPath
        = .ok (st2, none)) ∧
    tomlFindLineRange
      [['k', 'e', 'y', ' ', '=', ' ', '"', '"', '"'],
        ['c', 'o', 'n', 't', 'e', 'n', 't', ' ', '=', ' ', '1'],
        ['"', '"', '"'],
        ['r', 'e', 'a', 'l', ' ', '=', ' ', '2']]
      ["content"] = .ok none ∧
    tomlFindLineRange
      [['k', 'e', 'y', ' ', '=', ' ', '"', '"', '"'],
        ['c', 'o', 'n', 't', 'e', 'n', 't', ' ', '=', ' ', '1'],
        ['"', '"', '"'],
        ['r', 'e', 'a', 'l', ' ', '=', ' ', '2']]
      ["real"] = .ok (some ⟨4, 4⟩) ∧
    yamlFindLineRange
      [['n', 'o', 't', 'e', ':', ' ', '|'],
        [' ', ' ', 'k', 'e', 'y', ':', ' ', '1'],
        ['k', 'e', 'y', ':', ' ', '2']]
      ["key"] = some ⟨3, 3⟩ ∧
    jsonFindLineRange
      ['{', '"', 'n', 'o', 't', 'e', '"', ':', '"', 'k', 'e', 'y', '"', ',',
        '\n', '"', 'k', 'e', 'y', '"', ':', '1', '}']
      ["key"] = some ⟨2, 2⟩ ∧
    iniFindLineRange
      [['n', 'o', 't', 'e', ' ', '=', ' ', 'k', 'e', 'y', '=', '1']]
      ["key"] = .ok none := by
  refine ⟨?_, ?_, ?_, ?_, ?_, ?_⟩
  · intro lines sec delim i line targetPath tk htk
    rw [tomlProcessLine, htk]
    dsimp only
    split_ifs <;> exact ⟨_, rfl⟩
  · simp +decide [tomlFindLineRange, tomlFindAux, tomlProcessLine, stripChars,
      pyIsSpace, partitionChar, stripSet, quoteChars, squote, splitOnChar,
      detectUnclosedMultiline, isSubstring, countSub, List.isPrefixOf,
      findInlineContainerEnd, findMultilineStringEnd, findMultilineStringEndGo,
      processContainerChar, Bind.bind, Except.bind, pure, Except.pure]
  · simp +decide [tomlFindLineRange, tomlFindAux, tomlProcessLine, stripChars,
      pyIsSpace, partitionChar, stripSet, quoteChars, squote, splitOnChar,
      detectUnclosedMultiline, isSubstring, countSub, List.isPrefixOf,
      findInlineContainerEnd, findMultilineStringEnd, findMultilineStringEndGo,
      processContainerChar, Bind.bind, Except.bind, pure, Except.pure]
  · simp +decide [yamlFindLineRange, yamlFindAux, yamlProcessLine, lstripChars,
      stripChars, pyIsSpace, partitionChar, stripSet, quoteChars, squote,
      popGE, yamlBlockIndicators, yamlScanBlock]
  · rw [jsonFindLineRange, jsonFindAux.eq_2]
    rw [if_neg (by decide), if_neg (by decide), if_neg (by decide),
      if_pos (by decide)]
    rw [show (incrementParentArray [] ++
        [({ key := none, isArray := decide ('{' = '['), arrayIndex := -1 } :
          StackEntry)]) = [⟨none, false, -1⟩] from by decide]
    rw [jsonFindAux.eq_2]
    rw [if_neg (by decide), if_neg (by decide), if_neg (by decide),
      if_neg (by decide), if_neg (by decide), if_pos (by decide)]
    dsimp only
    split
    · rename_i afterColon heq
      rw [show skipWsChars (List.drop (jsonSkipStringCount
          ['n', 'o', 't', 'e', '"', ':', '"', 'k', 'e', 'y', '"', ',', '\n',
            '"', 'k', 'e', 'y', '"', ':', '1', '}'])
          ['n', 'o', 't', 'e', '"', ':', '"', 'k', 'e', 'y', '"', ',', '\n',
            '"', 'k', 'e', 'y', '"', ':', '1', '}'])
          = ':' :: ['"', 'k', 'e', 'y', '"', ',', '\n', '"', 'k', 'e', 'y',
            '"', ':', '1', '}'] from by decide] at heq
      injection heq with heq1 heq2
      subst heq2
      rw [if_neg (by decide)]
      rw [jsonFindAux.eq_2]
      rw [if_neg (by decide), if_neg (by decide), if_neg (by decide),
        if_neg (by decide), if_neg (by decide), if_pos (by decide)]
      dsimp only
      split
      · rename_i afterColon2 heq2
        rw [show skipWsChars (List.drop (jsonSkipStringCount
            ['k', 'e', 'y', '"', ',', '\n', '"', 'k', 'e', 'y', '"', ':',
              '1', '}'])
            ['k', 'e', 'y', '"', ',', '\n', '"', 'k', 'e', 'y', '"', ':',
              '1', '}'])
            = ',' :: ['\n', '"', 'k', 'e', 'y', '"', ':', '1', '}']
            from by decide] at heq2
        injection heq2 with hbad hrest
        exact absurd hbad (by decide)
      · rw [show List.drop (jsonSkipStringCount
            ['k', 'e', 'y', '"', ',', '\n', '"', 'k', 'e', 'y', '"', ':',
              '1', '}'])
            ['k', 'e', 'y', '"', ',', '\n', '"', 'k', 'e', 'y', '"', ':',
              '1', '}']
            = [',', '\n', '"', 'k', 'e', 'y', '"', ':', '1', '}']
            from by decide]
        rw [show incrementParentArray [(⟨none, false, -1⟩ : StackEntry)]
            = [⟨none, false, -1⟩] from by decide]
        rw [jsonFindAux.eq_2]
        rw [if_neg (by decide), if_neg (by decide), if_pos (by decide)]
        rw [jsonFindAux.eq_2]
        rw [if_pos (by decide)]
        rw [jsonFindAux.eq_2]
        rw [if_neg (by decide), if_neg (by decide), if_neg (by decide),
          if_neg (by decide), if_neg (by decide), if_pos (by decide)]
        dsimp only
        split
        · rename_i afterColon3 heq3
          rw [show skipWsChars (List.drop (jsonSkipStringCount
              ['k', 'e', 'y', '"', ':', '1', '}'])
              ['k', 'e', 'y', '"', ':', '1', '}'])
              = ':' :: ['1', '}'] from by decide] at heq3
          injection heq3 with heq4 heq5
          subst heq5
          rw [if_pos (by decide)]
          decide
        · rename_i hnc
          exact (hnc ['1', '}'] (by decide)).elim
    · rename_i hnc
      exact (hnc ['"', 'k', 'e', 'y', '"', ',', '\n', '"', 'k', 'e', 'y',
        '"', ':', '1', '}'] (by decide)).elim
  · simp +decide [iniFindLineRange, iniFindAux, iniProcessLine, stripChars,
      pyIsSpace, partitionChar, stripSet, quoteChars, squote, splitOnChar,
      iniScanContinuation, Bind.bind, Except.bind, pure, Except.pure]

/-- C6 witness: the multi-line suppression clause applied to the concrete
in-multiline state on the line `content = 1` with target `["content"]`. -/
theorem C6_witness :
    ∃ st2, tomlProcessLine
      [['c', 'o', 'n', 't', 'e', 'n', 't', ' ', '=', ' ', '1']]
      ([], some ['"', '"', '"']) 1
      ['c', 'o', 'n', 't', 'e', 'n', 't', ' ', '=', ' ', '1']
      ["content"] = .ok (st2, none) :=
  C6_keys_in_strings.1 _ [] ['"', '"', '"'] 1 _ ["content"] "content" rfl

end Dature
